import Mathlib

/-!
# Shortest-path engine of the CEGAR heuristic

Verification development for `src/search/cegar/shortest_paths.h` and
`src/search/cegar/types.h`.

`HeapQueue` wraps a `std::priority_queue` over a `std::vector`.  The standard
fixes `push` as `c.push_back(x); std::push_heap(...)` and `pop` as
`std::pop_heap(...); c.pop_back()`; the two heap algorithms are embedded as the
binary-heap sift-up and sift-down on the backing vector, a list here.  Loops
are structural recursions on a round counter, and every use passes a counter
that is proved to be large enough.

The member functions of `ShortestPaths` are declared in the header and defined
in `shortest_paths.cc`; definitions that stand for such bodies say so.
-/

namespace cegar

/-- Embeds `using Cost = uint64_t;`, an unsigned machine value, carried as a
natural number; the queue only compares costs. -/
abbrev Cost := Nat

/-- Embeds `using Entry = std::pair<Cost, int>;` -/
abbrev Entry := Nat × Int

/-- Embeds `HeapQueue::compare_func::operator()`: `lhs.first > rhs.first`. -/
def compare_func (lhs rhs : Entry) : Bool := decide (lhs.1 > rhs.1)

/-- Element access `*(first + i)` into the backing vector. -/
def at_ (xs : List Entry) (i : Nat) : Entry := xs.getD i (0, 0)

/-- Embeds `std::iter_swap(first + i, first + j)`. -/
def iter_swap (xs : List Entry) (i j : Nat) : List Entry :=
  (xs.set i (at_ xs j)).set j (at_ xs i)

/-- Sift-up loop of `std::push_heap`: while the hole is not the root and
`comp(parent, value)` holds, exchange with the parent.  The first argument
bounds the number of rounds. -/
def sift_up : Nat → List Entry → Nat → List Entry
  | 0, xs, _ => xs
  | fuel + 1, xs, i =>
    if 0 < i ∧ compare_func (at_ xs ((i - 1) / 2)) (at_ xs i) = true then
      sift_up fuel (iter_swap xs ((i - 1) / 2) i) ((i - 1) / 2)
    else xs

/-- Sift-down loop of `std::pop_heap` on the range `[0, len)`: exchange the
hole with its greatest child under `comp` (the one of least cost) until
neither child is greater.  The first argument bounds the number of rounds. -/
def sift_down : Nat → List Entry → Nat → Nat → List Entry
  | 0, xs, _, _ => xs
  | fuel + 1, xs, len, i =>
    let m1 := if 2 * i + 1 < len ∧ compare_func (at_ xs i) (at_ xs (2 * i + 1)) = true
      then 2 * i + 1 else i
    let m2 := if 2 * i + 2 < len ∧ compare_func (at_ xs m1) (at_ xs (2 * i + 2)) = true
      then 2 * i + 2 else m1
    if m2 = i then xs else sift_down fuel (iter_swap xs i m2) len m2

/-- Embeds `std::push_heap(c.begin(), c.end(), comp)`: the last element is sifted up. -/
def push_heap (xs : List Entry) : List Entry :=
  sift_up xs.length xs (xs.length - 1)

/-- Embeds `std::pop_heap(c.begin(), c.end(), comp)`: the first element is exchanged
with the last one and the range without the last slot is repaired. -/
def pop_heap (xs : List Entry) : List Entry :=
  sift_down xs.length (iter_swap xs 0 (xs.length - 1)) (xs.length - 1) 0

/-- Embeds `class HeapQueue`: the member `heap`, a `std::priority_queue` over a
`std::vector<Entry>`, given by its backing container `heap.c`. -/
structure HeapQueue where
  heap : List Entry
  deriving DecidableEq, Repr

namespace HeapQueue

/-- A newly constructed queue. -/
def new : HeapQueue := ⟨[]⟩

/-- Embeds `HeapQueue::push`: `heap.push(std::make_pair(key, value))`, that is
`c.push_back(x); std::push_heap(...)`. -/
def push (q : HeapQueue) (key : Cost) (value : Int) : HeapQueue :=
  ⟨push_heap (q.heap ++ [(key, value)])⟩

/-- Embeds `HeapQueue::empty`: `heap.empty()`. -/
def empty (q : HeapQueue) : Bool := q.heap.isEmpty

/-- Embeds `HeapQueue::pop`: `assert(!heap.empty())`, then `heap.top()` (the front of
the container) is returned after `heap.pop()`, that is
`std::pop_heap(...); c.pop_back()`.  The failed assertion is `none`. -/
def pop (q : HeapQueue) : Option (Entry × HeapQueue) :=
  if q.empty then none
  else some (at_ q.heap 0, ⟨(pop_heap q.heap).dropLast⟩)

/-- Embeds `HeapQueue::clear`: `heap.c.clear()`. -/
def clear (_q : HeapQueue) : HeapQueue := ⟨[]⟩

end HeapQueue

/-- One call on a queue. -/
inductive QueueOp where
  | push (key : Cost) (value : Int)
  | pop
  deriving DecidableEq, Repr

/-- Run a sequence of calls, collecting the entries returned by `pop` in call
order; `none` when a `pop` hits its assertion. -/
def run_ops : HeapQueue → List QueueOp → Option (HeapQueue × List Entry)
  | q, [] => some (q, [])
  | q, QueueOp.push k v :: ops => run_ops (q.push k v) ops
  | q, QueueOp.pop :: ops =>
    match q.pop with
    | none => none
    | some (e, q') =>
      match run_ops q' ops with
      | none => none
      | some (q'', out) => some (q'', e :: out)

/-- Entries handed to `push` by a sequence of calls. -/
def pushed : List QueueOp → List Entry
  | [] => []
  | QueueOp.push k v :: ops => (k, v) :: pushed ops
  | QueueOp.pop :: ops => pushed ops

/-- Number of `pop` calls in a sequence. -/
def num_pops : List QueueOp → Nat
  | [] => 0
  | QueueOp.push _ _ :: ops => num_pops ops
  | QueueOp.pop :: ops => num_pops ops + 1

/-- Push every entry of a list, in order. -/
def push_all (q : HeapQueue) : List Entry → HeapQueue
  | [] => q
  | e :: es => push_all (q.push e.1 e.2) es

/-- Call `pop` `n` times, collecting the results in order. -/
def pop_n : Nat → HeapQueue → Option (List Entry × HeapQueue)
  | 0, q => some ([], q)
  | n + 1, q =>
    match q.pop with
    | none => none
    | some (e, q') =>
      match pop_n n q' with
      | none => none
      | some (out, q'') => some (e :: out, q'')

/-! ### Heap order -/

/-- The range `[0, len)` of the vector is a heap for `compare_func`: no parent
has a greater cost than its child. -/
def HeapUpTo (xs : List Entry) (len : Nat) : Prop :=
  ∀ j, 0 < j → j < len → (at_ xs ((j - 1) / 2)).1 ≤ (at_ xs j).1

/-- The whole vector is a heap. -/
def IsHeap (xs : List Entry) : Prop := HeapUpTo xs xs.length

/-- Heap order on `[0, len)` except for the edge into `i`, whose children
already fit below the parent of `i`. -/
def UpInv (xs : List Entry) (len i : Nat) : Prop :=
  (∀ j, 0 < j → j < len → j ≠ i → (at_ xs ((j - 1) / 2)).1 ≤ (at_ xs j).1) ∧
  (∀ j, 0 < j → j < len → (j - 1) / 2 = i → 0 < i →
    (at_ xs ((i - 1) / 2)).1 ≤ (at_ xs j).1)

/-- Heap order on `[0, len)` except for the edges out of `i`, whose children
already fit below the parent of `i`. -/
def DownInv (xs : List Entry) (len i : Nat) : Prop :=
  (∀ j, 0 < j → j < len → (j - 1) / 2 ≠ i → (at_ xs ((j - 1) / 2)).1 ≤ (at_ xs j).1) ∧
  (∀ j, 0 < j → j < len → (j - 1) / 2 = i → 0 < i →
    (at_ xs ((i - 1) / 2)).1 ≤ (at_ xs j).1)

/-- Index chosen by one round of the sift-down loop: the child of `i` with the
least cost when that cost is below the cost at `i`, else `i`. -/
def down_target (xs : List Entry) (len i : Nat) : Nat :=
  let m1 := if 2 * i + 1 < len ∧ compare_func (at_ xs i) (at_ xs (2 * i + 1)) = true
    then 2 * i + 1 else i
  if 2 * i + 2 < len ∧ compare_func (at_ xs m1) (at_ xs (2 * i + 2)) = true
    then 2 * i + 2 else m1


/-! ### Cost domain bridge and shortest-path engine -/

/-- Embeds `const int INF = std::numeric_limits<int>::max();` (types.h). -/
def INF : Int := 2147483647

/-- Modelled from the spec: the constant `ShortestPaths::INF_COSTS` is declared
in shortest_paths.h and defined in the absent shortest_paths.cc.  The spec
describes the two sentinels as reserved maximal values of the wide integer
type, distinct from any true path cost; this is the greatest `uint64_t`. -/
def INF_COSTS : Nat := 18446744073709551615

/-- Modelled from the spec: the constant `ShortestPaths::DIRTY` of the absent
shortest_paths.cc, the second reserved maximal value of the wide type. -/
def DIRTY : Nat := 18446744073709551614

/-- Modelled from the spec: `struct Transition` of the absent transition.h, an
edge instance `(operator id, other endpoint state id)`. -/
structure Transition where
  op_id : Nat
  target_id : Nat
  deriving DecidableEq, Repr

/-- Embeds `using Transitions = std::vector<Transition>;` (types.h). -/
abbrev Transitions := List Transition

/-- Embeds `using Solution = std::deque<Transition>;` (types.h). -/
abbrev Solution := List Transition

/-- Embeds `using Goals = std::unordered_set<int>;` (types.h), as the list of its
members. -/
abbrev Goals := List Nat

/-- Embeds `class ShortestPaths` (shortest_paths.h): its data members.  Values of
type `Cost` are natural numbers below `2 ^ 64`; the tree array holds `none`
for the sentinel transition. -/
structure ShortestPaths where
  debug : Bool
  task_has_zero_costs : Bool
  operator_costs : List Nat
  candidate_queue : HeapQueue
  open_queue : HeapQueue
  goal_distances : List Nat
  dirty_states : List Nat
  shortest_path : List (Option Transition)
  deriving DecidableEq, Repr

namespace ShortestPaths

/-- Modelled from the spec: `ShortestPaths::convert_to_64_bit_cost` of the
absent shortest_paths.cc.  External to internal widens a bounded cost, mapping
external infinity to `INF_COSTS` exactly; other values are converted as an
`int` is converted to `uint64_t`. -/
def convert_to_64_bit_cost (cost : Int) : Cost :=
  if cost = INF then INF_COSTS else (cost % 18446744073709551616).toNat

/-- Modelled from the spec: `ShortestPaths::convert_to_32_bit_cost` of the
absent shortest_paths.cc.  Internal to external narrows a wide cost; any value
exceeding the external range is clamped to external infinity rather than
wrapped. -/
def convert_to_32_bit_cost (cost : Cost) : Int :=
  if INF ≤ (cost : Int) then INF else (cost : Int)

/-- Cost of an operator, the read `operator_costs[op_id]` of the member
vector. -/
def op_cost (sp : ShortestPaths) (op_id : Nat) : Nat := sp.operator_costs.getD op_id 0

/-- Goal distance of a state, the read `goal_distances[state_id]` of the
member vector; a state without an entry has no known path. -/
def dist (sp : ShortestPaths) (state_id : Nat) : Nat :=
  sp.goal_distances.getD state_id INF_COSTS

/-- Modelled from the spec: the constructor of the absent shortest_paths.cc,
which stores the operator costs once per engine instance. -/
def create (costs : List Int) (debug : Bool) : ShortestPaths :=
  { debug := debug
    task_has_zero_costs := costs.any (fun c => c == 0)
    operator_costs := costs.map convert_to_64_bit_cost
    candidate_queue := HeapQueue.new
    open_queue := HeapQueue.new
    goal_distances := []
    dirty_states := []
    shortest_path := [] }

/-- Modelled from the spec: seeding step of `full_dijkstra` (absent
shortest_paths.cc), one goal state enters at distance 0 with no tree
transition. -/
def seed_goal (sp : ShortestPaths) (goal : Nat) : ShortestPaths :=
  { sp with
    goal_distances := sp.goal_distances.set goal 0
    shortest_path := sp.shortest_path.set goal none
    open_queue := sp.open_queue.push 0 (goal : Int) }

/-- Modelled from the spec: relaxation step of `full_dijkstra` (absent
shortest_paths.cc) for one incoming transition `t` of `state`, whose distance
is `g`: the distance of the predecessor `t.target_id` becomes
`cost(op) + distance(state)` whenever that is smaller than the known one, and
the minimizing transition is recorded in the tree array. -/
def relax (state : Nat) (g : Nat) (sp : ShortestPaths) (t : Transition) : ShortestPaths :=
  let succ_g := (g + sp.op_cost t.op_id) % 18446744073709551616
  if succ_g < sp.dist t.target_id then
    { sp with
      goal_distances := sp.goal_distances.set t.target_id succ_g
      shortest_path := sp.shortest_path.set t.target_id (some ⟨t.op_id, state⟩)
      open_queue := sp.open_queue.push succ_g (t.target_id : Int) }
  else sp

/-- Modelled from the spec: main loop of `full_dijkstra` (absent
shortest_paths.cc), Dijkstra's algorithm on the reverse graph: pop the entry of
least cost, skip it when the state already has a smaller distance, else relax
every incoming transition of the state.  `none` when the fuel runs out before
the queue is empty. -/
def dijkstra_loop : Nat → List Transitions → ShortestPaths → Option ShortestPaths
  | 0, _, _ => none
  | fuel + 1, transitions, sp =>
    match sp.open_queue.pop with
    | none => some sp
    | some ((old_g, state_id), q) =>
      let sp1 := { sp with open_queue := q }
      let g := sp1.dist state_id.toNat
      if g < old_g then dijkstra_loop fuel transitions sp1
      else
        dijkstra_loop fuel transitions
          ((transitions.getD state_id.toNat []).foldl (relax state_id.toNat g) sp1)

/-- Modelled from the spec: `ShortestPaths::full_dijkstra` of the absent
shortest_paths.cc, a multi-source Dijkstra over the reverse graph, seeded with
every goal state at distance 0 and relaxing along each state's incoming
transitions; states not reached remain `INF_COSTS`.  The loop runs at most
once per queue entry, and there are at most as many entries as goals plus
transitions. -/
def full_dijkstra (sp : ShortestPaths) (transitions : List Transitions) (goals : Goals) :
    Option ShortestPaths :=
  let sp0 := { sp with
    open_queue := sp.open_queue.clear
    goal_distances := List.replicate transitions.length INF_COSTS
    shortest_path := List.replicate transitions.length none }
  dijkstra_loop (goals.length + (transitions.map List.length).sum + 1) transitions
    (goals.foldl seed_goal sp0)

/-- Modelled from the spec: loop of `extract_solution_from_shortest_path_tree`
(absent shortest_paths.cc), the walk along the tree array from `current` until
a goal state is reached, collecting the transitions followed.  `none` when
the round counter runs out or a state has no tree transition. -/
def extract_loop : Nat → ShortestPaths → Goals → Nat → Option Solution
  | 0, _, _, _ => none
  | fuel + 1, sp, goals, current =>
    if current ∈ goals then some []
    else
      match sp.shortest_path.getD current none with
      | none => none
      | some t => (extract_loop fuel sp goals t.target_id).map (fun rest => t :: rest)

/-- Modelled from the spec: `extract_solution_from_shortest_path_tree` of the
absent shortest_paths.cc.  Starting at `init_id` the recorded tree transition
is followed to its target until a state in `goals` is reached; the result is
`none` (unsolvable) if `goal_distances[init_id] == INF_COSTS`. -/
def extract_solution_from_shortest_path_tree (sp : ShortestPaths) (init_id : Nat)
    (goals : Goals) : Option Solution :=
  if sp.dist init_id = INF_COSTS then none
  else extract_loop (sp.goal_distances.length + 1) sp goals init_id

end ShortestPaths

/-! ### Specification of goal distances -/

/-- Path costs.  `PathCost costs transitions goals u d`: some path from state `u` to a goal
state has summed operator costs `d`.  The adjacency is the incoming one:
`(op, u)` listed for state `v` is the edge from `u` to `v` labelled `op`. -/
inductive PathCost (costs : List Nat) (transitions : List Transitions) (goals : Goals) :
    Nat → Nat → Prop where
  | goal (g : Nat) : g ∈ goals → PathCost costs transitions goals g 0
  | step (u op v d : Nat) : (⟨op, u⟩ : Transition) ∈ transitions.getD v [] →
      PathCost costs transitions goals v d →
      PathCost costs transitions goals u (d + costs.getD op 0)

/-- Well-formed input of the engine: goals and transition endpoints are state
ids, operator ids index the cost vector, the goal set has no repetition, and
costs and the number of states are within the range of a non-negative `int`. -/
structure WellFormed (costs : List Nat) (transitions : List Transitions) (goals : Goals) :
    Prop where
  goals_lt : ∀ g ∈ goals, g < transitions.length
  goals_nodup : goals.Nodup
  targets_lt : ∀ ts ∈ transitions, ∀ t ∈ ts, t.target_id < transitions.length
  ops_lt : ∀ ts ∈ transitions, ∀ t ∈ ts, t.op_id < costs.length
  cost_le : ∀ c ∈ costs, c ≤ 2147483647
  size_le : transitions.length ≤ 2147483647

/-- Loop invariant of `dijkstra_loop`.  `S` lists the states expanded so far
in expansion order, `s` is the state expanded last and `rest` its incoming
transitions not relaxed yet. -/
structure DInv (costs : List Nat) (transitions : List Transitions) (goals : Goals)
    (sp : ShortestPaths) (S : List Nat) (s : Nat) (rest : Transitions) : Prop where
  costs_eq : sp.operator_costs = costs
  len_gd : sp.goal_distances.length = transitions.length
  len_sp : sp.shortest_path.length = transitions.length
  heap : IsHeap sp.open_queue.heap
  qnodup : sp.open_queue.heap.Nodup
  snodup : S.Nodup
  s_lt : ∀ v ∈ S, v < transitions.length
  s_fin : ∀ v ∈ S, sp.dist v ≠ INF_COSTS
  bound : ∀ u, sp.dist u = INF_COSTS ∨ sp.dist u ≤ S.length * 2147483647
  goal0 : ∀ g ∈ goals, sp.dist g = 0
  sound : ∀ u, sp.dist u ≠ INF_COSTS → PathCost costs transitions goals u (sp.dist u)
  tree : ∀ u, sp.dist u ≠ INF_COSTS → u ∉ goals →
    ∃ op v, sp.shortest_path.getD u none = some ⟨op, v⟩ ∧
      (⟨op, u⟩ : Transition) ∈ transitions.getD v [] ∧ v ∈ S ∧
      sp.dist u = sp.dist v + costs.getD op 0 ∧ S.indexOf v < S.indexOf u
  opt : ∀ v ∈ S, ∀ d, PathCost costs transitions goals v d → sp.dist v ≤ d
  relaxed : ∀ v ∈ S, ∀ t ∈ transitions.getD v [],
    (v = s ∧ t ∈ rest) ∨ sp.dist t.target_id ≤ sp.dist v + costs.getD t.op_id 0
  queue : ∀ e ∈ sp.open_queue.heap, ∃ u, u < transitions.length ∧ e.2 = (u : Int) ∧
    sp.dist u ≤ e.1 ∧ (u ∈ S → sp.dist u < e.1) ∧ e.1 ≤ S.length * 2147483647
  front : ∀ u, u ∉ S → sp.dist u ≠ INF_COSTS → (sp.dist u, (u : Int)) ∈ sp.open_queue.heap
  mono : ∀ v ∈ S, ∀ e ∈ sp.open_queue.heap, sp.dist v ≤ e.1
  cur : s ∈ S → (∀ v ∈ S, sp.dist v ≤ sp.dist s) ∧
    sp.dist s + 2147483647 ≤ S.length * 2147483647
  rest_sub : ∀ t ∈ rest, t ∈ transitions.getD s []

/-- Summed in-degree of the states not expanded yet. -/
def pending_degree (transitions : List Transitions) (S : List Nat) : Nat :=
  (((List.range transitions.length).filter (fun v => decide (v ∉ S))).map
    (fun v => (transitions.getD v []).length)).sum

/-- Chained transitions.  `valid_path transitions cur sol`: the transitions of `sol` follow one
another in the graph, starting at state `cur`. -/
def valid_path (transitions : List Transitions) : Nat → Solution → Prop
  | _, [] => True
  | cur, t :: rest =>
    (⟨t.op_id, cur⟩ : Transition) ∈ transitions.getD t.target_id [] ∧
      valid_path transitions t.target_id rest

/-- Last state of a transition sequence that starts at `cur`. -/
def end_state : Nat → Solution → Nat
  | cur, [] => cur
  | _, t :: rest => end_state t.target_id rest

/-- Summed operator costs of a transition sequence. -/
def solution_cost (costs : List Nat) (sol : Solution) : Nat :=
  (sol.map (fun t => costs.getD t.op_id 0)).sum

/-! ### Incremental repair after a split -/

namespace ShortestPaths

/-- Target of the tree transition recorded for a state, if any. -/
def tree_target (sp : ShortestPaths) (state : Nat) : Option Nat :=
  (sp.shortest_path.getD state none).map (fun t => t.target_id)

/-- Modelled from the spec: `ShortestPaths::mark_dirty` of the absent
shortest_paths.cc sets the distance of the state to `DIRTY` and adds the state
to the dirty set; it is idempotent. -/
def mark_dirty (sp : ShortestPaths) (state : Nat) : ShortestPaths :=
  if sp.dist state = DIRTY then sp
  else
    { sp with
      goal_distances := sp.goal_distances.set state DIRTY
      dirty_states := sp.dirty_states ++ [state] }

/-- Modelled from the spec: `ShortestPaths::mark_orphaned_predecessors` of the
absent shortest_paths.cc traverses the incoming transitions of `state` and, for
every predecessor whose own tree transition leads to `state`, marks that
predecessor dirty and recurses into it.  The first argument bounds the depth
of the recursion; every level marks a further state. -/
def mark_orphaned_predecessors :
    Nat → List Transitions → ShortestPaths → Nat → ShortestPaths
  | 0, _, sp, _ => sp
  | fuel + 1, in_, sp, state =>
    (in_.getD state []).foldl
      (fun sp t =>
        if sp.tree_target t.target_id = some state ∧ sp.dist t.target_id ≠ DIRTY then
          mark_orphaned_predecessors fuel in_ (sp.mark_dirty t.target_id) t.target_id
        else sp)
      sp

/-- Modelled from the spec: marking of one orphan of the split state `v`, a
state `u` whose tree transition pointed at `v`, together with the states whose
tree path runs through `u`. -/
def mark_orphan (in_ : List Transitions) (v : Nat) (sp : ShortestPaths) (u : Nat) :
    ShortestPaths :=
  if sp.tree_target u = some v ∧ sp.dist u ≠ DIRTY then
    mark_orphaned_predecessors in_.length in_ (sp.mark_dirty u) u
  else sp

/-- Modelled from the spec: the two invalidation scopes selected by
`filter_orphans`.  The narrow scope (`true`) looks for orphans among the states
with a transition into `v1` or `v2`, the states next to `v` in the former
tree; the wide scope (`false`) looks at every state whose recorded tree
transition mentions `v`.  Either way an orphan is marked with predecessor
propagation. -/
def mark_orphans (in_ : List Transitions) (v v1 v2 : Nat) (filter_orphans : Bool)
    (sp : ShortestPaths) : ShortestPaths :=
  if filter_orphans then
    ((in_.getD v1 [] ++ in_.getD v2 []).map (fun t => t.target_id)).foldl (mark_orphan in_ v) sp
  else
    (List.range in_.length).foldl (mark_orphan in_ v) sp

/-- Modelled from the spec: one outgoing transition of a dirty state is
compared with the best one seen so far; a transition to a state whose distance
is `DIRTY` or `INF_COSTS` is passed over, and a later transition replaces the
best one only when it is strictly cheaper. -/
def best_step (sp : ShortestPaths) (best : Option (Nat × Transition)) (t : Transition) :
    Option (Nat × Transition) :=
  if sp.dist t.target_id = DIRTY ∨ sp.dist t.target_id = INF_COSTS then best
  else
    let cand := (sp.dist t.target_id + sp.op_cost t.op_id) % 18446744073709551616
    match best with
    | none => some (cand, t)
    | some (d, t') => if cand < d then some (cand, t) else some (d, t')

/-- Modelled from the spec: fresh tentative distance of a dirty state from its
remaining outgoing transitions, those that lead to a state whose distance is
neither `DIRTY` nor `INF_COSTS`: the least `cost(op) + distance(t)` and the
first transition that attains it. -/
def best_successor (sp : ShortestPaths) (out : Transitions) : Option (Nat × Transition) :=
  out.foldl (best_step sp) none

/-- Modelled from the spec: re-seeding of one dirty state with the tentative
distance found for it; a state with a remaining outgoing transition enters the
open queue, any other becomes unreachable. -/
def reseed (sp : ShortestPaths) (seed : Nat × Option (Nat × Transition)) : ShortestPaths :=
  match seed.2 with
  | none =>
    { sp with
      goal_distances := sp.goal_distances.set seed.1 INF_COSTS
      shortest_path := sp.shortest_path.set seed.1 none }
  | some (d, t) =>
    { sp with
      goal_distances := sp.goal_distances.set seed.1 d
      shortest_path := sp.shortest_path.set seed.1 (some t)
      open_queue := sp.open_queue.push d (seed.1 : Int) }

/-- Modelled from the spec: first step of `dijkstra_from_orphans` (absent
shortest_paths.cc): the arrays grow to the new number of states, a new state
has no known path and no tree transition, and the open queue and the dirty
set are emptied. -/
def resize (sp : ShortestPaths) (n : Nat) : ShortestPaths :=
  { sp with
    open_queue := sp.open_queue.clear
    dirty_states := []
    goal_distances :=
      sp.goal_distances ++ List.replicate (n - sp.goal_distances.length) INF_COSTS
    shortest_path :=
      sp.shortest_path ++ List.replicate (n - sp.shortest_path.length) none }

/-- Modelled from the spec: invalidation phase of `dijkstra_from_orphans`
(absent shortest_paths.cc): `v1`, `v2` and every orphan of the split state are
marked dirty. -/
def mark_split (sp : ShortestPaths) (in_ : List Transitions) (v v1 v2 : Nat)
    (filter_orphans : Bool) : ShortestPaths :=
  mark_orphans in_ v v1 v2 filter_orphans (((sp.resize in_.length).mark_dirty v1).mark_dirty v2)

/-- Modelled from the spec: re-seeding phase of `dijkstra_from_orphans` (absent
shortest_paths.cc): every dirty state gets its tentative distance from the
distances that are still valid. -/
def reseed_dirty (sp : ShortestPaths) (out : List Transitions) : ShortestPaths :=
  (sp.dirty_states.map (fun s => (s, best_successor sp (out.getD s [])))).foldl reseed sp

/-- Modelled from the spec: `ShortestPaths::dijkstra_from_orphans` of the
absent shortest_paths.cc, the repair after the split of `v` into `v1` and
`v2`, with the adjacency already updated by the caller.  The arrays grow to
the new number of states; `v1`, `v2` and every orphan are marked dirty; every
dirty state is re-seeded from its remaining outgoing transitions; then the
Dijkstra loop of `full_dijkstra` runs on the open queue. -/
def dijkstra_from_orphans (sp : ShortestPaths) (in_ out : List Transitions)
    (v v1 v2 : Nat) (filter_orphans : Bool) : Option ShortestPaths :=
  let sp2 := sp.mark_split in_ v v1 v2 filter_orphans
  dijkstra_loop (sp2.dirty_states.length + (in_.map List.length).sum + 1) in_
    (sp2.reseed_dirty out)

end ShortestPaths

/-! ### Queue calls with `empty()` -/

/-- One call on a queue among `push`, `pop` and `empty`. -/
inductive QueueCall where
  | push (key : Cost) (value : Int)
  | pop
  | empty
  deriving DecidableEq, Repr

/-- What a call on a queue gives back: nothing for `push`, the entry for
`pop`, the answer for `empty`, or the failed assertion of `pop`, after which
nothing more runs. -/
inductive QueueResult where
  | pushed
  | popped (e : Entry)
  | answered (b : Bool)
  | failed
  deriving DecidableEq, Repr

/-- Run a sequence of calls and collect what each of them gives back. -/
def run_calls : HeapQueue → List QueueCall → List QueueResult
  | _, [] => []
  | q, QueueCall.push k v :: cs => QueueResult.pushed :: run_calls (q.push k v) cs
  | q, QueueCall.pop :: cs =>
    match q.pop with
    | none => [QueueResult.failed]
    | some (e, q') => QueueResult.popped e :: run_calls q' cs
  | q, QueueCall.empty :: cs => QueueResult.answered q.empty :: run_calls q cs

/-- Entries handed to `push` by a sequence of calls. -/
def pushed_by : List QueueCall → List Entry
  | [] => []
  | QueueCall.push k v :: cs => (k, v) :: pushed_by cs
  | QueueCall.pop :: cs => pushed_by cs
  | QueueCall.empty :: cs => pushed_by cs

/-! ### Relaxed possibly-before facts (utils.cc) -/

/-- A fact `(variable, value)`, what a `FactProxy` of the absent
task_proxy.h stands for. -/
structure Fact where
  var : Nat
  value : Nat
  deriving DecidableEq, Repr

/-- An operator as `operator_applicable`, `operator_achieves_fact` and
`compute_possibly_before_facts` read it through `OperatorProxy`: the facts of
`get_preconditions()` and the facts `get_fact()` of `get_effects()`. -/
structure Operator where
  preconditions : List Fact
  effects : List Fact
  deriving DecidableEq, Repr

/-- A task as the functions of utils.cc read it through `TaskProxy`: the
domain size of every variable (`get_variables()`), the value of every variable
in the initial state (`get_initial_state()`) and the operators
(`get_operators()`). -/
structure Task where
  domain_sizes : List Nat
  initial_state : List Nat
  operators : List Operator
  deriving DecidableEq, Repr

/-- Facts of the initial state in iteration order, one per variable. -/
def Task.initial_facts (task : Task) : List Fact :=
  (List.range task.initial_state.length).map
    (fun i => Fact.mk i (task.initial_state.getD i 0))

/-- Every fact of the task: each value of each variable. -/
def Task.all_facts (task : Task) : List Fact :=
  (List.range task.domain_sizes.length).flatMap
    (fun i => (List.range (task.domain_sizes.getD i 0)).map (fun v => Fact.mk i v))

/-- Number of facts of the task. -/
def Task.num_facts (task : Task) : Nat := task.domain_sizes.sum

/-- Well-formed task: the initial state gives every variable a value of its
domain and every effect fact is a fact of the task. -/
structure Task.WellFormed (task : Task) : Prop where
  init_length : task.initial_state.length = task.domain_sizes.length
  init_value : ∀ i, i < task.domain_sizes.length →
    task.initial_state.getD i 0 < task.domain_sizes.getD i 0
  effect_fact : ∀ op ∈ task.operators, ∀ e ∈ op.effects,
    e.var < task.domain_sizes.length ∧ e.value < task.domain_sizes.getD e.var 0

/-- `utils::HashSet<FactProxy>::insert`: the set, kept as a list without
repetition, gains the fact unless it holds it already. -/
def hash_set_insert (facts : List Fact) (fact : Fact) : List Fact :=
  if fact ∈ facts then facts else facts ++ [fact]

/-- Embeds `operator_applicable`: every precondition is counted in `facts`. -/
def operator_applicable (op : Operator) (facts : List Fact) : Bool :=
  op.preconditions.all (fun precondition => decide (precondition ∈ facts))

/-- Embeds `operator_achieves_fact`: some effect has the fact `fact`. -/
def operator_achieves_fact (op : Operator) (fact : Fact) : Bool :=
  op.effects.any (fun effect => decide (effect = fact))

/-- Body of the `for` loop over the operators in
`compute_possibly_before_facts` for one operator: an operator that achieves
`last_fact` is skipped, an applicable one inserts all its effect facts. -/
def pb_visit (last_fact : Fact) (pb_facts : List Fact) (op : Operator) : List Fact :=
  if operator_achieves_fact op last_fact then pb_facts
  else if operator_applicable op pb_facts then op.effects.foldl hash_set_insert pb_facts
  else pb_facts

/-- One round of the `while` loop of `compute_possibly_before_facts`: the
`for` loop over all operators. -/
def pb_round (task : Task) (last_fact : Fact) (pb_facts : List Fact) : List Fact :=
  task.operators.foldl (pb_visit last_fact) pb_facts

/-- The `while (last_num_reached != pb_facts.size())` loop of
`compute_possibly_before_facts`.  The first argument bounds the number of
rounds; the result is the set at exit and the number of rounds run, `none`
when the bound is hit before the loop exits. -/
def pb_loop : Nat → Task → Fact → Nat → List Fact → Option (List Fact × Nat)
  | 0, _, _, last_num_reached, pb_facts =>
    if last_num_reached = pb_facts.length then some (pb_facts, 0) else none
  | fuel + 1, task, last_fact, last_num_reached, pb_facts =>
    if last_num_reached = pb_facts.length then some (pb_facts, 0)
    else
      (pb_loop fuel task last_fact pb_facts.length (pb_round task last_fact pb_facts)).map
        (fun r => (r.1, r.2 + 1))

/-- Embeds `compute_possibly_before_facts`: the facts of the initial state are
inserted, then the loop runs with `last_num_reached = 0`.  The loop is given
one round more than the task has facts. -/
def compute_possibly_before_facts (task : Task) (last_fact : Fact) : Option (List Fact) :=
  (pb_loop (task.num_facts + 1) task last_fact 0
    (task.initial_facts.foldl hash_set_insert [])).map (fun r => r.1)

/-- Embeds `get_relaxed_possible_before`: the possibly-before facts of `fact`
with `fact` inserted. -/
def get_relaxed_possible_before (task : Task) (fact : Fact) : Option (List Fact) :=
  (compute_possibly_before_facts task fact).map
    (fun reachable_facts => hash_set_insert reachable_facts fact)

/-- Embeds `get_domain_sizes`: the domain size of every variable, in order. -/
def get_domain_sizes (task : Task) : List Nat := task.domain_sizes

/-- `S` is closed under the operators of the task that do not achieve
`last_fact`: when all preconditions of such an operator are in `S`, so are all
its effect facts. -/
def ClosedUnder (task : Task) (last_fact : Fact) (S : Fact → Prop) : Prop :=
  ∀ op ∈ task.operators, operator_achieves_fact op last_fact = false →
    (∀ p ∈ op.preconditions, S p) → ∀ e ∈ op.effects, S e

/-! ### Option `h_update` (utils.cc, types.h) -/

/-- Embeds `enum class HUpdateStrategy` (types.h). -/
inductive HUpdateStrategy where
  | STATES_ON_TRACE
  | COST_MINUS_G
  | FULL_DIJKSTRA
  | DIJKSTRA_FROM_ORPHANS
  | DIJKSTRA_FROM_UNCONNECTED_ORPHANS
  | INCREMENTAL_UNINFORMED_SEARCH
  | INCREMENTAL_HEURISTIC_SEARCH
  | OPTIMIZED_INCREMENTAL_UNINFORMED_SEARCH
  | OPTIMIZED_INCREMENTAL_HEURISTIC_SEARCH
  deriving DecidableEq, Repr

namespace HUpdateStrategy

/-- The enumerators in declaration order; position `i` holds the enumerator of
value `i`. -/
def enumerators : List HUpdateStrategy :=
  [STATES_ON_TRACE, COST_MINUS_G, FULL_DIJKSTRA, DIJKSTRA_FROM_ORPHANS,
   DIJKSTRA_FROM_UNCONNECTED_ORPHANS, INCREMENTAL_UNINFORMED_SEARCH,
   INCREMENTAL_HEURISTIC_SEARCH, OPTIMIZED_INCREMENTAL_UNINFORMED_SEARCH,
   OPTIMIZED_INCREMENTAL_HEURISTIC_SEARCH]

/-- Underlying value of an enumerator. -/
def to_index : HUpdateStrategy → Nat
  | STATES_ON_TRACE => 0
  | COST_MINUS_G => 1
  | FULL_DIJKSTRA => 2
  | DIJKSTRA_FROM_ORPHANS => 3
  | DIJKSTRA_FROM_UNCONNECTED_ORPHANS => 4
  | INCREMENTAL_UNINFORMED_SEARCH => 5
  | INCREMENTAL_HEURISTIC_SEARCH => 6
  | OPTIMIZED_INCREMENTAL_UNINFORMED_SEARCH => 7
  | OPTIMIZED_INCREMENTAL_HEURISTIC_SEARCH => 8

/-- Identifier of an enumerator as written in types.h. -/
def name : HUpdateStrategy → String
  | STATES_ON_TRACE => "STATES_ON_TRACE"
  | COST_MINUS_G => "COST_MINUS_G"
  | FULL_DIJKSTRA => "FULL_DIJKSTRA"
  | DIJKSTRA_FROM_ORPHANS => "DIJKSTRA_FROM_ORPHANS"
  | DIJKSTRA_FROM_UNCONNECTED_ORPHANS => "DIJKSTRA_FROM_UNCONNECTED_ORPHANS"
  | INCREMENTAL_UNINFORMED_SEARCH => "INCREMENTAL_UNINFORMED_SEARCH"
  | INCREMENTAL_HEURISTIC_SEARCH => "INCREMENTAL_HEURISTIC_SEARCH"
  | OPTIMIZED_INCREMENTAL_UNINFORMED_SEARCH => "OPTIMIZED_INCREMENTAL_UNINFORMED_SEARCH"
  | OPTIMIZED_INCREMENTAL_HEURISTIC_SEARCH => "OPTIMIZED_INCREMENTAL_HEURISTIC_SEARCH"

end HUpdateStrategy

/-- What `add_h_update_option` hands to `parser.add_enum_option`: the key, the
names pushed onto the vector `h_update` in order, the help text and the
default value. -/
structure EnumOption where
  key : String
  names : List String
  help : String
  default_value : String
  deriving DecidableEq, Repr

/-- Embeds `add_h_update_option`. -/
def add_h_update_option : EnumOption :=
  { key := "h_update"
    names :=
      ((((((((([] : List String).concat "STATES_ON_TRACE").concat "COST_MINUS_G").concat
        "FULL_DIJKSTRA").concat "DIJKSTRA_FROM_ORPHANS").concat
        "DIJKSTRA_FROM_UNCONNECTED_ORPHANS").concat "INCREMENTAL_UNINFORMED_SEARCH").concat
        "INCREMENTAL_HEURISTIC_SEARCH").concat "OPTIMIZED_INCREMENTAL_UNINFORMED_SEARCH").concat
        "OPTIMIZED_INCREMENTAL_HEURISTIC_SEARCH"
    help := "strategy for updating goal distances or distance estimates"
    default_value := "COST_MINUS_G" }

/-! ### Invariants of the Dijkstra loop and of a repair -/

/-- Loop invariant of `dijkstra_loop` when it runs from a state in which some
distances are final already, as in a repair.  `S` lists the states whose
distance is final, in an order along which tree transitions lead backwards,
`s` is the state expanded last and `rest` its incoming transitions not relaxed
yet. -/
structure RInv (costs : List Nat) (transitions : List Transitions) (goals : Goals)
    (sp : ShortestPaths) (S : List Nat) (s : Nat) (rest : Transitions) : Prop where
  costs_eq : sp.operator_costs = costs
  len_gd : sp.goal_distances.length = transitions.length
  len_sp : sp.shortest_path.length = transitions.length
  heap : IsHeap sp.open_queue.heap
  qnodup : sp.open_queue.heap.Nodup
  snodup : S.Nodup
  s_lt : ∀ v ∈ S, v < transitions.length
  s_fin : ∀ v ∈ S, sp.dist v ≠ INF_COSTS
  bound : ∀ u, sp.dist u = INF_COSTS ∨ sp.dist u ≤ S.length * 2147483647
  goal0 : ∀ g ∈ goals, sp.dist g = 0
  sound : ∀ u, sp.dist u ≠ INF_COSTS → PathCost costs transitions goals u (sp.dist u)
  tree : ∀ u, sp.dist u ≠ INF_COSTS → u ∉ goals →
    ∃ op v, sp.shortest_path.getD u none = some ⟨op, v⟩ ∧
      (⟨op, u⟩ : Transition) ∈ transitions.getD v [] ∧ v ∈ S ∧
      sp.dist u = sp.dist v + costs.getD op 0 ∧ S.indexOf v < S.indexOf u
  opt : ∀ v ∈ S, ∀ d, PathCost costs transitions goals v d → sp.dist v ≤ d
  relaxed : ∀ v ∈ S, ∀ t ∈ transitions.getD v [],
    (v = s ∧ t ∈ rest) ∨ sp.dist t.target_id ≤ sp.dist v + costs.getD t.op_id 0
  queue : ∀ e ∈ sp.open_queue.heap, ∃ u, u < transitions.length ∧ e.2 = (u : Int) ∧
    sp.dist u ≤ e.1 ∧ (u ∈ S → sp.dist u < e.1) ∧ e.1 ≤ S.length * 2147483647
  front : ∀ u, u ∉ S → sp.dist u ≠ INF_COSTS → (sp.dist u, (u : Int)) ∈ sp.open_queue.heap
  goal_tree : ∀ g ∈ goals, sp.shortest_path.getD g none = none
  cur : s ∈ S → sp.dist s + 2147483647 ≤ S.length * 2147483647
  rest_sub : ∀ t ∈ rest, t ∈ transitions.getD s []


/-- What the caller of `dijkstra_from_orphans` has done to the adjacency when
state `v` of the graph `old_in` was split into `v1` and `v2`: one child keeps
the id of `v` and the other gets the next fresh id; `out` lists the edges of
`in_` and `in_` those of `out`; when both children are mapped back to `v`,
every edge of the new graph lies over an edge of the old one or becomes a
self-loop; an edge that does not touch `v` is kept; an edge into `v` from
another state now enters `v1` or `v2`; and `v` is not a goal state. -/
structure SplitOf (old_in in_ out : List Transitions) (goals : Goals) (v v1 v2 : Nat) :
    Prop where
  length_in : in_.length = old_in.length + 1
  v_lt : v < old_in.length
  ids : (v1 = v ∧ v2 = old_in.length) ∨ (v1 = old_in.length ∧ v2 = v)
  out_sub : ∀ u, u < in_.length → ∀ t ∈ out.getD u [],
    (⟨t.op_id, u⟩ : Transition) ∈ in_.getD t.target_id []
  in_sub : ∀ w, w < in_.length → ∀ t ∈ in_.getD w [],
    (⟨t.op_id, w⟩ : Transition) ∈ out.getD t.target_id []
  project : ∀ w, w < in_.length → ∀ t ∈ in_.getD w [],
    (if t.target_id = old_in.length then v else t.target_id) =
        (if w = old_in.length then v else w) ∨
      (⟨t.op_id, if t.target_id = old_in.length then v else t.target_id⟩ : Transition) ∈
        old_in.getD (if w = old_in.length then v else w) []
  persist : ∀ w, w < old_in.length → w ≠ v → ∀ t ∈ old_in.getD w [], t.target_id ≠ v →
    t ∈ in_.getD w []
  redistribute : ∀ t ∈ old_in.getD v [], t.target_id ≠ v →
    t ∈ in_.getD v1 [] ∨ t ∈ in_.getD v2 []
  not_goal : v ∉ goals

/-- State of the engine while orphans are marked, relative to the state `sp0`
in which no state was dirty: only distances and the dirty set change, a
distance is `DIRTY` or as before, and the dirty set lists exactly the states
whose distance is `DIRTY`. -/
structure Marking (sp0 sp : ShortestPaths) (n : Nat) : Prop where
  path_eq : sp.shortest_path = sp0.shortest_path
  costs_eq : sp.operator_costs = sp0.operator_costs
  queue_eq : sp.open_queue = sp0.open_queue
  len : sp.goal_distances.length = n
  dist_or : ∀ u, sp.dist u = DIRTY ∨ sp.dist u = sp0.dist u
  dirty_nodup : sp.dirty_states.Nodup
  dirty_iff : ∀ u, u ∈ sp.dirty_states ↔ sp.dist u = DIRTY

/-- Every state with a transition into `x` whose tree transition leads to `x`
is dirty. -/
def ChildrenDirty (in_ : List Transitions) (sp : ShortestPaths) (x : Nat) : Prop :=
  ∀ t ∈ in_.getD x [], sp.tree_target t.target_id = some x → sp.dist t.target_id = DIRTY

/-- A step of the marking from `sp` to `sp'`: the result is a marking again,
no state leaves the dirty set, and every state that entered it has a tree
transition and all its tree children dirty. -/
structure MarkStep (in_ : List Transitions) (sp0 : ShortestPaths) (n : Nat)
    (sp sp' : ShortestPaths) : Prop where
  marking : Marking sp0 sp' n
  mono : ∀ w, sp.dist w = DIRTY → sp'.dist w = DIRTY
  newly : ∀ y, sp'.dist y = DIRTY → sp.dist y ≠ DIRTY →
    ChildrenDirty in_ sp' y ∧ (sp0.tree_target y).isSome = true

/-- State of the engine between the invalidation and the re-seeding of a
repair.  `S` lists the states whose distance is still valid, in an order
along which tree transitions lead backwards: their distances are least path
costs of the graph, their tree transitions stay inside `S`, and every
transition into a state of `S` is relaxed unless it comes from a dirty
state.  `out` lists the edges of `in_` and `in_` those of `out`. -/
structure Marked (costs : List Nat) (in_ out : List Transitions) (goals : Goals)
    (sp : ShortestPaths) (S : List Nat) : Prop where
  costs_eq : sp.operator_costs = costs
  len_gd : sp.goal_distances.length = in_.length
  len_sp : sp.shortest_path.length = in_.length
  queue_nil : sp.open_queue.heap = []
  dirty_nodup : sp.dirty_states.Nodup
  dirty_iff : ∀ u, u ∈ sp.dirty_states ↔ sp.dist u = DIRTY
  out_sub : ∀ u, u < in_.length → ∀ t ∈ out.getD u [],
    (⟨t.op_id, u⟩ : Transition) ∈ in_.getD t.target_id []
  in_sub : ∀ w, w < in_.length → ∀ t ∈ in_.getD w [],
    (⟨t.op_id, w⟩ : Transition) ∈ out.getD t.target_id []
  snodup : S.Nodup
  s_iff : ∀ u, u ∈ S ↔ (sp.dist u ≠ INF_COSTS ∧ sp.dist u ≠ DIRTY)
  goal0 : ∀ g ∈ goals, sp.dist g = 0
  goal_tree : ∀ g ∈ goals, sp.shortest_path.getD g none = none
  tree : ∀ u ∈ S, u ∉ goals →
    ∃ op v, sp.shortest_path.getD u none = some ⟨op, v⟩ ∧
      (⟨op, u⟩ : Transition) ∈ in_.getD v [] ∧ v ∈ S ∧
      sp.dist u = sp.dist v + costs.getD op 0 ∧ S.indexOf v < S.indexOf u
  opt : ∀ v ∈ S, ∀ d, PathCost costs in_ goals v d → sp.dist v ≤ d
  relaxed : ∀ v ∈ S, ∀ t ∈ in_.getD v [],
    sp.dist t.target_id = DIRTY ∨ sp.dist t.target_id ≤ sp.dist v + costs.getD t.op_id 0

/-- Clean states of the engine: the state computed by `full_dijkstra` on a
well-formed transition system, and the state computed by
`dijkstra_from_orphans` from a clean state after the split of a non-goal
state. -/
inductive Clean (costs : List Nat) : List Transitions → Goals → ShortestPaths → Prop where
  | full (sp sp' : ShortestPaths) (transitions : List Transitions) (goals : Goals) :
      sp.operator_costs = costs → WellFormed costs transitions goals →
      sp.full_dijkstra transitions goals = some sp' → Clean costs transitions goals sp'
  | repair (sp sp' : ShortestPaths) (old_in in_ out : List Transitions) (goals : Goals)
      (v v1 v2 : Nat) (filter_orphans : Bool) :
      Clean costs old_in goals sp → WellFormed costs in_ goals →
      SplitOf old_in in_ out goals v v1 v2 →
      sp.dijkstra_from_orphans in_ out v v1 v2 filter_orphans = some sp' →
      Clean costs in_ goals sp'

/-- Queue entry that re-seeding pushes for a dirty state: the tentative
distance with the state, if the state has one. -/
def seed_entry (x : Nat × Option (Nat × Transition)) : Option Entry :=
  x.2.map (fun p => (p.1, (x.1 : Int)))

end cegar

/-! ### Constraints of the post-hoc optimization LP (pho_heuristic.cc) -/

namespace cost_saturation

/-- The constant `INF` of the absent cost_saturation/types.h, taken as the
greatest `int` like `INF` of cegar/types.h. -/
def INF : Int := 2147483647

/-- What `PhO::PhO` uses of `lp::LPConstraint` (absent lp_solver.h): a
constraint is created with a lower and an upper bound, gains a term by
`insert(index, coefficient)` and is `empty()` when it has no term.  The lower
bound is minus infinity in every constraint built here and is not recorded. -/
structure LPConstraint where
  upper_bound : Int
  terms : List (Nat × Int)
  deriving DecidableEq, Repr

/-- Embeds `LPConstraint::insert` as used by `PhO::PhO`. -/
def LPConstraint.insert (constraint : LPConstraint) (index : Nat) (coefficient : Int) :
    LPConstraint :=
  { constraint with terms := constraint.terms ++ [(index, coefficient)] }

/-- Embeds `LPConstraint::empty` as used by `PhO::PhO`. -/
def LPConstraint.empty (constraint : LPConstraint) : Bool := constraint.terms.isEmpty

/-- Body of the loop over the abstractions in `PhO::PhO` for operator `op_id`
and abstraction `i`.  In saturated mode a saturated cost of `-INF` runs
`continue`, which goes on with the next abstraction, and any other non-zero
saturated cost is inserted; otherwise the operator cost is inserted when the
operator is active in the abstraction and the cost is not zero.
`operator_is_active i op_id` stands for `abstractions[i]->operator_is_active(op_id)`. -/
def add_term (saturated : Bool) (saturated_costs_by_abstraction : List (List Int))
    (operator_is_active : Nat → Nat → Bool) (costs : List Int) (op_id : Nat)
    (constraint : LPConstraint) (i : Nat) : LPConstraint :=
  if saturated then
    let scf_h := (saturated_costs_by_abstraction.getD i []).getD op_id 0
    if scf_h = -INF then constraint
    else if scf_h ≠ 0 then constraint.insert i scf_h
    else constraint
  else if operator_is_active i op_id ∧ costs.getD op_id 0 ≠ 0 then
    constraint.insert i (costs.getD op_id 0)
  else constraint

/-- The constraint built for operator `op_id` by the loop over all
abstractions, starting from `LPConstraint(-infinity, costs[op_id])`. -/
def constraint_for (saturated : Bool) (saturated_costs_by_abstraction : List (List Int))
    (operator_is_active : Nat → Nat → Bool) (costs : List Int) (num_abstractions op_id : Nat) :
    LPConstraint :=
  (List.range num_abstractions).foldl
    (add_term saturated saturated_costs_by_abstraction operator_is_active costs op_id)
    { upper_bound := costs.getD op_id 0, terms := [] }

/-- The vector `constraints` that `PhO::PhO` hands to `lp_solver.load_problem`:
the loop over the operators pushes the constraint of every operator for which
it is not empty.  `saturated_costs_by_abstraction` is the member filled from
the abstractions before. -/
def pho_constraints (saturated : Bool) (saturated_costs_by_abstraction : List (List Int))
    (operator_is_active : Nat → Nat → Bool) (costs : List Int) (num_abstractions : Nat) :
    List LPConstraint :=
  (List.range costs.length).foldl
    (fun constraints op_id =>
      let constraint := constraint_for saturated saturated_costs_by_abstraction
        operator_is_active costs num_abstractions op_id
      if constraint.empty then constraints else constraints ++ [constraint])
    []

end cost_saturation

namespace cegar

/-! ### The backing vector -/

theorem set_set_perm {α : Type} [DecidableEq α] (l : List α) (i j : Nat)
    (hi : i < l.length) (hj : j < l.length) :
    ((l.set i (l.get ⟨j, hj⟩)).set j (l.get ⟨i, hi⟩)).Perm l := by
  rw [List.perm_iff_count]
  intro a
  rw [List.count_set _ _ _ _ (by simpa using hj), List.count_set _ _ _ _ hi]
  simp only [List.get_eq_getElem, List.getElem_set]
  have hci : (if l[i] == a then 1 else 0) ≤ l.count a := by
    by_cases h : l[i] == a
    · simp only [h, if_true]
      have : a ∈ l := (beq_iff_eq.mp h) ▸ List.getElem_mem hi
      exact List.count_pos_iff.mpr this
    · simp [h]
  have hcj : (if l[j] == a then 1 else 0) ≤ l.count a := by
    by_cases h : l[j] == a
    · simp only [h, if_true]
      have : a ∈ l := (beq_iff_eq.mp h) ▸ List.getElem_mem hj
      exact List.count_pos_iff.mpr this
    · simp [h]
  by_cases hij : i = j
  · subst hij
    simp only [if_true]
    split_ifs at hci ⊢ <;> omega
  · simp only [hij, if_false]
    by_cases h1 : l[i] == a <;> by_cases h2 : l[j] == a <;>
      simp only [h1, h2, if_true, if_false, Bool.false_eq_true] at hci hcj ⊢ <;> omega

theorem at_eq_getElem (xs : List Entry) (i : Nat) (h : i < xs.length) :
    at_ xs i = xs.get ⟨i, h⟩ := by
  simp [at_, List.getD_eq_getElem?_getD, List.getElem?_eq_getElem h]

theorem at_mem (xs : List Entry) (i : Nat) (h : i < xs.length) : at_ xs i ∈ xs := by
  rw [at_eq_getElem xs i h]; exact List.get_mem xs i h

theorem exists_at_of_mem (xs : List Entry) (x : Entry) (h : x ∈ xs) :
    ∃ i, i < xs.length ∧ at_ xs i = x := by
  obtain ⟨i, hi, hx⟩ := List.getElem_of_mem h
  exact ⟨i, hi, by rw [at_eq_getElem xs i hi]; exact hx⟩

theorem at_set (xs : List Entry) (i k : Nat) (x : Entry) (h : i < xs.length) :
    at_ (xs.set i x) k = if k = i then x else at_ xs k := by
  unfold at_
  simp only [List.getD_eq_getElem?_getD, List.getElem?_set]
  by_cases hk : k = i
  · subst hk; simp [h]
  · have : ¬ i = k := fun e => hk e.symm
    simp [hk, this]

theorem length_iter_swap (xs : List Entry) (i j : Nat) :
    (iter_swap xs i j).length = xs.length := by
  simp [iter_swap]

theorem at_iter_swap (xs : List Entry) (i j k : Nat) (hi : i < xs.length) (hj : j < xs.length) :
    at_ (iter_swap xs i j) k =
      if k = j then at_ xs i else if k = i then at_ xs j else at_ xs k := by
  unfold iter_swap
  rw [at_set _ _ _ _ (by simpa using hj), at_set _ _ _ _ hi]

theorem iter_swap_perm (xs : List Entry) (i j : Nat) (hi : i < xs.length) (hj : j < xs.length) :
    (iter_swap xs i j).Perm xs := by
  unfold iter_swap
  rw [at_eq_getElem xs i hi, at_eq_getElem xs j hj]
  exact set_set_perm xs i j hi hj

/-! ### Heap order -/

theorem compare_func_iff (a b : Entry) : compare_func a b = true ↔ b.1 < a.1 := by
  simp [compare_func]

theorem heap_root_le (xs : List Entry) (len : Nat) (h : HeapUpTo xs len) :
    ∀ i, i < len → (at_ xs 0).1 ≤ (at_ xs i).1 := by
  intro i
  induction i using Nat.strong_induction_on with
  | _ i ih =>
    intro hi
    by_cases h0 : i = 0
    · subst h0; exact le_refl _
    · have hp : (i - 1) / 2 < i := by omega
      exact le_trans (ih _ hp (by omega)) (h i (by omega) hi)

theorem length_sift_up (fuel : Nat) (xs : List Entry) (i : Nat) :
    (sift_up fuel xs i).length = xs.length := by
  induction fuel generalizing xs i with
  | zero => rfl
  | succ n ih =>
    unfold sift_up
    split_ifs
    · rw [ih, length_iter_swap]
    · rfl

theorem sift_up_perm (fuel : Nat) (xs : List Entry) (i : Nat) (hi : i < xs.length) :
    (sift_up fuel xs i).Perm xs := by
  induction fuel generalizing xs i with
  | zero => exact List.Perm.refl _
  | succ n ih =>
    unfold sift_up
    split_ifs with h
    · have hp : (i - 1) / 2 < xs.length := by omega
      exact (ih _ _ (by rw [length_iter_swap]; exact hp)).trans (iter_swap_perm xs _ _ hp hi)
    · exact List.Perm.refl _

theorem sift_up_heap (fuel : Nat) (xs : List Entry) (i : Nat) (hi : i < xs.length)
    (hf : i ≤ fuel) (h : UpInv xs xs.length i) : IsHeap (sift_up fuel xs i) := by
  induction fuel generalizing xs i with
  | zero =>
    have hi0 : i = 0 := by omega
    subst hi0
    intro j hj hlt
    exact h.1 j hj hlt (by omega)
  | succ n ih =>
    unfold sift_up
    split_ifs with hc
    · obtain ⟨hpos, hcmp⟩ := hc
      rw [compare_func_iff] at hcmp
      have hp : (i - 1) / 2 < xs.length := by omega
      apply ih _ _ (by rw [length_iter_swap]; exact hp) (by omega)
      rw [length_iter_swap]
      constructor
      · intro j hj hlt hne
        rw [at_iter_swap xs _ _ _ hp hi, at_iter_swap xs _ _ _ hp hi]
        by_cases hji : j = i
        · subst hji
          simp only [if_true]
          have : ¬ ((j - 1) / 2 = j) := by omega
          simp only [this, if_false, if_true]
          exact le_of_lt hcmp
        · simp only [hji, hne, if_false]
          by_cases hpj : (j - 1) / 2 = i
          · simp only [hpj, if_true]
            exact h.2 j hj hlt hpj hpos
          · simp only [hpj, if_false]
            by_cases hpp : (j - 1) / 2 = (i - 1) / 2
            · simp only [hpp, if_true]
              have := h.1 j hj hlt hji
              rw [hpp] at this
              exact le_trans (le_of_lt hcmp) this
            · simp only [hpp, if_false]
              exact h.1 j hj hlt hji
      · intro j hj hlt hpj hppos
        rw [at_iter_swap xs _ _ _ hp hi, at_iter_swap xs _ _ _ hp hi]
        have e1 : ¬ (((i - 1) / 2 - 1) / 2 = i) := by omega
        have e2 : ¬ (((i - 1) / 2 - 1) / 2 = (i - 1) / 2) := by omega
        simp only [e1, e2, if_false]
        have hgp := h.1 ((i - 1) / 2) hppos hp (by omega)
        by_cases hji : j = i
        · subst hji
          simp only [if_true]
          exact hgp
        · have e3 : ¬ (j = (i - 1) / 2) := by omega
          simp only [hji, e3, if_false]
          have := h.1 j hj hlt hji
          rw [hpj] at this
          exact le_trans hgp this
    · intro j hj hlt
      by_cases hji : j = i
      · subst hji
        rw [not_and, compare_func_iff] at hc
        exact not_lt.mp (hc hj)
      · exact h.1 j hj hlt hji

theorem sift_down_succ (fuel : Nat) (xs : List Entry) (len i : Nat) :
    sift_down (fuel + 1) xs len i =
      if down_target xs len i = i then xs
      else sift_down fuel (iter_swap xs i (down_target xs len i)) len (down_target xs len i) := by
  rfl

theorem down_target_cases (xs : List Entry) (len i : Nat) :
    (down_target xs len i = i ∧
      (∀ j, j < len → (j - 1) / 2 = i → 0 < j → (at_ xs i).1 ≤ (at_ xs j).1)) ∨
    (i < down_target xs len i ∧ down_target xs len i < len ∧
      (down_target xs len i - 1) / 2 = i ∧
      (at_ xs (down_target xs len i)).1 < (at_ xs i).1 ∧
      (∀ j, j < len → (j - 1) / 2 = i → 0 < j →
        (at_ xs (down_target xs len i)).1 ≤ (at_ xs j).1)) := by
  unfold down_target
  simp only [compare_func_iff]
  have key : ∀ j, (j - 1) / 2 = i → 0 < j → j = 2 * i + 1 ∨ j = 2 * i + 2 := by
    intro j h1 h2; omega
  by_cases h1 : 2 * i + 1 < len ∧ (at_ xs (2 * i + 1)).1 < (at_ xs i).1
  · rw [if_pos h1]
    by_cases h2 : 2 * i + 2 < len ∧ (at_ xs (2 * i + 2)).1 < (at_ xs (2 * i + 1)).1
    · rw [if_pos h2]
      right
      refine ⟨by omega, h2.1, by omega, lt_trans h2.2 h1.2, ?_⟩
      intro j hj hp hpos
      rcases key j hp hpos with e | e
      · subst e; exact le_of_lt h2.2
      · subst e; exact le_refl _
    · rw [if_neg h2]
      right
      refine ⟨by omega, h1.1, by omega, h1.2, ?_⟩
      intro j hj hp hpos
      rcases key j hp hpos with e | e
      · subst e; exact le_refl _
      · subst e
        rw [not_and, not_lt] at h2
        exact h2 hj
  · rw [if_neg h1]
    by_cases h2 : 2 * i + 2 < len ∧ (at_ xs (2 * i + 2)).1 < (at_ xs i).1
    · rw [if_pos h2]
      right
      refine ⟨by omega, h2.1, by omega, h2.2, ?_⟩
      intro j hj hp hpos
      rcases key j hp hpos with e | e
      · subst e
        rw [not_and, not_lt] at h1
        exact le_trans (le_of_lt h2.2) (h1 hj)
      · subst e; exact le_refl _
    · rw [if_neg h2]
      left
      refine ⟨rfl, ?_⟩
      intro j hj hp hpos
      rw [not_and, not_lt] at h1 h2
      rcases key j hp hpos with e | e
      · subst e; exact h1 hj
      · subst e; exact h2 hj

theorem length_sift_down (fuel : Nat) (xs : List Entry) (len i : Nat) :
    (sift_down fuel xs len i).length = xs.length := by
  induction fuel generalizing xs i with
  | zero => rfl
  | succ n ih =>
    rw [sift_down_succ]
    split_ifs
    · rfl
    · rw [ih, length_iter_swap]

theorem sift_down_perm (fuel : Nat) (xs : List Entry) (len i : Nat)
    (hlen : len ≤ xs.length) : (sift_down fuel xs len i).Perm xs := by
  induction fuel generalizing xs i with
  | zero => exact List.Perm.refl _
  | succ n ih =>
    rw [sift_down_succ]
    split_ifs with h
    · exact List.Perm.refl _
    · rcases down_target_cases xs len i with hc | hc
      · exact absurd hc.1 h
      · exact (ih _ _ (by rw [length_iter_swap]; exact hlen)).trans
          (iter_swap_perm xs _ _ (by omega) (by omega))

theorem sift_down_at_ge (fuel : Nat) (xs : List Entry) (len i k : Nat)
    (hlen : len ≤ xs.length) (hk : len ≤ k) :
    at_ (sift_down fuel xs len i) k = at_ xs k := by
  induction fuel generalizing xs i with
  | zero => rfl
  | succ n ih =>
    rw [sift_down_succ]
    split_ifs with h
    · rfl
    · rcases down_target_cases xs len i with hc | hc
      · exact absurd hc.1 h
      · rw [ih _ _ (by rw [length_iter_swap]; exact hlen),
          at_iter_swap xs _ _ _ (by omega) (by omega)]
        have e1 : ¬ (k = down_target xs len i) := by omega
        have e2 : ¬ (k = i) := by omega
        simp only [e1, e2, if_false]

theorem sift_down_heap (fuel : Nat) (xs : List Entry) (len i : Nat)
    (hlen : len ≤ xs.length) (hf : len ≤ i + fuel) (h : DownInv xs len i) :
    HeapUpTo (sift_down fuel xs len i) len := by
  induction fuel generalizing xs i with
  | zero =>
    intro j hj hlt
    exact h.1 j hj hlt (by omega)
  | succ n ih =>
    rw [sift_down_succ]
    rcases down_target_cases xs len i with hc | hc
    · rw [if_pos hc.1]
      intro j hj hlt
      by_cases hp : (j - 1) / 2 = i
      · rw [hp]; exact hc.2 j hlt hp hj
      · exact h.1 j hj hlt hp
    · obtain ⟨hgt, hmlen, hmp, hmlt, hmin⟩ := hc
      rw [if_neg (by omega)]
      have hil : i < xs.length := by omega
      have hml : down_target xs len i < xs.length := by omega
      apply ih _ _ (by rw [length_iter_swap]; exact hlen) (by omega)
      generalize down_target xs len i = m at *
      constructor
      · intro j hj hlt hne
        rw [at_iter_swap xs _ _ _ hil hml, at_iter_swap xs _ _ _ hil hml]
        by_cases hjm : j = m
        · subst hjm
          have e1 : ¬ (i = j) := by omega
          simp only [if_true, e1, if_false, hmp]
          exact le_of_lt hmlt
        · simp only [hjm, hne, if_false]
          by_cases hji : j = i
          · subst hji
            have e1 : ¬ ((j - 1) / 2 = j) := by omega
            simp only [if_true, e1, if_false]
            exact h.2 m (by omega) hmlen hmp hj
          · simp only [hji, if_false]
            by_cases hpj : (j - 1) / 2 = i
            · simp only [hpj, if_true]
              exact hmin j hlt hpj hj
            · simp only [hpj, if_false]
              exact h.1 j hj hlt hpj
      · intro j hj hlt hpj hmpos
        rw [at_iter_swap xs _ _ _ hil hml, at_iter_swap xs _ _ _ hil hml]
        have e1 : ¬ (i = m) := by omega
        have e2 : ¬ (j = m) := by omega
        have e3 : ¬ (j = i) := by omega
        simp only [e1, e2, e3, hmp, if_true, if_false]
        have := h.1 j hj hlt (by omega)
        rw [hpj] at this
        exact this

/-! ### `push_heap` and `pop_heap` -/

theorem at_append_left (xs ys : List Entry) (i : Nat) (h : i < xs.length) :
    at_ (xs ++ ys) i = at_ xs i := by
  simp [at_, List.getD_eq_getElem?_getD, List.getElem?_append_left h]

theorem at_dropLast (xs : List Entry) (i : Nat) (h : i < xs.length - 1) :
    at_ xs.dropLast i = at_ xs i := by
  have h2 : i < xs.length := by omega
  simp [at_, List.getD_eq_getElem?_getD, List.dropLast_eq_take, List.getElem?_take, h,
    List.getElem?_eq_getElem h2]

theorem push_heap_isHeap (xs : List Entry) (e : Entry) (h : IsHeap xs) :
    IsHeap (push_heap (xs ++ [e])) := by
  unfold push_heap
  apply sift_up_heap
  · simp
  · simp
  · simp only [List.length_append, List.length_singleton, Nat.add_sub_cancel]
    constructor
    · intro j hj hlt hne
      have hjl : j < xs.length := by omega
      rw [at_append_left _ _ _ hjl, at_append_left _ _ _ (by omega)]
      exact h j hj hjl
    · intro j hj hlt hp
      omega

theorem push_heap_perm (xs : List Entry) (e : Entry) :
    (push_heap (xs ++ [e])).Perm (e :: xs) := by
  unfold push_heap
  refine (sift_up_perm _ _ _ (by simp)).trans ?_
  exact List.perm_append_comm

theorem pop_heap_length (xs : List Entry) : (pop_heap xs).length = xs.length := by
  unfold pop_heap
  rw [length_sift_down, length_iter_swap]

theorem pop_heap_perm (xs : List Entry) (hne : xs ≠ []) : (pop_heap xs).Perm xs := by
  have hpos : 0 < xs.length := List.length_pos.mpr hne
  unfold pop_heap
  refine (sift_down_perm _ _ _ _ (by rw [length_iter_swap]; omega)).trans ?_
  exact iter_swap_perm xs _ _ hpos (by omega)

theorem pop_heap_last (xs : List Entry) (hne : xs ≠ []) :
    at_ (pop_heap xs) (xs.length - 1) = at_ xs 0 := by
  have hpos : 0 < xs.length := List.length_pos.mpr hne
  unfold pop_heap
  rw [sift_down_at_ge _ _ _ _ _ (by rw [length_iter_swap]; omega) (le_refl _),
    at_iter_swap xs _ _ _ hpos (by omega)]
  simp

theorem pop_heap_heapUpTo (xs : List Entry) (hne : xs ≠ []) (h : IsHeap xs) :
    HeapUpTo (pop_heap xs) (xs.length - 1) := by
  have hpos : 0 < xs.length := List.length_pos.mpr hne
  unfold pop_heap
  apply sift_down_heap
  · rw [length_iter_swap]; omega
  · omega
  · constructor
    · intro j hj hlt hp
      rw [at_iter_swap xs _ _ _ hpos (by omega), at_iter_swap xs _ _ _ hpos (by omega)]
      have e1 : ¬ ((j - 1) / 2 = xs.length - 1) := by omega
      have e2 : ¬ (j = xs.length - 1) := by omega
      have e3 : ¬ (j = 0) := by omega
      simp only [e1, e2, e3, hp, if_false]
      exact h j hj (by omega)
    · intro j hj hlt hp h0
      omega

theorem dropLast_pop_heap_isHeap (xs : List Entry) (hne : xs ≠ []) (h : IsHeap xs) :
    IsHeap (pop_heap xs).dropLast := by
  intro j hj hlt
  have hl : (pop_heap xs).dropLast.length = xs.length - 1 := by
    rw [List.length_dropLast, pop_heap_length]
  rw [hl] at hlt
  rw [at_dropLast _ _ (by rw [pop_heap_length]; omega),
    at_dropLast _ _ (by rw [pop_heap_length]; omega)]
  exact pop_heap_heapUpTo xs hne h j hj hlt

theorem dropLast_pop_heap_perm (xs : List Entry) (hne : xs ≠ []) :
    xs.Perm (at_ xs 0 :: (pop_heap xs).dropLast) := by
  have hpos : 0 < xs.length := List.length_pos.mpr hne
  have hne2 : pop_heap xs ≠ [] := by
    apply List.ne_nil_of_length_pos
    rw [pop_heap_length]; exact hpos
  have hlast : (pop_heap xs).getLast hne2 = at_ xs 0 := by
    rw [← pop_heap_last xs hne, List.getLast_eq_getElem,
      at_eq_getElem _ _ (by rw [pop_heap_length]; omega)]
    simp [pop_heap_length]
  have hsplit := List.dropLast_append_getLast hne2
  rw [hlast] at hsplit
  have h1 : xs.Perm ((pop_heap xs).dropLast ++ [at_ xs 0]) := by
    rw [hsplit]; exact (pop_heap_perm xs hne).symm
  exact h1.trans List.perm_append_comm

/-! ### Queue operations -/

theorem HeapQueue.empty_iff (q : HeapQueue) : q.empty = true ↔ q.heap = [] := by
  simp [HeapQueue.empty]

theorem HeapQueue.push_isHeap (q : HeapQueue) (k : Cost) (v : Int) (h : IsHeap q.heap) :
    IsHeap (q.push k v).heap :=
  push_heap_isHeap q.heap (k, v) h

theorem HeapQueue.push_perm (q : HeapQueue) (k : Cost) (v : Int) :
    (q.push k v).heap.Perm ((k, v) :: q.heap) :=
  push_heap_perm q.heap (k, v)

theorem HeapQueue.pop_eq_some (q : HeapQueue) (hne : q.heap ≠ []) :
    q.pop = some (at_ q.heap 0, ⟨(pop_heap q.heap).dropLast⟩) := by
  unfold HeapQueue.pop
  have : q.empty = false := by
    cases hq : q.empty
    · rfl
    · exact absurd ((HeapQueue.empty_iff q).mp hq) hne
  simp [this]

theorem HeapQueue.pop_spec (q : HeapQueue) (hne : q.heap ≠ []) (h : IsHeap q.heap) :
    ∃ e q', q.pop = some (e, q') ∧ IsHeap q'.heap ∧ q.heap.Perm (e :: q'.heap) ∧
      ∀ x ∈ q.heap, e.1 ≤ x.1 := by
  refine ⟨_, _, HeapQueue.pop_eq_some q hne, dropLast_pop_heap_isHeap _ hne h,
    dropLast_pop_heap_perm _ hne, ?_⟩
  intro x hx
  obtain ⟨i, hi, rfl⟩ := exists_at_of_mem _ _ hx
  exact heap_root_le _ _ h i hi

theorem isHeap_nil : IsHeap [] := by
  intro j _ hlt
  simp at hlt

theorem run_ops_inv (ops : List QueueOp) :
    ∀ (q q' : HeapQueue) (outs : List Entry), IsHeap q.heap →
      run_ops q ops = some (q', outs) →
      IsHeap q'.heap ∧ (q'.heap ++ outs).Perm (q.heap ++ pushed ops) ∧
        outs.length = num_pops ops := by
  induction ops with
  | nil =>
    intro q q' outs h hr
    simp only [run_ops, Option.some.injEq, Prod.mk.injEq] at hr
    obtain ⟨rfl, rfl⟩ := hr
    exact ⟨h, by simp [pushed], rfl⟩
  | cons op ops ih =>
    intro q q' outs h hr
    cases op with
    | push k v =>
      simp only [run_ops] at hr
      obtain ⟨h1, h2, h3⟩ := ih _ _ _ (HeapQueue.push_isHeap q k v h) hr
      refine ⟨h1, ?_, h3⟩
      refine h2.trans ?_
      simp only [pushed]
      refine ((HeapQueue.push_perm q k v).append_right _).trans ?_
      exact (@List.perm_middle _ (k, v) q.heap (pushed ops)).symm
    | pop =>
      simp only [run_ops] at hr
      by_cases hne : q.heap = []
      · have : q.pop = none := by
          unfold HeapQueue.pop
          simp [(HeapQueue.empty_iff q).mpr hne]
        rw [this] at hr
        exact absurd hr (by simp)
      · obtain ⟨e, q1, hp, hh, hperm, _⟩ := HeapQueue.pop_spec q hne h
        rw [hp] at hr
        simp only at hr
        cases hrec : run_ops q1 ops with
        | none => rw [hrec] at hr; exact absurd hr (by simp)
        | some r =>
          obtain ⟨q2, out2⟩ := r
          rw [hrec] at hr
          simp only [Option.some.injEq, Prod.mk.injEq] at hr
          obtain ⟨rfl, rfl⟩ := hr
          obtain ⟨h1, h2, h3⟩ := ih _ _ _ hh hrec
          refine ⟨h1, ?_, by simp [num_pops, h3]⟩
          simp only [pushed]
          have a1 : (q2.heap ++ e :: out2).Perm (e :: (q2.heap ++ out2)) := List.perm_middle
          have a2 : (e :: (q2.heap ++ out2)).Perm (e :: (q1.heap ++ pushed ops)) :=
            List.Perm.cons e h2
          have a3 : (e :: (q1.heap ++ pushed ops)).Perm (q.heap ++ pushed ops) :=
            (hperm.append_right (pushed ops)).symm
          exact a1.trans (a2.trans a3)

theorem push_all_inv (es : List Entry) :
    ∀ q : HeapQueue, IsHeap q.heap →
      IsHeap (push_all q es).heap ∧ (push_all q es).heap.Perm (q.heap ++ es) := by
  induction es with
  | nil => intro q h; exact ⟨h, by simp [push_all]⟩
  | cons e es ih =>
    intro q h
    obtain ⟨h1, h2⟩ := ih (q.push e.1 e.2) (HeapQueue.push_isHeap q e.1 e.2 h)
    refine ⟨h1, h2.trans ?_⟩
    refine ((HeapQueue.push_perm q e.1 e.2).append_right es).trans ?_
    exact (@List.perm_middle _ e q.heap es).symm

theorem pop_n_spec (n : Nat) :
    ∀ q : HeapQueue, IsHeap q.heap → q.heap.length = n →
      ∃ out q', pop_n n q = some (out, q') ∧ q'.heap = [] ∧ out.Perm q.heap ∧
        out.Pairwise (fun a b => a.1 ≤ b.1) := by
  induction n with
  | zero =>
    intro q _ hl
    exact ⟨[], q, rfl, List.length_eq_zero.mp hl, by rw [List.length_eq_zero.mp hl],
      List.Pairwise.nil⟩
  | succ n ih =>
    intro q h hl
    have hne : q.heap ≠ [] := by
      intro e; rw [e] at hl; simp at hl
    obtain ⟨e, q1, hp, hh, hperm, hmin⟩ := HeapQueue.pop_spec q hne h
    have hl1 : q1.heap.length = n := by
      have := hperm.length_eq
      simp only [List.length_cons] at this
      omega
    obtain ⟨out, q2, hpn, hemp, hperm2, hsorted⟩ := ih q1 hh hl1
    refine ⟨e :: out, q2, ?_, hemp, ?_, ?_⟩
    · simp only [pop_n, hp, hpn]
    · exact (List.Perm.cons e hperm2).trans hperm.symm
    · refine List.Pairwise.cons ?_ hsorted
      intro x hx
      apply hmin
      exact hperm.symm.subset (List.mem_cons_of_mem _ (hperm2.subset hx))

/-! ### Arrays of the engine -/

theorem getD_set_eq {α : Type} (l : List α) (i j : Nat) (x d : α) (h : i < l.length) :
    (l.set i x).getD j d = if j = i then x else l.getD j d := by
  simp only [List.getD_eq_getElem?_getD, List.getElem?_set]
  by_cases hj : j = i
  · subst hj; simp [h]
  · have : ¬ i = j := fun e => hj e.symm
    simp [hj, this]

theorem getD_eq_default_of_le {α : Type} (l : List α) (j : Nat) (d : α) (h : l.length ≤ j) :
    l.getD j d = d := by
  simp [List.getD_eq_getElem?_getD, List.getElem?_eq_none h]

theorem getD_replicate_eq {α : Type} (n j : Nat) (x : α) :
    (List.replicate n x).getD j x = x := by
  by_cases h : j < n
  · simp [List.getD_eq_getElem?_getD, List.getElem?_replicate, h]
  · simp [List.getD_eq_getElem?_getD, List.getElem?_replicate, h]

theorem getD_mem_or_default {α : Type} (l : List α) (j : Nat) (d : α) :
    l.getD j d ∈ l ∨ l.getD j d = d := by
  by_cases h : j < l.length
  · left
    simp [List.getD_eq_getElem?_getD, List.getElem?_eq_getElem h]
  · right
    exact getD_eq_default_of_le l j d (by omega)

theorem nodup_length_le (S : List Nat) (n : Nat) (hn : S.Nodup) (hlt : ∀ v ∈ S, v < n) :
    S.length ≤ n := by
  have h1 : S.toFinset ⊆ Finset.range n := by
    intro v hv
    simp only [List.mem_toFinset] at hv
    simpa using hlt v hv
  have h2 := Finset.card_le_card h1
  rw [List.toFinset_card_of_nodup hn, Finset.card_range] at h2
  exact h2

theorem mem_push_iff (q : HeapQueue) (k : Cost) (v : Int) (x : Entry) :
    x ∈ (q.push k v).heap ↔ x = (k, v) ∨ x ∈ q.heap := by
  rw [(HeapQueue.push_perm q k v).mem_iff, List.mem_cons]

theorem length_push (q : HeapQueue) (k : Cost) (v : Int) :
    (q.push k v).heap.length = q.heap.length + 1 := by
  rw [(HeapQueue.push_perm q k v).length_eq, List.length_cons]

theorem cost_getD_le (costs : List Nat) (op : Nat) (h : ∀ c ∈ costs, c ≤ 2147483647) :
    costs.getD op 0 ≤ 2147483647 := by
  rcases getD_mem_or_default costs op 0 with h1 | h1
  · exact h _ h1
  · rw [h1]; exact Nat.zero_le _

theorem WellFormed.target_lt {costs : List Nat} {transitions : List Transitions} {goals : Goals}
    (hwf : WellFormed costs transitions goals) (v : Nat) (t : Transition)
    (ht : t ∈ transitions.getD v []) : t.target_id < transitions.length := by
  rcases getD_mem_or_default transitions v [] with h1 | h1
  · exact hwf.targets_lt _ h1 t ht
  · rw [h1] at ht; exact absurd ht (List.not_mem_nil _)

namespace ShortestPaths

theorem dist_eq_inf_of_le (sp : ShortestPaths) (u : Nat) (h : sp.goal_distances.length ≤ u) :
    sp.dist u = INF_COSTS :=
  getD_eq_default_of_le _ _ _ h

theorem lt_of_dist_ne (sp : ShortestPaths) (u : Nat) (h : sp.dist u ≠ INF_COSTS) :
    u < sp.goal_distances.length := by
  by_contra hc
  exact h (dist_eq_inf_of_le sp u (by omega))

end ShortestPaths

/-! ### Relaxation preserves the loop invariant -/

namespace ShortestPaths

theorem relax_eq (s g : Nat) (sp : ShortestPaths) (t : Transition) :
    relax s g sp t =
      if (g + sp.op_cost t.op_id) % 18446744073709551616 < sp.dist t.target_id then
        { sp with
          goal_distances :=
            sp.goal_distances.set t.target_id ((g + sp.op_cost t.op_id) % 18446744073709551616)
          shortest_path := sp.shortest_path.set t.target_id (some ⟨t.op_id, s⟩)
          open_queue :=
            sp.open_queue.push ((g + sp.op_cost t.op_id) % 18446744073709551616)
              (t.target_id : Int) }
      else sp := rfl

theorem relax_queue_length (s g : Nat) (sp : ShortestPaths) (t : Transition) :
    (relax s g sp t).open_queue.heap.length ≤ sp.open_queue.heap.length + 1 := by
  rw [relax_eq]
  split_ifs
  · simp only [length_push]; exact le_refl _
  · omega

theorem foldl_relax_queue_length (s g : Nat) (ts : Transitions) :
    ∀ sp : ShortestPaths,
      (ts.foldl (relax s g) sp).open_queue.heap.length ≤ sp.open_queue.heap.length + ts.length := by
  induction ts with
  | nil => intro sp; simp
  | cons t ts ih =>
    intro sp
    simp only [List.foldl_cons, List.length_cons]
    have h1 := ih (relax s g sp t)
    have h2 := relax_queue_length s g sp t
    omega

theorem relax_inv {costs : List Nat} {transitions : List Transitions} {goals : Goals}
    {sp : ShortestPaths} {S : List Nat} {s : Nat} {t : Transition} {rest : Transitions}
    (hwf : WellFormed costs transitions goals)
    (h : DInv costs transitions goals sp S s (t :: rest)) (hs : s ∈ S) :
    DInv costs transitions goals (relax s (sp.dist s) sp t) S s rest := by
  have hts : t ∈ transitions.getD s [] := h.rest_sub t (List.mem_cons_self _ _)
  have hu : t.target_id < transitions.length := hwf.target_lt s t hts
  have hc : sp.op_cost t.op_id = costs.getD t.op_id 0 := by
    unfold op_cost; rw [h.costs_eq]
  have hcle : costs.getD t.op_id 0 ≤ 2147483647 := cost_getD_le costs _ hwf.cost_le
  have hSn : S.length ≤ transitions.length := nodup_length_le S _ h.snodup h.s_lt
  have hn := hwf.size_le
  obtain ⟨hlast, hcb⟩ := h.cur hs
  have hmod : (sp.dist s + sp.op_cost t.op_id) % 18446744073709551616 =
      sp.dist s + costs.getD t.op_id 0 := by
    rw [hc]
    apply Nat.mod_eq_of_lt
    have : S.length * 2147483647 ≤ 2147483647 * 2147483647 :=
      Nat.mul_le_mul_right _ (le_trans hSn hn)
    omega
  rw [relax_eq, hmod]
  by_cases hlt : sp.dist s + costs.getD t.op_id 0 < sp.dist t.target_id
  · rw [if_pos hlt]
    have hd : ∀ w, ShortestPaths.dist
        { sp with
          goal_distances := sp.goal_distances.set t.target_id (sp.dist s + costs.getD t.op_id 0)
          shortest_path := sp.shortest_path.set t.target_id (some ⟨t.op_id, s⟩)
          open_queue := sp.open_queue.push (sp.dist s + costs.getD t.op_id 0) (t.target_id : Int) } w
        = if w = t.target_id then sp.dist s + costs.getD t.op_id 0 else sp.dist w := by
      intro w
      unfold dist
      exact getD_set_eq _ _ _ _ _ (by rw [h.len_gd]; exact hu)
    have huS : t.target_id ∉ S := by
      intro hin
      have := hlast _ hin
      omega
    have hug : t.target_id ∉ goals := by
      intro hin
      have := h.goal0 _ hin
      omega
    have hdS : ∀ v ∈ S, ShortestPaths.dist
        { sp with
          goal_distances := sp.goal_distances.set t.target_id (sp.dist s + costs.getD t.op_id 0)
          shortest_path := sp.shortest_path.set t.target_id (some ⟨t.op_id, s⟩)
          open_queue := sp.open_queue.push (sp.dist s + costs.getD t.op_id 0) (t.target_id : Int) } v
        = sp.dist v := by
      intro v hv
      rw [hd, if_neg]
      intro e; exact huS (e ▸ hv)
    have hdle : ∀ w, ShortestPaths.dist
        { sp with
          goal_distances := sp.goal_distances.set t.target_id (sp.dist s + costs.getD t.op_id 0)
          shortest_path := sp.shortest_path.set t.target_id (some ⟨t.op_id, s⟩)
          open_queue := sp.open_queue.push (sp.dist s + costs.getD t.op_id 0) (t.target_id : Int) } w
        ≤ sp.dist w := by
      intro w
      rw [hd]
      split_ifs with e
      · rw [e]; exact le_of_lt hlt
      · exact le_refl _
    refine
      { costs_eq := h.costs_eq
        len_gd := by simp only [List.length_set]; exact h.len_gd
        len_sp := by simp only [List.length_set]; exact h.len_sp
        heap := HeapQueue.push_isHeap _ _ _ h.heap
        qnodup := ?_
        snodup := h.snodup
        s_lt := h.s_lt
        s_fin := ?_
        bound := ?_
        goal0 := ?_
        sound := ?_
        tree := ?_
        opt := ?_
        relaxed := ?_
        queue := ?_
        front := ?_
        mono := ?_
        cur := ?_
        rest_sub := fun t' ht' => h.rest_sub t' (List.mem_cons_of_mem _ ht') }
    · -- qnodup
      rw [(HeapQueue.push_perm _ _ _).nodup_iff, List.nodup_cons]
      refine ⟨?_, h.qnodup⟩
      intro hin
      obtain ⟨u, _, hu2, hle, _, _⟩ := h.queue _ hin
      simp only at hu2 hle
      have : u = t.target_id := by omega
      subst this
      omega
    · -- s_fin
      intro v hv
      rw [hdS v hv]; exact h.s_fin v hv
    · -- bound
      intro w
      rw [hd]
      split_ifs with e
      · right; omega
      · exact h.bound w
    · -- goal0
      intro g hg
      rw [hd, if_neg]
      · exact h.goal0 g hg
      · intro e; exact hug (e ▸ hg)
    · -- sound
      intro w hw
      rw [hd] at hw ⊢
      split_ifs with e
      · rw [e]
        exact PathCost.step _ _ s _ hts (h.sound s (h.s_fin s hs))
      · rw [if_neg e] at hw
        exact h.sound w hw
    · -- tree
      intro w hw hwg
      rw [hd] at hw ⊢
      by_cases e : w = t.target_id
      · rw [if_pos e]
        refine ⟨t.op_id, s, ?_, ?_, hs, ?_, ?_⟩
        · simp only
          rw [getD_set_eq _ _ _ _ _ (by rw [h.len_sp]; exact hu), if_pos e]
        · rw [e]; exact hts
        · rw [hdS s hs]
        · rw [e]
          have h1 : List.indexOf s S < S.length := List.indexOf_lt_length.mpr hs
          have h2 : List.indexOf t.target_id S = S.length := List.indexOf_eq_length.mpr huS
          omega
      · rw [if_neg e] at hw ⊢
        obtain ⟨op, v, h1, h2, h3, h4, h5⟩ := h.tree w hw hwg
        refine ⟨op, v, ?_, h2, h3, ?_, h5⟩
        · simp only
          rw [getD_set_eq _ _ _ _ _ (by rw [h.len_sp]; exact hu), if_neg e]
          exact h1
        · rw [hdS v h3]; exact h4
    · -- opt
      intro v hv d hp
      rw [hdS v hv]; exact h.opt v hv d hp
    · -- relaxed
      intro v hv t' ht'
      rw [hdS v hv]
      rcases h.relaxed v hv t' ht' with ⟨hvs, hmem⟩ | hle
      · rcases List.mem_cons.mp hmem with e | hr
        · right
          subst e
          rw [hd, if_pos rfl, hvs]
        · left; exact ⟨hvs, hr⟩
      · right
        exact le_trans (hdle _) hle
    · -- queue
      intro e he
      rcases (mem_push_iff _ _ _ _).mp he with e1 | e1
      · refine ⟨t.target_id, hu, by rw [e1], ?_, fun hin => absurd hin huS, ?_⟩
        · rw [hd, if_pos rfl, e1]
        · rw [e1]; simp only; omega
      · obtain ⟨u, hu1, hu2, hu3, hu4, hu5⟩ := h.queue e e1
        refine ⟨u, hu1, hu2, le_trans (hdle u) hu3, ?_, hu5⟩
        intro hin
        rw [hdS u hin]; exact hu4 hin
    · -- front
      intro w hwS hw
      rw [hd] at hw ⊢
      rw [mem_push_iff]
      by_cases e : w = t.target_id
      · left; rw [if_pos e, e]
      · right
        rw [if_neg e] at hw ⊢
        exact h.front w hwS hw
    · -- mono
      intro v hv e he
      rw [hdS v hv]
      rcases (mem_push_iff _ _ _ _).mp he with e1 | e1
      · rw [e1]; simp only
        have := hlast v hv
        omega
      · exact h.mono v hv e e1
    · -- cur
      intro _
      refine ⟨?_, ?_⟩
      · intro v hv
        rw [hdS v hv, hdS s hs]; exact hlast v hv
      · rw [hdS s hs]; exact hcb
  · rw [if_neg hlt]
    refine { h with relaxed := ?_, rest_sub := fun t' ht' => h.rest_sub t' (List.mem_cons_of_mem _ ht') }
    intro v hv t' ht'
    rcases h.relaxed v hv t' ht' with ⟨hvs, hmem⟩ | hle
    · rcases List.mem_cons.mp hmem with e | hr
      · right
        subst e
        rw [hvs]; omega
      · left; exact ⟨hvs, hr⟩
    · right; exact hle

theorem foldl_relax_inv {costs : List Nat} {transitions : List Transitions} {goals : Goals}
    {S : List Nat} {s : Nat} (hwf : WellFormed costs transitions goals) (hs : s ∈ S)
    (rest : Transitions) :
    ∀ sp : ShortestPaths, DInv costs transitions goals sp S s rest →
      DInv costs transitions goals (rest.foldl (relax s (sp.dist s)) sp) S s [] := by
  induction rest with
  | nil => intro sp h; exact h
  | cons t rest ih =>
    intro sp h
    simp only [List.foldl_cons]
    have h1 := relax_inv hwf h hs
    have hds : (relax s (sp.dist s) sp t).dist s = sp.dist s := by
      rw [relax_eq]
      split_ifs with hlt
      · unfold dist
        have hu : t.target_id < transitions.length :=
          hwf.target_lt s t (h.rest_sub t (List.mem_cons_self _ _))
        simp only
        rw [getD_set_eq _ _ _ _ _ (by rw [h.len_gd]; exact hu), if_neg]
        intro e
        have hc : sp.op_cost t.op_id = costs.getD t.op_id 0 := by
          unfold op_cost; rw [h.costs_eq]
        have hcle : costs.getD t.op_id 0 ≤ 2147483647 := cost_getD_le costs _ hwf.cost_le
        have hSn : S.length ≤ transitions.length := nodup_length_le S _ h.snodup h.s_lt
        have hn := hwf.size_le
        obtain ⟨_, hcb⟩ := h.cur hs
        have hmod : (sp.dist s + sp.op_cost t.op_id) % 18446744073709551616 =
            sp.dist s + costs.getD t.op_id 0 := by
          rw [hc]
          apply Nat.mod_eq_of_lt
          have : S.length * 2147483647 ≤ 2147483647 * 2147483647 :=
            Nat.mul_le_mul_right _ (le_trans hSn hn)
          omega
        rw [hmod, ← e] at hlt
        omega
      · rfl
    have h2 := ih _ h1
    rw [hds] at h2
    exact h2

end ShortestPaths

/-! ### Popping an entry preserves the loop invariant -/

theorem HeapQueue.pop_some_spec (q q1 : HeapQueue) (e : Entry) (hpop : q.pop = some (e, q1))
    (h : IsHeap q.heap) :
    IsHeap q1.heap ∧ q.heap.Perm (e :: q1.heap) ∧ ∀ x ∈ q.heap, e.1 ≤ x.1 := by
  have hne : q.heap ≠ [] := by
    intro hnil
    have : q.pop = none := by
      unfold HeapQueue.pop
      simp [(HeapQueue.empty_iff q).mpr hnil]
    rw [this] at hpop
    exact absurd hpop (by simp)
  obtain ⟨e', q', hp, h1, h2, h3⟩ := HeapQueue.pop_spec q hne h
  rw [hp] at hpop
  simp only [Option.some.injEq, Prod.mk.injEq] at hpop
  obtain ⟨rfl, rfl⟩ := hpop
  exact ⟨h1, h2, h3⟩

theorem HeapQueue.pop_none_iff (q : HeapQueue) : q.pop = none ↔ q.heap = [] := by
  unfold HeapQueue.pop
  rw [← HeapQueue.empty_iff]
  cases q.empty <;> simp

namespace ShortestPaths

theorem path_frontier {costs : List Nat} {transitions : List Transitions} {goals : Goals}
    {sp : ShortestPaths} {S : List Nat} {s : Nat}
    (hwf : WellFormed costs transitions goals)
    (h : DInv costs transitions goals sp S s []) :
    ∀ w d, PathCost costs transitions goals w d →
      (w ∈ S ∧ sp.dist w ≤ d) ∨ (∃ e ∈ sp.open_queue.heap, e.1 ≤ d) := by
  intro w d hp
  induction hp with
  | goal g hg =>
    have h0 := h.goal0 g hg
    by_cases hS : g ∈ S
    · left; exact ⟨hS, by omega⟩
    · right
      have hf : sp.dist g ≠ INF_COSTS := by rw [h0]; decide
      exact ⟨_, h.front g hS hf, by simp only; omega⟩
  | step u op v d hedge _ ih =>
    rcases ih with ⟨hvS, hle⟩ | ⟨e, he, hle⟩
    · have hrel : sp.dist u ≤ sp.dist v + costs.getD op 0 := by
        rcases h.relaxed v hvS _ hedge with ⟨_, hmem⟩ | hr
        · exact absurd hmem (List.not_mem_nil _)
        · exact hr
      by_cases hS : u ∈ S
      · left; exact ⟨hS, by omega⟩
      · right
        have hcle : costs.getD op 0 ≤ 2147483647 := cost_getD_le costs _ hwf.cost_le
        have hSn : S.length ≤ transitions.length := nodup_length_le S _ h.snodup h.s_lt
        have hn := hwf.size_le
        have hb : sp.dist v ≤ S.length * 2147483647 := by
          rcases h.bound v with hb | hb
          · exact absurd hb (h.s_fin v hvS)
          · exact hb
        have hf : sp.dist u ≠ INF_COSTS := by
          have : S.length * 2147483647 ≤ 2147483647 * 2147483647 :=
            Nat.mul_le_mul_right _ (le_trans hSn hn)
          unfold INF_COSTS
          omega
        exact ⟨_, h.front u hS hf, by simp only; omega⟩
    · right
      exact ⟨e, he, by omega⟩

theorem pop_stale_inv {costs : List Nat} {transitions : List Transitions} {goals : Goals}
    {sp : ShortestPaths} {S : List Nat} {s : Nat} {q1 : HeapQueue} {d : Nat} {id : Int}
    (h : DInv costs transitions goals sp S s [])
    (hpop : sp.open_queue.pop = some ((d, id), q1))
    (hstale : sp.dist id.toNat < d) :
    DInv costs transitions goals { sp with open_queue := q1 } S s [] ∧
      q1.heap.length + 1 = sp.open_queue.heap.length := by
  obtain ⟨hh, hperm, _⟩ := HeapQueue.pop_some_spec _ _ _ hpop h.heap
  have hsub : ∀ e ∈ q1.heap, e ∈ sp.open_queue.heap := fun e he =>
    hperm.symm.subset (List.mem_cons_of_mem _ he)
  refine ⟨?_, by have := hperm.length_eq; simp only [List.length_cons] at this; omega⟩
  refine
    { costs_eq := h.costs_eq
      len_gd := h.len_gd
      len_sp := h.len_sp
      heap := hh
      qnodup := ((hperm.nodup_iff.mp h.qnodup).of_cons)
      snodup := h.snodup
      s_lt := h.s_lt
      s_fin := h.s_fin
      bound := h.bound
      goal0 := h.goal0
      sound := h.sound
      tree := h.tree
      opt := h.opt
      relaxed := h.relaxed
      queue := fun e he => h.queue e (hsub e he)
      front := ?_
      mono := fun v hv e he => h.mono v hv e (hsub e he)
      cur := h.cur
      rest_sub := h.rest_sub }
  intro w hwS hw
  have hin := h.front w hwS hw
  rcases List.mem_cons.mp (hperm.subset hin) with e | e
  · exfalso
    simp only [Prod.mk.injEq] at e
    obtain ⟨e1, e2⟩ := e
    rw [← e2] at hstale
    simp only [Int.toNat_ofNat] at hstale
    omega
  · exact e

theorem pop_fresh_inv {costs : List Nat} {transitions : List Transitions} {goals : Goals}
    {sp : ShortestPaths} {S : List Nat} {s : Nat} {q1 : HeapQueue} {d : Nat} {id : Int}
    (hwf : WellFormed costs transitions goals)
    (h : DInv costs transitions goals sp S s [])
    (hpop : sp.open_queue.pop = some ((d, id), q1))
    (hfresh : ¬ sp.dist id.toNat < d) :
    id.toNat ∉ S ∧ id.toNat < transitions.length ∧
      q1.heap.length + 1 = sp.open_queue.heap.length ∧
      DInv costs transitions goals { sp with open_queue := q1 } (S ++ [id.toNat]) id.toNat
        (transitions.getD id.toNat []) := by
  obtain ⟨hh, hperm, hmin⟩ := HeapQueue.pop_some_spec _ _ _ hpop h.heap
  have hsub : ∀ e ∈ q1.heap, e ∈ sp.open_queue.heap := fun e he =>
    hperm.symm.subset (List.mem_cons_of_mem _ he)
  have hein : ((d, id) : Entry) ∈ sp.open_queue.heap :=
    hperm.symm.subset (List.mem_cons_self _ _)
  have hnd := hperm.nodup_iff.mp h.qnodup
  have hnotin : ((d, id) : Entry) ∉ q1.heap := (List.nodup_cons.mp hnd).1
  obtain ⟨u, hun, hid, hle, hSlt, hdb⟩ := h.queue _ hein
  simp only at hid hle hSlt hdb
  have hidu : id.toNat = u := by rw [hid]; simp
  rw [hidu] at hfresh ⊢
  have hdu : sp.dist u = d := by omega
  have huS : u ∉ S := by
    intro hin
    have := hSlt hin
    omega
  have hSn : S.length ≤ transitions.length := nodup_length_le S _ h.snodup h.s_lt
  have hn := hwf.size_le
  have hmem : ∀ v, v ∈ S ++ [u] ↔ v ∈ S ∨ v = u := by
    intro v; simp
  have hidx : ∀ v, v ∈ S → List.indexOf v (S ++ [u]) = List.indexOf v S := fun v hv =>
    List.indexOf_append_of_mem hv
  have hidxu : List.indexOf u (S ++ [u]) = List.indexOf u S := by
    rw [List.indexOf_append_of_not_mem huS, List.indexOf_cons_self,
      List.indexOf_eq_length.mpr huS]
    rfl
  refine ⟨huS, hun, by have := hperm.length_eq; simp only [List.length_cons] at this; omega, ?_⟩
  refine
    { costs_eq := h.costs_eq
      len_gd := h.len_gd
      len_sp := h.len_sp
      heap := hh
      qnodup := hnd.of_cons
      snodup := ?_
      s_lt := ?_
      s_fin := ?_
      bound := ?_
      goal0 := h.goal0
      sound := h.sound
      tree := ?_
      opt := ?_
      relaxed := ?_
      queue := ?_
      front := ?_
      mono := ?_
      cur := ?_
      rest_sub := fun t ht => ht }
  · -- snodup
    rw [List.nodup_append]
    refine ⟨h.snodup, List.nodup_singleton u, ?_⟩
    intro a ha hb
    rw [List.mem_singleton] at hb
    exact huS (hb ▸ ha)
  · -- s_lt
    intro v hv
    rcases (hmem v).mp hv with hv | hv
    · exact h.s_lt v hv
    · rw [hv]; exact hun
  · -- s_fin
    intro v hv
    rcases (hmem v).mp hv with hv | hv
    · exact h.s_fin v hv
    · rw [hv]
      show sp.dist u ≠ INF_COSTS
      have : S.length * 2147483647 ≤ 2147483647 * 2147483647 :=
        Nat.mul_le_mul_right _ (le_trans hSn hn)
      unfold INF_COSTS
      omega
  · -- bound
    intro w
    rcases h.bound w with hb | hb
    · left; exact hb
    · right
      show sp.dist w ≤ (S ++ [u]).length * 2147483647
      simp only [List.length_append, List.length_singleton]
      omega
  · -- tree
    intro w hw hwg
    obtain ⟨op, v, h1, h2, h3, h4, h5⟩ := h.tree w hw hwg
    refine ⟨op, v, h1, h2, (hmem v).mpr (Or.inl h3), h4, ?_⟩
    rw [hidx v h3]
    by_cases hwS : w ∈ S
    · rw [hidx w hwS]; exact h5
    · by_cases hwu : w = u
      · rw [hwu, hidxu]; rw [hwu] at h5; exact h5
      · have hnot : w ∉ S ++ [u] := by
          intro hin
          rcases (hmem w).mp hin with hin | hin
          · exact hwS hin
          · exact hwu hin
        rw [List.indexOf_eq_length.mpr hnot]
        simp only [List.length_append, List.length_singleton]
        have := List.indexOf_lt_length.mpr h3
        omega
  · -- opt
    intro v hv d' hp
    rcases (hmem v).mp hv with hv | hv
    · exact h.opt v hv d' hp
    · rw [hv] at hp ⊢
      show sp.dist u ≤ d'
      rcases path_frontier hwf h u d' hp with ⟨hin, _⟩ | ⟨e, he, hle'⟩
      · exact absurd hin huS
      · have := hmin e he
        simp only at this
        omega
  · -- relaxed
    intro v hv t ht
    rcases (hmem v).mp hv with hv | hv
    · rcases h.relaxed v hv t ht with ⟨_, hmem'⟩ | hr
      · exact absurd hmem' (List.not_mem_nil _)
      · right; exact hr
    · left
      rw [hv] at ht
      exact ⟨hv, ht⟩
  · -- queue
    intro e he
    obtain ⟨w, hw1, hw2, hw3, hw4, hw5⟩ := h.queue e (hsub e he)
    refine ⟨w, hw1, hw2, hw3, ?_, ?_⟩
    · intro hin
      rcases (hmem w).mp hin with hin | hin
      · exact hw4 hin
      · show sp.dist w < e.1
        have hge := hmin e (hsub e he)
        simp only at hge
        rcases Nat.lt_or_ge (sp.dist w) e.1 with hlt | hge2
        · exact hlt
        · exfalso
          apply hnotin
          have he1 : e.1 = d := by rw [hin] at hge2; omega
          have he2 : e.2 = id := by rw [hw2, hin, hid]
          have : e = (d, id) := Prod.ext he1 he2
          rw [← this]; exact he
    · simp only [List.length_append, List.length_singleton]
      omega
  · -- front
    intro w hwS hw
    have hwS' : w ∉ S := fun hin => hwS ((hmem w).mpr (Or.inl hin))
    have hwu : w ≠ u := fun e => hwS ((hmem w).mpr (Or.inr e))
    have hin := h.front w hwS' hw
    rcases List.mem_cons.mp (hperm.subset hin) with e | e
    · exfalso
      simp only [Prod.mk.injEq] at e
      obtain ⟨_, e2⟩ := e
      rw [hid] at e2
      exact hwu (by omega)
    · exact e
  · -- mono
    intro v hv e he
    rcases (hmem v).mp hv with hv | hv
    · exact h.mono v hv e (hsub e he)
    · rw [hv]
      show sp.dist u ≤ e.1
      have := hmin e (hsub e he)
      simp only at this
      omega
  · -- cur
    intro _
    refine ⟨?_, ?_⟩
    · intro v hv
      show sp.dist v ≤ sp.dist u
      rcases (hmem v).mp hv with hv | hv
      · have := h.mono v hv _ hein
        simp only at this
        omega
      · rw [hv]
    · show sp.dist u + 2147483647 ≤ (S ++ [u]).length * 2147483647
      simp only [List.length_append, List.length_singleton]
      omega

end ShortestPaths

/-! ### Seeding, termination and the result of `full_dijkstra` -/

theorem filter_map_sum_split (f : Nat → Nat) (S : List Nat) (u : Nat) (hu : u ∉ S) :
    ∀ l : List Nat, l.Nodup → u ∈ l →
      ((l.filter (fun v => decide (v ∉ S))).map f).sum =
        ((l.filter (fun v => decide (v ∉ S ++ [u]))).map f).sum + f u := by
  intro l
  induction l with
  | nil => intro _ h; exact absurd h (List.not_mem_nil _)
  | cons a l ih =>
    intro hnd hmem
    obtain ⟨hal, hnd'⟩ := List.nodup_cons.mp hnd
    by_cases hau : a = u
    · subst hau
      have hsame : l.filter (fun v => decide (v ∉ S ++ [a])) =
          l.filter (fun v => decide (v ∉ S)) := by
        apply List.filter_congr
        intro x hx
        have : x ≠ a := fun e => hal (e ▸ hx)
        simp [this]
      have h1 : decide (a ∉ S) = true := by simpa using hu
      have h2 : ¬ (decide (a ∉ S ++ [a]) = true) := by simp
      simp only [List.filter_cons]
      rw [if_pos h1, if_neg h2, hsame]
      simp only [List.map_cons, List.sum_cons]
      omega
    · have hul : u ∈ l := by
        rcases List.mem_cons.mp hmem with e | e
        · exact absurd e.symm hau
        · exact e
      have := ih hnd' hul
      by_cases haS : a ∈ S
      · have h1 : ¬ (decide (a ∉ S) = true) := by simpa using haS
        have h2 : ¬ (decide (a ∉ S ++ [u]) = true) := by simp [haS]
        simp only [List.filter_cons]
        rw [if_neg h1, if_neg h2]
        exact this
      · have h1 : decide (a ∉ S) = true := by simpa using haS
        have h2 : decide (a ∉ S ++ [u]) = true := by simp [haS, hau]
        simp only [List.filter_cons]
        rw [if_pos h1, if_pos h2]
        simp only [List.map_cons, List.sum_cons]
        omega

theorem pending_degree_append (transitions : List Transitions) (S : List Nat) (u : Nat)
    (hu : u < transitions.length) (huS : u ∉ S) :
    pending_degree transitions S =
      pending_degree transitions (S ++ [u]) + (transitions.getD u []).length := by
  unfold pending_degree
  exact filter_map_sum_split _ S u huS _ (List.nodup_range _) (List.mem_range.mpr hu)

theorem map_range_getD (transitions : List Transitions) :
    (List.range transitions.length).map (fun v => (transitions.getD v []).length) =
      transitions.map List.length := by
  apply List.ext_getElem
  · simp
  · intro i h1 h2
    simp only [List.length_map, List.length_range] at h1
    simp [List.getD_eq_getElem?_getD, List.getElem?_eq_getElem h1]

theorem pending_degree_nil (transitions : List Transitions) :
    pending_degree transitions [] = (transitions.map List.length).sum := by
  unfold pending_degree
  have : (List.range transitions.length).filter (fun v => decide (v ∉ ([] : List Nat))) =
      List.range transitions.length := by
    apply List.filter_eq_self.mpr
    intro a _
    simp
  rw [this, map_range_getD]

namespace ShortestPaths

theorem seed_goals_spec (n : Nat) (gs : List Nat) :
    ∀ (sp : ShortestPaths) (done : List Nat),
      sp.goal_distances.length = n → sp.shortest_path.length = n →
      IsHeap sp.open_queue.heap →
      sp.open_queue.heap.Perm (done.map (fun (g : Nat) => ((0, (g : Int)) : Entry))) →
      (∀ w, sp.dist w = if w ∈ done then 0 else INF_COSTS) →
      (∀ g ∈ gs, g < n) →
      (gs.foldl seed_goal sp).operator_costs = sp.operator_costs ∧
      (gs.foldl seed_goal sp).goal_distances.length = n ∧
      (gs.foldl seed_goal sp).shortest_path.length = n ∧
      IsHeap (gs.foldl seed_goal sp).open_queue.heap ∧
      (gs.foldl seed_goal sp).open_queue.heap.Perm
        ((done ++ gs).map (fun (g : Nat) => ((0, (g : Int)) : Entry))) ∧
      (∀ w, (gs.foldl seed_goal sp).dist w = if w ∈ done ++ gs then 0 else INF_COSTS) := by
  induction gs with
  | nil =>
    intro sp done h1 h2 h3 h4 h5 _
    rw [List.append_nil]
    exact ⟨rfl, h1, h2, h3, h4, h5⟩
  | cons g gs ih =>
    intro sp done h1 h2 h3 h4 h5 h6
    simp only [List.foldl_cons]
    have hg : g < n := h6 g (List.mem_cons_self _ _)
    have := ih (seed_goal sp g) (done ++ [g])
      (by simp only [seed_goal, List.length_set]; exact h1)
      (by simp only [seed_goal, List.length_set]; exact h2)
      (HeapQueue.push_isHeap _ _ _ h3)
      (by
        simp only [seed_goal]
        refine (HeapQueue.push_perm _ _ _).trans ?_
        simp only [List.map_append, List.map_cons, List.map_nil]
        exact (List.Perm.cons _ h4).trans (List.perm_append_singleton _ _).symm
        )
      (by
        intro w
        unfold dist seed_goal
        simp only
        rw [getD_set_eq _ _ _ _ _ (by rw [h1]; exact hg)]
        have := h5 w
        unfold dist at this
        by_cases e : w = g
        · simp [e]
        · simp only [e, if_false, List.mem_append, List.mem_singleton, or_false]
          exact this)
      (fun g' hg' => h6 g' (List.mem_cons_of_mem _ hg'))
    simpa [List.append_assoc] using this

theorem init_inv (sp : ShortestPaths) (transitions : List Transitions) (goals : Goals)
    (hwf : WellFormed sp.operator_costs transitions goals) :
    DInv sp.operator_costs transitions goals
      (goals.foldl seed_goal
        { sp with
          open_queue := sp.open_queue.clear
          goal_distances := List.replicate transitions.length INF_COSTS
          shortest_path := List.replicate transitions.length none }) [] 0 [] ∧
    (goals.foldl seed_goal
        { sp with
          open_queue := sp.open_queue.clear
          goal_distances := List.replicate transitions.length INF_COSTS
          shortest_path := List.replicate transitions.length none }).open_queue.heap.length
      = goals.length := by
  obtain ⟨h1, h2, h3, h4, h5, h6⟩ := seed_goals_spec transitions.length goals
    { sp with
      open_queue := sp.open_queue.clear
      goal_distances := List.replicate transitions.length INF_COSTS
      shortest_path := List.replicate transitions.length none } []
    (by simp) (by simp) isHeap_nil (by simp [HeapQueue.clear])
    (by
      intro w
      unfold dist
      simp only [List.not_mem_nil, if_false]
      exact getD_replicate_eq _ _ _)
    hwf.goals_lt
  simp only [List.nil_append] at h5 h6
  have hmemq : ∀ e, e ∈ (goals.foldl seed_goal
        { sp with
          open_queue := sp.open_queue.clear
          goal_distances := List.replicate transitions.length INF_COSTS
          shortest_path := List.replicate transitions.length none }).open_queue.heap →
      ∃ g ∈ goals, e = (0, (g : Int)) := by
    intro e he
    have := h5.subset he
    obtain ⟨g, hg, rfl⟩ := List.mem_map.mp this
    exact ⟨g, hg, rfl⟩
  refine ⟨?_, by rw [h5.length_eq, List.length_map]⟩
  refine
    { costs_eq := h1
      len_gd := h2
      len_sp := h3
      heap := h4
      qnodup := ?_
      snodup := List.nodup_nil
      s_lt := fun v hv => absurd hv (List.not_mem_nil _)
      s_fin := fun v hv => absurd hv (List.not_mem_nil _)
      bound := ?_
      goal0 := ?_
      sound := ?_
      tree := ?_
      opt := fun v hv => absurd hv (List.not_mem_nil _)
      relaxed := fun v hv => absurd hv (List.not_mem_nil _)
      queue := ?_
      front := ?_
      mono := fun v hv => absurd hv (List.not_mem_nil _)
      cur := fun hv => absurd hv (List.not_mem_nil _)
      rest_sub := fun t ht => absurd ht (List.not_mem_nil _) }
  · rw [h5.nodup_iff]
    apply List.Nodup.map _ hwf.goals_nodup
    intro a b hab
    simp only [Prod.mk.injEq, true_and] at hab
    exact Int.ofNat_inj.mp hab
  · intro w
    rw [h6]
    split_ifs
    · right; simp
    · left; rfl
  · intro g hg
    rw [h6, if_pos hg]
  · intro w hw
    rw [h6] at hw ⊢
    split_ifs with hg
    · exact PathCost.goal w hg
    · rw [if_neg hg] at hw; exact absurd rfl hw
  · intro w hw hg
    rw [h6, if_neg hg] at hw
    exact absurd rfl hw
  · intro e he
    obtain ⟨g, hg, rfl⟩ := hmemq e he
    refine ⟨g, hwf.goals_lt g hg, rfl, ?_, fun hin => absurd hin (List.not_mem_nil _), ?_⟩
    · rw [h6, if_pos hg]
    · simp
  · intro w _ hw
    rw [h6] at hw ⊢
    by_cases hg : w ∈ goals
    · rw [if_pos hg]
      exact h5.symm.subset (List.mem_map.mpr ⟨w, hg, rfl⟩)
    · rw [if_neg hg] at hw; exact absurd rfl hw

theorem dijkstra_loop_spec {costs : List Nat} {transitions : List Transitions} {goals : Goals}
    (hwf : WellFormed costs transitions goals) :
    ∀ (fuel : Nat) (sp : ShortestPaths) (S : List Nat) (s : Nat),
      DInv costs transitions goals sp S s [] →
      sp.open_queue.heap.length + pending_degree transitions S < fuel →
      ∃ sp' S' s', dijkstra_loop fuel transitions sp = some sp' ∧
        DInv costs transitions goals sp' S' s' [] ∧ sp'.open_queue.heap = [] := by
  intro fuel
  induction fuel with
  | zero => intro sp S s _ hlt; omega
  | succ fuel ih =>
    intro sp S s h hlt
    cases hpop : sp.open_queue.pop with
    | none =>
      refine ⟨sp, S, s, ?_, h, (HeapQueue.pop_none_iff _).mp hpop⟩
      simp only [dijkstra_loop, hpop]
    | some r =>
      obtain ⟨⟨d, id⟩, q1⟩ := r
      by_cases hstale : sp.dist id.toNat < d
      · obtain ⟨h1, hl⟩ := pop_stale_inv h hpop hstale
        obtain ⟨sp', S', s', hr, hinv, hq⟩ := ih _ S s h1 (by simp only; omega)
        refine ⟨sp', S', s', ?_, hinv, hq⟩
        simp only [dijkstra_loop, hpop]
        have hst : ShortestPaths.dist { sp with open_queue := q1 } id.toNat < d := hstale
        rw [if_pos hst]
        exact hr
      · obtain ⟨huS, hun, hl, h1⟩ := pop_fresh_inv hwf h hpop hstale
        have hmem : id.toNat ∈ S ++ [id.toNat] := by simp
        have h2 := foldl_relax_inv hwf hmem _ _ h1
        have hql := foldl_relax_queue_length id.toNat
          (ShortestPaths.dist { sp with open_queue := q1 } id.toNat)
          (transitions.getD id.toNat []) { sp with open_queue := q1 }
        have hpd := pending_degree_append transitions S id.toNat hun huS
        obtain ⟨sp', S', s', hr, hinv, hq⟩ := ih _ _ _ h2 (by simp only at hql ⊢; omega)
        refine ⟨sp', S', s', ?_, hinv, hq⟩
        simp only [dijkstra_loop, hpop]
        have hst : ¬ ShortestPaths.dist { sp with open_queue := q1 } id.toNat < d := hstale
        rw [if_neg hst]
        exact hr

theorem full_dijkstra_inv (sp : ShortestPaths) (transitions : List Transitions) (goals : Goals)
    (hwf : WellFormed sp.operator_costs transitions goals) :
    ∃ sp' S s, sp.full_dijkstra transitions goals = some sp' ∧
      DInv sp.operator_costs transitions goals sp' S s [] ∧ sp'.open_queue.heap = [] := by
  obtain ⟨hinv, hlen⟩ := init_inv sp transitions goals hwf
  unfold full_dijkstra
  apply dijkstra_loop_spec hwf _ _ [] 0 hinv
  rw [hlen, pending_degree_nil]
  omega

end ShortestPaths

/-! ### Walking the tree array -/

namespace ShortestPaths

theorem extract_loop_spec {costs : List Nat} {transitions : List Transitions} {goals : Goals}
    {sp : ShortestPaths} {S : List Nat} {s : Nat}
    (h : DInv costs transitions goals sp S s []) :
    ∀ (k u : Nat), sp.dist u ≠ INF_COSTS → List.indexOf u S < k →
      ∃ sol, extract_loop k sp goals u = some sol ∧ valid_path transitions u sol ∧
        end_state u sol ∈ goals ∧ solution_cost costs sol = sp.dist u ∧
        sol.length ≤ List.indexOf u S := by
  intro k
  induction k with
  | zero => intro u _ hlt; omega
  | succ k ih =>
    intro u hfin hlt
    by_cases hg : u ∈ goals
    · refine ⟨[], ?_, trivial, hg, ?_, Nat.zero_le _⟩
      · simp only [extract_loop, hg, if_true]
      · rw [h.goal0 u hg]; rfl
    · obtain ⟨op, v, h1, h2, h3, h4, h5⟩ := h.tree u hfin hg
      obtain ⟨sol, hs1, hs2, hs3, hs4, hs5⟩ := ih v (h.s_fin v h3) (by omega)
      refine ⟨⟨op, v⟩ :: sol, ?_, ⟨h2, hs2⟩, hs3, ?_, ?_⟩
      · simp only [extract_loop, hg, if_false, h1, hs1, Option.map_some']
      · unfold solution_cost at hs4 ⊢
        simp only [List.map_cons, List.sum_cons]
        rw [hs4, h4]
        omega
      · simp only [List.length_cons]
        omega

end ShortestPaths

/-! ### Sets of facts -/

theorem mem_hash_set_insert (facts : List Fact) (fact x : Fact) :
    x ∈ hash_set_insert facts fact ↔ x ∈ facts ∨ x = fact := by
  unfold hash_set_insert
  split_ifs with h
  · constructor
    · intro hx; exact Or.inl hx
    · rintro (hx | hx)
      · exact hx
      · rw [hx]; exact h
  · simp

theorem nodup_hash_set_insert (facts : List Fact) (fact : Fact) (h : facts.Nodup) :
    (hash_set_insert facts fact).Nodup := by
  unfold hash_set_insert
  split_ifs with hm
  · exact h
  · rw [List.nodup_append]
    refine ⟨h, List.nodup_singleton _, ?_⟩
    intro a ha hb
    rw [List.mem_singleton] at hb
    exact hm (hb ▸ ha)

theorem length_hash_set_insert (facts : List Fact) (fact : Fact) :
    facts.length ≤ (hash_set_insert facts fact).length ∧
      ((hash_set_insert facts fact).length = facts.length →
        hash_set_insert facts fact = facts) := by
  unfold hash_set_insert
  split_ifs with hm
  · exact ⟨le_refl _, fun _ => rfl⟩
  · constructor
    · simp
    · intro h
      simp at h

theorem foldl_insert_spec (l : List Fact) :
    ∀ facts : List Fact,
      (∀ x, x ∈ l.foldl hash_set_insert facts ↔ x ∈ facts ∨ x ∈ l) ∧
      (facts.Nodup → (l.foldl hash_set_insert facts).Nodup) ∧
      facts.length ≤ (l.foldl hash_set_insert facts).length ∧
      ((l.foldl hash_set_insert facts).length = facts.length →
        l.foldl hash_set_insert facts = facts) := by
  induction l with
  | nil => intro facts; simp
  | cons a l ih =>
    intro facts
    obtain ⟨h1, h2, h3, h4⟩ := ih (hash_set_insert facts a)
    obtain ⟨g1, g2⟩ := length_hash_set_insert facts a
    simp only [List.foldl_cons]
    refine ⟨?_, ?_, by omega, ?_⟩
    · intro x
      rw [h1, mem_hash_set_insert, List.mem_cons]
      tauto
    · intro hn
      exact h2 (nodup_hash_set_insert facts a hn)
    · intro hl
      have e1 : hash_set_insert facts a = facts := g2 (by omega)
      rw [e1] at h4 hl ⊢
      exact h4 hl

theorem pb_visit_spec (last_fact : Fact) (facts : List Fact) (op : Operator) :
    (∀ x, x ∈ facts → x ∈ pb_visit last_fact facts op) ∧
    (∀ x, x ∈ pb_visit last_fact facts op → x ∈ facts ∨ x ∈ op.effects) ∧
    (facts.Nodup → (pb_visit last_fact facts op).Nodup) ∧
    facts.length ≤ (pb_visit last_fact facts op).length ∧
    ((pb_visit last_fact facts op).length = facts.length →
      pb_visit last_fact facts op = facts) := by
  obtain ⟨h1, h2, h3, h4⟩ := foldl_insert_spec op.effects facts
  unfold pb_visit
  split_ifs
  · exact ⟨fun _ h => h, fun _ h => Or.inl h, fun h => h, le_refl _, fun _ => rfl⟩
  · exact ⟨fun x h => (h1 x).mpr (Or.inl h), fun x h => (h1 x).mp h, h2, h3, h4⟩
  · exact ⟨fun _ h => h, fun _ h => Or.inl h, fun h => h, le_refl _, fun _ => rfl⟩

theorem foldl_pb_visit_spec (last_fact : Fact) (ops : List Operator) :
    ∀ facts : List Fact,
      (∀ x, x ∈ facts → x ∈ ops.foldl (pb_visit last_fact) facts) ∧
      (∀ x, x ∈ ops.foldl (pb_visit last_fact) facts →
        x ∈ facts ∨ ∃ op ∈ ops, x ∈ op.effects) ∧
      (facts.Nodup → (ops.foldl (pb_visit last_fact) facts).Nodup) ∧
      facts.length ≤ (ops.foldl (pb_visit last_fact) facts).length ∧
      ((ops.foldl (pb_visit last_fact) facts).length = facts.length →
        ∀ op ∈ ops, pb_visit last_fact facts op = facts) := by
  induction ops with
  | nil => intro facts; simp
  | cons a ops ih =>
    intro facts
    obtain ⟨h1, h2, h3, h4, h5⟩ := ih (pb_visit last_fact facts a)
    obtain ⟨g1, g2, g3, g4, g5⟩ := pb_visit_spec last_fact facts a
    simp only [List.foldl_cons]
    refine ⟨fun x hx => h1 x (g1 x hx), ?_, fun hn => h3 (g3 hn), by omega, ?_⟩
    · intro x hx
      rcases h2 x hx with hx | ⟨op, hop, hx⟩
      · rcases g2 x hx with hx | hx
        · exact Or.inl hx
        · exact Or.inr ⟨a, List.mem_cons_self _ _, hx⟩
      · exact Or.inr ⟨op, List.mem_cons_of_mem _ hop, hx⟩
    · intro hl op hop
      have e1 : pb_visit last_fact facts a = facts := g5 (by omega)
      rcases List.mem_cons.mp hop with e | e
      · rw [e]; exact e1
      · rw [e1] at h5 hl
        exact h5 hl op e

theorem pb_round_fixed_closed (task : Task) (last_fact : Fact) (facts : List Fact)
    (h : (pb_round task last_fact facts).length = facts.length) :
    ClosedUnder task last_fact (fun x => x ∈ facts) := by
  intro op hop hach hpre e he
  have hfix := (foldl_pb_visit_spec last_fact task.operators facts).2.2.2.2 h op hop
  have happ : operator_applicable op facts = true := by
    unfold operator_applicable
    rw [List.all_eq_true]
    intro p hp
    exact decide_eq_true (hpre p hp)
  unfold pb_visit at hfix
  rw [hach, happ] at hfix
  simp only [Bool.false_eq_true, if_false, if_true] at hfix
  have := (foldl_insert_spec op.effects facts).1 e
  rw [hfix] at this
  exact this.mpr (Or.inr he)

theorem pb_round_sound (task : Task) (last_fact : Fact) (T : Fact → Prop)
    (hT : ClosedUnder task last_fact T) :
    ∀ (ops : List Operator), (∀ op ∈ ops, op ∈ task.operators) →
      ∀ facts : List Fact, (∀ x ∈ facts, T x) →
        ∀ x ∈ ops.foldl (pb_visit last_fact) facts, T x := by
  intro ops
  induction ops with
  | nil => intro _ facts h x hx; exact h x hx
  | cons a ops ih =>
    intro hsub facts h
    simp only [List.foldl_cons]
    apply ih (fun op hop => hsub op (List.mem_cons_of_mem _ hop))
    intro x hx
    unfold pb_visit at hx
    by_cases hach : operator_achieves_fact a last_fact = true
    · rw [if_pos hach] at hx; exact h x hx
    · rw [if_neg hach] at hx
      by_cases happ : operator_applicable a facts = true
      · rw [if_pos happ] at hx
        rcases (foldl_insert_spec a.effects facts).1 x |>.mp hx with hx | hx
        · exact h x hx
        · apply hT a (hsub a (List.mem_cons_self _ _)) (by simpa using hach) _ x hx
          intro p hp
          unfold operator_applicable at happ
          rw [List.all_eq_true] at happ
          exact h p (of_decide_eq_true (happ p hp))
      · rw [if_neg happ] at hx; exact h x hx

/-! ### Termination of the possibly-before loop -/

theorem range_map_getD (l : List Nat) :
    (List.range l.length).map (fun i => l.getD i 0) = l := by
  apply List.ext_getElem
  · simp
  · intro i h1 h2
    simp only [List.length_map, List.length_range] at h1
    simp [List.getD_eq_getElem?_getD, List.getElem?_eq_getElem h1]

theorem Task.mem_all_facts (task : Task) (x : Fact) :
    x ∈ task.all_facts ↔
      x.var < task.domain_sizes.length ∧ x.value < task.domain_sizes.getD x.var 0 := by
  unfold Task.all_facts
  simp only [List.mem_flatMap, List.mem_range, List.mem_map]
  constructor
  · rintro ⟨i, hi, v, hv, rfl⟩
    exact ⟨hi, hv⟩
  · rintro ⟨h1, h2⟩
    exact ⟨x.var, h1, x.value, h2, rfl⟩

theorem Task.length_all_facts (task : Task) : task.all_facts.length = task.num_facts := by
  unfold Task.all_facts Task.num_facts
  rw [List.length_flatMap]
  have : (List.length ∘ fun i =>
      (List.range (task.domain_sizes.getD i 0)).map (fun v => Fact.mk i v)) =
      fun i => task.domain_sizes.getD i 0 := by
    funext i
    simp
  rw [this, range_map_getD]

theorem Task.length_le_num_facts (task : Task) (facts : List Fact) (hn : facts.Nodup)
    (hsub : ∀ x ∈ facts, x ∈ task.all_facts) : facts.length ≤ task.num_facts := by
  rw [← Task.length_all_facts]
  exact (List.subperm_of_subset hn hsub).length_le

theorem Task.WellFormed.initial_facts_sub {task : Task} (hwf : task.WellFormed) :
    ∀ x ∈ task.initial_facts, x ∈ task.all_facts := by
  intro x hx
  unfold Task.initial_facts at hx
  simp only [List.mem_map, List.mem_range] at hx
  obtain ⟨i, hi, rfl⟩ := hx
  rw [Task.mem_all_facts]
  rw [hwf.init_length] at hi
  exact ⟨hi, hwf.init_value i hi⟩

theorem Task.WellFormed.effects_sub {task : Task} (hwf : task.WellFormed) :
    ∀ op ∈ task.operators, ∀ e ∈ op.effects, e ∈ task.all_facts := by
  intro op hop e he
  rw [Task.mem_all_facts]
  exact hwf.effect_fact op hop e he

theorem pb_round_inv (task : Task) (hwf : task.WellFormed) (last_fact : Fact)
    (facts : List Fact) (hn : facts.Nodup) (hsub : ∀ x ∈ facts, x ∈ task.all_facts) :
    (pb_round task last_fact facts).Nodup ∧
      (∀ x ∈ pb_round task last_fact facts, x ∈ task.all_facts) ∧
      (∀ x ∈ facts, x ∈ pb_round task last_fact facts) ∧
      facts.length ≤ (pb_round task last_fact facts).length := by
  obtain ⟨h1, h2, h3, h4, _⟩ := foldl_pb_visit_spec last_fact task.operators facts
  refine ⟨h3 hn, ?_, h1, h4⟩
  intro x hx
  rcases h2 x hx with hx | ⟨op, hop, hx⟩
  · exact hsub x hx
  · exact hwf.effects_sub op hop x hx

theorem pb_loop_exit (fuel : Nat) (task : Task) (last_fact : Fact) (facts : List Fact) :
    pb_loop fuel task last_fact facts.length facts = some (facts, 0) := by
  cases fuel <;> simp [pb_loop]

theorem pb_loop_succ (fuel : Nat) (task : Task) (last_fact : Fact) (last : Nat)
    (facts : List Fact) (h : last ≠ facts.length) :
    pb_loop (fuel + 1) task last_fact last facts =
      (pb_loop fuel task last_fact facts.length (pb_round task last_fact facts)).map
        (fun r => (r.1, r.2 + 1)) := by
  simp only [pb_loop, if_neg h]

theorem pb_loop_mono (fuel : Nat) :
    ∀ (task : Task) (last_fact : Fact) (last : Nat) (facts : List Fact) (r : List Fact × Nat),
      pb_loop fuel task last_fact last facts = some r →
      pb_loop (fuel + 1) task last_fact last facts = some r := by
  induction fuel with
  | zero =>
    intro task last_fact last facts r h
    by_cases hl : last = facts.length
    · subst hl
      rw [pb_loop_exit] at h ⊢
      exact h
    · simp [pb_loop, hl] at h
  | succ n ih =>
    intro task last_fact last facts r h
    by_cases hl : last = facts.length
    · subst hl
      rw [pb_loop_exit] at h ⊢
      exact h
    · rw [pb_loop_succ _ _ _ _ _ hl] at h ⊢
      cases hrec : pb_loop n task last_fact facts.length (pb_round task last_fact facts) with
      | none => rw [hrec] at h; simp at h
      | some r' =>
        rw [hrec] at h
        rw [ih _ _ _ _ _ hrec]
        exact h

theorem pb_loop_mono_le (task : Task) (last_fact : Fact) (last : Nat) (facts : List Fact)
    (r : List Fact × Nat) (fuel fuel' : Nat) (hle : fuel ≤ fuel')
    (h : pb_loop fuel task last_fact last facts = some r) :
    pb_loop fuel' task last_fact last facts = some r := by
  induction hle with
  | refl => exact h
  | step _ ih => exact pb_loop_mono _ _ _ _ _ _ ih

theorem pb_loop_spec (task : Task) (hwf : task.WellFormed) (last_fact : Fact) :
    ∀ (fuel last : Nat) (facts : List Fact), facts.Nodup →
      (∀ x ∈ facts, x ∈ task.all_facts) → task.num_facts - facts.length < fuel →
      ∃ S k, pb_loop fuel task last_fact last facts = some (S, k) ∧
        k ≤ task.num_facts - facts.length + 1 ∧ S.Nodup ∧
        (∀ x ∈ S, x ∈ task.all_facts) ∧ (∀ x ∈ facts, x ∈ S) ∧
        (k = 0 → S = facts ∧ last = facts.length) ∧
        (0 < k → (pb_round task last_fact S).length = S.length) ∧
        (∀ T : Fact → Prop, ClosedUnder task last_fact T → (∀ x ∈ facts, T x) →
          ∀ x ∈ S, T x) := by
  intro fuel
  induction fuel with
  | zero => intro last facts _ _ h; omega
  | succ n ih =>
    intro last facts hn hsub hfuel
    by_cases hl : last = facts.length
    · subst hl
      refine ⟨facts, 0, pb_loop_exit _ _ _ _, by omega, hn, hsub, fun x h => h,
        fun _ => ⟨rfl, rfl⟩, fun h => absurd h (by omega), fun T _ h => h⟩
    · obtain ⟨r1, r2, r3, r4⟩ := pb_round_inv task hwf last_fact facts hn hsub
      have hbound := Task.length_le_num_facts task _ r1 r2
      rw [pb_loop_succ _ _ _ _ _ hl]
      have hsound : ∀ T : Fact → Prop, ClosedUnder task last_fact T →
          (∀ x ∈ facts, T x) → ∀ x ∈ pb_round task last_fact facts, T x := by
        intro T hT h
        exact pb_round_sound task last_fact T hT task.operators (fun _ h => h) facts h
      by_cases heq : (pb_round task last_fact facts).length = facts.length
      · have hfix : pb_round task last_fact facts = facts := by
          have hall := (foldl_pb_visit_spec last_fact task.operators facts).2.2.2.2 heq
          unfold pb_round
          clear hsound hbound r1 r2 r3 r4 heq
          generalize task.operators = ops at hall
          induction ops with
          | nil => rfl
          | cons a ops ih2 =>
            simp only [List.foldl_cons]
            rw [hall a (List.mem_cons_self _ _)]
            exact ih2 (fun op hop => hall op (List.mem_cons_of_mem _ hop))
        rw [← heq, pb_loop_exit]
        refine ⟨pb_round task last_fact facts, 1, rfl, by omega, r1, r2, r3,
          fun h => absurd h (by omega), ?_, hsound⟩
        intro _
        rw [hfix]; exact heq
      · obtain ⟨S, k, h1, h2, h3, h4, h5, h6, h7, h8⟩ :=
          ih facts.length (pb_round task last_fact facts) r1 r2 (by omega)
        rw [h1]
        refine ⟨S, k + 1, rfl, by omega, h3, h4, fun x hx => h5 x (r3 x hx),
          fun h => absurd h (by omega), ?_, ?_⟩
        · intro _
          rcases Nat.eq_zero_or_pos k with hk | hk
          · obtain ⟨e1, e2⟩ := h6 hk
            exact absurd e2.symm heq
          · exact h7 hk
        · intro T hT h
          exact h8 T hT (hsound T hT h)

theorem initial_set_spec (task : Task) :
    (∀ x, x ∈ task.initial_facts.foldl hash_set_insert [] ↔ x ∈ task.initial_facts) ∧
      (task.initial_facts.foldl hash_set_insert []).Nodup := by
  obtain ⟨h1, h2, _, _⟩ := foldl_insert_spec task.initial_facts []
  refine ⟨fun x => ?_, h2 List.nodup_nil⟩
  rw [h1]
  simp

theorem compute_spec (task : Task) (hwf : task.WellFormed) (last_fact : Fact) :
    ∃ S k, pb_loop (task.num_facts + 1) task last_fact 0
        (task.initial_facts.foldl hash_set_insert []) = some (S, k) ∧
      k ≤ task.num_facts + 1 ∧ S.Nodup ∧ S.length ≤ task.num_facts ∧
      (∀ x ∈ task.initial_facts, x ∈ S) ∧
      ClosedUnder task last_fact (fun x => x ∈ S) ∧
      (∀ T : Fact → Prop, (∀ x ∈ task.initial_facts, T x) → ClosedUnder task last_fact T →
        ∀ x ∈ S, T x) := by
  obtain ⟨hmem, hnd⟩ := initial_set_spec task
  have hsub : ∀ x ∈ task.initial_facts.foldl hash_set_insert [], x ∈ task.all_facts :=
    fun x hx => hwf.initial_facts_sub x ((hmem x).mp hx)
  obtain ⟨S, k, h1, h2, h3, h4, h5, h6, h7, h8⟩ :=
    pb_loop_spec task hwf last_fact (task.num_facts + 1) 0 _ hnd hsub (by omega)
  refine ⟨S, k, h1, by omega, h3, Task.length_le_num_facts task S h3 h4,
    fun x hx => h5 x ((hmem x).mpr hx), ?_, ?_⟩
  · rcases Nat.eq_zero_or_pos k with hk | hk
    · obtain ⟨e1, e2⟩ := h6 hk
      have hnil : task.initial_facts.foldl hash_set_insert [] = [] :=
        List.length_eq_zero.mp e2.symm
      have hinit : task.initial_facts = [] := by
        apply List.eq_nil_iff_forall_not_mem.mpr
        intro x hx
        have := (hmem x).mpr hx
        rw [hnil] at this
        exact absurd this (List.not_mem_nil _)
      have hlen : task.domain_sizes.length = 0 := by
        have := congrArg List.length hinit
        unfold Task.initial_facts at this
        simp only [List.length_map, List.length_range, List.length_nil] at this
        rw [← hwf.init_length]; exact this
      intro op hop _ _ e he
      have := (hwf.effect_fact op hop e he).1
      omega
    · exact pb_round_fixed_closed task last_fact S (h7 hk)
  · intro T hT hcl x hx
    exact h8 T hcl (fun y hy => hT y ((hmem y).mp hy)) x hx

/-! ### Calls on a cleared queue -/

theorem run_calls_popped (cs : List QueueCall) :
    ∀ (q : HeapQueue) (e : Entry), IsHeap q.heap →
      QueueResult.popped e ∈ run_calls q cs → e ∈ q.heap ∨ e ∈ pushed_by cs := by
  induction cs with
  | nil => intro q e _ h; simp [run_calls] at h
  | cons c cs ih =>
    intro q e hq h
    cases c with
    | push k v =>
      simp only [run_calls, List.mem_cons] at h
      rcases h with h | h
      · exact absurd h (by simp)
      · rcases ih _ e (HeapQueue.push_isHeap q k v hq) h with h1 | h1
        · rcases (mem_push_iff q k v e).mp h1 with h2 | h2
          · right; rw [h2]; exact List.mem_cons_self _ _
          · left; exact h2
        · right; exact List.mem_cons_of_mem _ h1
    | pop =>
      simp only [run_calls] at h
      cases hp : q.pop with
      | none => rw [hp] at h; simp at h
      | some r =>
        obtain ⟨e', q'⟩ := r
        rw [hp] at h
        simp only [List.mem_cons, QueueResult.popped.injEq] at h
        obtain ⟨hh, hperm, _⟩ := HeapQueue.pop_some_spec q q' e' hp hq
        rcases h with h | h
        · left
          rw [h]
          exact hperm.symm.subset (List.mem_cons_self _ _)
        · rcases ih q' e hh h with h1 | h1
          · left; exact hperm.symm.subset (List.mem_cons_of_mem _ h1)
          · right; exact h1
    | empty =>
      simp only [run_calls, List.mem_cons] at h
      rcases h with h | h
      · exact absurd h (by simp)
      · rcases ih q e hq h with h1 | h1
        · left; exact h1
        · right; exact h1

/-! ### The loop invariant of a repair -/

namespace ShortestPaths

theorem relax_rinv {costs : List Nat} {transitions : List Transitions} {goals : Goals}
    {sp : ShortestPaths} {S : List Nat} {s : Nat} {t : Transition} {rest : Transitions}
    (hwf : WellFormed costs transitions goals)
    (h : RInv costs transitions goals sp S s (t :: rest)) (hs : s ∈ S) :
    RInv costs transitions goals (relax s (sp.dist s) sp t) S s rest := by
  have hts : t ∈ transitions.getD s [] := h.rest_sub t (List.mem_cons_self _ _)
  have hu : t.target_id < transitions.length := hwf.target_lt s t hts
  have hc : sp.op_cost t.op_id = costs.getD t.op_id 0 := by
    unfold op_cost; rw [h.costs_eq]
  have hcle : costs.getD t.op_id 0 ≤ 2147483647 := cost_getD_le costs _ hwf.cost_le
  have hSn : S.length ≤ transitions.length := nodup_length_le S _ h.snodup h.s_lt
  have hn := hwf.size_le
  have hcb := h.cur hs
  have hmod : (sp.dist s + sp.op_cost t.op_id) % 18446744073709551616 =
      sp.dist s + costs.getD t.op_id 0 := by
    rw [hc]
    apply Nat.mod_eq_of_lt
    have : S.length * 2147483647 ≤ 2147483647 * 2147483647 :=
      Nat.mul_le_mul_right _ (le_trans hSn hn)
    omega
  rw [relax_eq, hmod]
  by_cases hlt : sp.dist s + costs.getD t.op_id 0 < sp.dist t.target_id
  · rw [if_pos hlt]
    have hd : ∀ w, ShortestPaths.dist
        { sp with
          goal_distances := sp.goal_distances.set t.target_id (sp.dist s + costs.getD t.op_id 0)
          shortest_path := sp.shortest_path.set t.target_id (some ⟨t.op_id, s⟩)
          open_queue := sp.open_queue.push (sp.dist s + costs.getD t.op_id 0) (t.target_id : Int) } w
        = if w = t.target_id then sp.dist s + costs.getD t.op_id 0 else sp.dist w := by
      intro w
      unfold dist
      exact getD_set_eq _ _ _ _ _ (by rw [h.len_gd]; exact hu)
    have huS : t.target_id ∉ S := by
      intro hin
      have := h.opt _ hin _ (PathCost.step _ _ s _ hts (h.sound s (h.s_fin s hs)))
      omega
    have hug : t.target_id ∉ goals := by
      intro hin
      have := h.goal0 _ hin
      omega
    have hdS : ∀ v ∈ S, ShortestPaths.dist
        { sp with
          goal_distances := sp.goal_distances.set t.target_id (sp.dist s + costs.getD t.op_id 0)
          shortest_path := sp.shortest_path.set t.target_id (some ⟨t.op_id, s⟩)
          open_queue := sp.open_queue.push (sp.dist s + costs.getD t.op_id 0) (t.target_id : Int) } v
        = sp.dist v := by
      intro v hv
      rw [hd, if_neg]
      intro e; exact huS (e ▸ hv)
    have hdle : ∀ w, ShortestPaths.dist
        { sp with
          goal_distances := sp.goal_distances.set t.target_id (sp.dist s + costs.getD t.op_id 0)
          shortest_path := sp.shortest_path.set t.target_id (some ⟨t.op_id, s⟩)
          open_queue := sp.open_queue.push (sp.dist s + costs.getD t.op_id 0) (t.target_id : Int) } w
        ≤ sp.dist w := by
      intro w
      rw [hd]
      split_ifs with e
      · rw [e]; exact le_of_lt hlt
      · exact le_refl _
    refine
      { costs_eq := h.costs_eq
        len_gd := by simp only [List.length_set]; exact h.len_gd
        len_sp := by simp only [List.length_set]; exact h.len_sp
        heap := HeapQueue.push_isHeap _ _ _ h.heap
        qnodup := ?_
        snodup := h.snodup
        s_lt := h.s_lt
        s_fin := ?_
        bound := ?_
        goal0 := ?_
        sound := ?_
        tree := ?_
        opt := ?_
        relaxed := ?_
        queue := ?_
        front := ?_
        goal_tree := ?_
        cur := ?_
        rest_sub := fun t' ht' => h.rest_sub t' (List.mem_cons_of_mem _ ht') }
    · -- qnodup
      rw [(HeapQueue.push_perm _ _ _).nodup_iff, List.nodup_cons]
      refine ⟨?_, h.qnodup⟩
      intro hin
      obtain ⟨u, _, hu2, hle, _, _⟩ := h.queue _ hin
      simp only at hu2 hle
      have : u = t.target_id := by omega
      subst this
      omega
    · -- s_fin
      intro v hv
      rw [hdS v hv]; exact h.s_fin v hv
    · -- bound
      intro w
      rw [hd]
      split_ifs with e
      · right; omega
      · exact h.bound w
    · -- goal0
      intro g hg
      rw [hd, if_neg]
      · exact h.goal0 g hg
      · intro e; exact hug (e ▸ hg)
    · -- sound
      intro w hw
      rw [hd] at hw ⊢
      split_ifs with e
      · rw [e]
        exact PathCost.step _ _ s _ hts (h.sound s (h.s_fin s hs))
      · rw [if_neg e] at hw
        exact h.sound w hw
    · -- tree
      intro w hw hwg
      rw [hd] at hw ⊢
      by_cases e : w = t.target_id
      · rw [if_pos e]
        refine ⟨t.op_id, s, ?_, ?_, hs, ?_, ?_⟩
        · simp only
          rw [getD_set_eq _ _ _ _ _ (by rw [h.len_sp]; exact hu), if_pos e]
        · rw [e]; exact hts
        · rw [hdS s hs]
        · rw [e]
          have h1 : List.indexOf s S < S.length := List.indexOf_lt_length.mpr hs
          have h2 : List.indexOf t.target_id S = S.length := List.indexOf_eq_length.mpr huS
          omega
      · rw [if_neg e] at hw ⊢
        obtain ⟨op, v, h1, h2, h3, h4, h5⟩ := h.tree w hw hwg
        refine ⟨op, v, ?_, h2, h3, ?_, h5⟩
        · simp only
          rw [getD_set_eq _ _ _ _ _ (by rw [h.len_sp]; exact hu), if_neg e]
          exact h1
        · rw [hdS v h3]; exact h4
    · -- opt
      intro v hv d hp
      rw [hdS v hv]; exact h.opt v hv d hp
    · -- relaxed
      intro v hv t' ht'
      rw [hdS v hv]
      rcases h.relaxed v hv t' ht' with ⟨hvs, hmem⟩ | hle
      · rcases List.mem_cons.mp hmem with e | hr
        · right
          subst e
          rw [hd, if_pos rfl, hvs]
        · left; exact ⟨hvs, hr⟩
      · right
        exact le_trans (hdle _) hle
    · -- queue
      intro e he
      rcases (mem_push_iff _ _ _ _).mp he with e1 | e1
      · refine ⟨t.target_id, hu, by rw [e1], ?_, fun hin => absurd hin huS, ?_⟩
        · rw [hd, if_pos rfl, e1]
        · rw [e1]; simp only; omega
      · obtain ⟨u, hu1, hu2, hu3, hu4, hu5⟩ := h.queue e e1
        refine ⟨u, hu1, hu2, le_trans (hdle u) hu3, ?_, hu5⟩
        intro hin
        rw [hdS u hin]; exact hu4 hin
    · -- front
      intro w hwS hw
      rw [hd] at hw ⊢
      rw [mem_push_iff]
      by_cases e : w = t.target_id
      · left; rw [if_pos e, e]
      · right
        rw [if_neg e] at hw ⊢
        exact h.front w hwS hw
    · -- goal_tree
      intro g hg
      simp only
      rw [getD_set_eq _ _ _ _ _ (by rw [h.len_sp]; exact hu), if_neg]
      · exact h.goal_tree g hg
      · intro e; exact hug (e ▸ hg)
    · -- cur
      intro _
      rw [hdS s hs]; exact hcb
  · rw [if_neg hlt]
    refine { h with relaxed := ?_, rest_sub := fun t' ht' => h.rest_sub t' (List.mem_cons_of_mem _ ht') }
    intro v hv t' ht'
    rcases h.relaxed v hv t' ht' with ⟨hvs, hmem⟩ | hle
    · rcases List.mem_cons.mp hmem with e | hr
      · right
        subst e
        rw [hvs]; omega
      · left; exact ⟨hvs, hr⟩
    · right; exact hle

theorem foldl_relax_rinv {costs : List Nat} {transitions : List Transitions} {goals : Goals}
    {S : List Nat} {s : Nat} (hwf : WellFormed costs transitions goals) (hs : s ∈ S)
    (rest : Transitions) :
    ∀ sp : ShortestPaths, RInv costs transitions goals sp S s rest →
      RInv costs transitions goals (rest.foldl (relax s (sp.dist s)) sp) S s [] := by
  induction rest with
  | nil => intro sp h; exact h
  | cons t rest ih =>
    intro sp h
    simp only [List.foldl_cons]
    have h1 := relax_rinv hwf h hs
    have hds : (relax s (sp.dist s) sp t).dist s = sp.dist s := by
      rw [relax_eq]
      split_ifs with hlt
      · unfold dist
        have hu : t.target_id < transitions.length :=
          hwf.target_lt s t (h.rest_sub t (List.mem_cons_self _ _))
        simp only
        rw [getD_set_eq _ _ _ _ _ (by rw [h.len_gd]; exact hu), if_neg]
        intro e
        have hc : sp.op_cost t.op_id = costs.getD t.op_id 0 := by
          unfold op_cost; rw [h.costs_eq]
        have hcle : costs.getD t.op_id 0 ≤ 2147483647 := cost_getD_le costs _ hwf.cost_le
        have hSn : S.length ≤ transitions.length := nodup_length_le S _ h.snodup h.s_lt
        have hn := hwf.size_le
        have hcb := h.cur hs
        have hmod : (sp.dist s + sp.op_cost t.op_id) % 18446744073709551616 =
            sp.dist s + costs.getD t.op_id 0 := by
          rw [hc]
          apply Nat.mod_eq_of_lt
          have : S.length * 2147483647 ≤ 2147483647 * 2147483647 :=
            Nat.mul_le_mul_right _ (le_trans hSn hn)
          omega
        rw [hmod, ← e] at hlt
        omega
      · rfl
    have h2 := ih _ h1
    rw [hds] at h2
    exact h2


theorem path_frontier_r {costs : List Nat} {transitions : List Transitions} {goals : Goals}
    {sp : ShortestPaths} {S : List Nat} {s : Nat}
    (hwf : WellFormed costs transitions goals)
    (h : RInv costs transitions goals sp S s []) :
    ∀ w d, PathCost costs transitions goals w d →
      (w ∈ S ∧ sp.dist w ≤ d) ∨ (∃ e ∈ sp.open_queue.heap, e.1 ≤ d) := by
  intro w d hp
  induction hp with
  | goal g hg =>
    have h0 := h.goal0 g hg
    by_cases hS : g ∈ S
    · left; exact ⟨hS, by omega⟩
    · right
      have hf : sp.dist g ≠ INF_COSTS := by rw [h0]; decide
      exact ⟨_, h.front g hS hf, by simp only; omega⟩
  | step u op v d hedge _ ih =>
    rcases ih with ⟨hvS, hle⟩ | ⟨e, he, hle⟩
    · have hrel : sp.dist u ≤ sp.dist v + costs.getD op 0 := by
        rcases h.relaxed v hvS _ hedge with ⟨_, hmem⟩ | hr
        · exact absurd hmem (List.not_mem_nil _)
        · exact hr
      by_cases hS : u ∈ S
      · left; exact ⟨hS, by omega⟩
      · right
        have hcle : costs.getD op 0 ≤ 2147483647 := cost_getD_le costs _ hwf.cost_le
        have hSn : S.length ≤ transitions.length := nodup_length_le S _ h.snodup h.s_lt
        have hn := hwf.size_le
        have hb : sp.dist v ≤ S.length * 2147483647 := by
          rcases h.bound v with hb | hb
          · exact absurd hb (h.s_fin v hvS)
          · exact hb
        have hf : sp.dist u ≠ INF_COSTS := by
          have : S.length * 2147483647 ≤ 2147483647 * 2147483647 :=
            Nat.mul_le_mul_right _ (le_trans hSn hn)
          unfold INF_COSTS
          omega
        exact ⟨_, h.front u hS hf, by simp only; omega⟩
    · right
      exact ⟨e, he, by omega⟩

theorem pop_stale_r {costs : List Nat} {transitions : List Transitions} {goals : Goals}
    {sp : ShortestPaths} {S : List Nat} {s : Nat} {q1 : HeapQueue} {d : Nat} {id : Int}
    (h : RInv costs transitions goals sp S s [])
    (hpop : sp.open_queue.pop = some ((d, id), q1))
    (hstale : sp.dist id.toNat < d) :
    RInv costs transitions goals { sp with open_queue := q1 } S s [] ∧
      q1.heap.length + 1 = sp.open_queue.heap.length := by
  obtain ⟨hh, hperm, _⟩ := HeapQueue.pop_some_spec _ _ _ hpop h.heap
  have hsub : ∀ e ∈ q1.heap, e ∈ sp.open_queue.heap := fun e he =>
    hperm.symm.subset (List.mem_cons_of_mem _ he)
  refine ⟨?_, by have := hperm.length_eq; simp only [List.length_cons] at this; omega⟩
  refine
    { costs_eq := h.costs_eq
      len_gd := h.len_gd
      len_sp := h.len_sp
      heap := hh
      qnodup := ((hperm.nodup_iff.mp h.qnodup).of_cons)
      snodup := h.snodup
      s_lt := h.s_lt
      s_fin := h.s_fin
      bound := h.bound
      goal0 := h.goal0
      sound := h.sound
      tree := h.tree
      opt := h.opt
      relaxed := h.relaxed
      queue := fun e he => h.queue e (hsub e he)
      front := ?_
      goal_tree := h.goal_tree
      cur := h.cur
      rest_sub := h.rest_sub }
  intro w hwS hw
  have hin := h.front w hwS hw
  rcases List.mem_cons.mp (hperm.subset hin) with e | e
  · exfalso
    simp only [Prod.mk.injEq] at e
    obtain ⟨e1, e2⟩ := e
    rw [← e2] at hstale
    simp only [Int.toNat_ofNat] at hstale
    omega
  · exact e

theorem pop_fresh_r {costs : List Nat} {transitions : List Transitions} {goals : Goals}
    {sp : ShortestPaths} {S : List Nat} {s : Nat} {q1 : HeapQueue} {d : Nat} {id : Int}
    (hwf : WellFormed costs transitions goals)
    (h : RInv costs transitions goals sp S s [])
    (hpop : sp.open_queue.pop = some ((d, id), q1))
    (hfresh : ¬ sp.dist id.toNat < d) :
    id.toNat ∉ S ∧ id.toNat < transitions.length ∧
      q1.heap.length + 1 = sp.open_queue.heap.length ∧
      RInv costs transitions goals { sp with open_queue := q1 } (S ++ [id.toNat]) id.toNat
        (transitions.getD id.toNat []) := by
  obtain ⟨hh, hperm, hmin⟩ := HeapQueue.pop_some_spec _ _ _ hpop h.heap
  have hsub : ∀ e ∈ q1.heap, e ∈ sp.open_queue.heap := fun e he =>
    hperm.symm.subset (List.mem_cons_of_mem _ he)
  have hein : ((d, id) : Entry) ∈ sp.open_queue.heap :=
    hperm.symm.subset (List.mem_cons_self _ _)
  have hnd := hperm.nodup_iff.mp h.qnodup
  have hnotin : ((d, id) : Entry) ∉ q1.heap := (List.nodup_cons.mp hnd).1
  obtain ⟨u, hun, hid, hle, hSlt, hdb⟩ := h.queue _ hein
  simp only at hid hle hSlt hdb
  have hidu : id.toNat = u := by rw [hid]; simp
  rw [hidu] at hfresh ⊢
  have hdu : sp.dist u = d := by omega
  have huS : u ∉ S := by
    intro hin
    have := hSlt hin
    omega
  have hSn : S.length ≤ transitions.length := nodup_length_le S _ h.snodup h.s_lt
  have hn := hwf.size_le
  have hmem : ∀ v, v ∈ S ++ [u] ↔ v ∈ S ∨ v = u := by
    intro v; simp
  have hidx : ∀ v, v ∈ S → List.indexOf v (S ++ [u]) = List.indexOf v S := fun v hv =>
    List.indexOf_append_of_mem hv
  have hidxu : List.indexOf u (S ++ [u]) = List.indexOf u S := by
    rw [List.indexOf_append_of_not_mem huS, List.indexOf_cons_self,
      List.indexOf_eq_length.mpr huS]
    rfl
  refine ⟨huS, hun, by have := hperm.length_eq; simp only [List.length_cons] at this; omega, ?_⟩
  refine
    { costs_eq := h.costs_eq
      len_gd := h.len_gd
      len_sp := h.len_sp
      heap := hh
      qnodup := hnd.of_cons
      snodup := ?_
      s_lt := ?_
      s_fin := ?_
      bound := ?_
      goal0 := h.goal0
      sound := h.sound
      tree := ?_
      opt := ?_
      relaxed := ?_
      queue := ?_
      front := ?_
      goal_tree := h.goal_tree
      cur := ?_
      rest_sub := fun t ht => ht }
  · -- snodup
    rw [List.nodup_append]
    refine ⟨h.snodup, List.nodup_singleton u, ?_⟩
    intro a ha hb
    rw [List.mem_singleton] at hb
    exact huS (hb ▸ ha)
  · -- s_lt
    intro v hv
    rcases (hmem v).mp hv with hv | hv
    · exact h.s_lt v hv
    · rw [hv]; exact hun
  · -- s_fin
    intro v hv
    rcases (hmem v).mp hv with hv | hv
    · exact h.s_fin v hv
    · rw [hv]
      show sp.dist u ≠ INF_COSTS
      have : S.length * 2147483647 ≤ 2147483647 * 2147483647 :=
        Nat.mul_le_mul_right _ (le_trans hSn hn)
      unfold INF_COSTS
      omega
  · -- bound
    intro w
    rcases h.bound w with hb | hb
    · left; exact hb
    · right
      show sp.dist w ≤ (S ++ [u]).length * 2147483647
      simp only [List.length_append, List.length_singleton]
      omega
  · -- tree
    intro w hw hwg
    obtain ⟨op, v, h1, h2, h3, h4, h5⟩ := h.tree w hw hwg
    refine ⟨op, v, h1, h2, (hmem v).mpr (Or.inl h3), h4, ?_⟩
    rw [hidx v h3]
    by_cases hwS : w ∈ S
    · rw [hidx w hwS]; exact h5
    · by_cases hwu : w = u
      · rw [hwu, hidxu]; rw [hwu] at h5; exact h5
      · have hnot : w ∉ S ++ [u] := by
          intro hin
          rcases (hmem w).mp hin with hin | hin
          · exact hwS hin
          · exact hwu hin
        rw [List.indexOf_eq_length.mpr hnot]
        simp only [List.length_append, List.length_singleton]
        have := List.indexOf_lt_length.mpr h3
        omega
  · -- opt
    intro v hv d' hp
    rcases (hmem v).mp hv with hv | hv
    · exact h.opt v hv d' hp
    · rw [hv] at hp ⊢
      show sp.dist u ≤ d'
      rcases path_frontier_r hwf h u d' hp with ⟨hin, _⟩ | ⟨e, he, hle'⟩
      · exact absurd hin huS
      · have := hmin e he
        simp only at this
        omega
  · -- relaxed
    intro v hv t ht
    rcases (hmem v).mp hv with hv | hv
    · rcases h.relaxed v hv t ht with ⟨_, hmem'⟩ | hr
      · exact absurd hmem' (List.not_mem_nil _)
      · right; exact hr
    · left
      rw [hv] at ht
      exact ⟨hv, ht⟩
  · -- queue
    intro e he
    obtain ⟨w, hw1, hw2, hw3, hw4, hw5⟩ := h.queue e (hsub e he)
    refine ⟨w, hw1, hw2, hw3, ?_, ?_⟩
    · intro hin
      rcases (hmem w).mp hin with hin | hin
      · exact hw4 hin
      · show sp.dist w < e.1
        have hge := hmin e (hsub e he)
        simp only at hge
        rcases Nat.lt_or_ge (sp.dist w) e.1 with hlt | hge2
        · exact hlt
        · exfalso
          apply hnotin
          have he1 : e.1 = d := by rw [hin] at hge2; omega
          have he2 : e.2 = id := by rw [hw2, hin, hid]
          have : e = (d, id) := Prod.ext he1 he2
          rw [← this]; exact he
    · simp only [List.length_append, List.length_singleton]
      omega
  · -- front
    intro w hwS hw
    have hwS' : w ∉ S := fun hin => hwS ((hmem w).mpr (Or.inl hin))
    have hwu : w ≠ u := fun e => hwS ((hmem w).mpr (Or.inr e))
    have hin := h.front w hwS' hw
    rcases List.mem_cons.mp (hperm.subset hin) with e | e
    · exfalso
      simp only [Prod.mk.injEq] at e
      obtain ⟨_, e2⟩ := e
      rw [hid] at e2
      exact hwu (by omega)
    · exact e
  · -- cur
    intro _
    show sp.dist u + 2147483647 ≤ (S ++ [u]).length * 2147483647
    simp only [List.length_append, List.length_singleton]
    omega

theorem dijkstra_loop_spec_r {costs : List Nat} {transitions : List Transitions} {goals : Goals}
    (hwf : WellFormed costs transitions goals) :
    ∀ (fuel : Nat) (sp : ShortestPaths) (S : List Nat) (s : Nat),
      RInv costs transitions goals sp S s [] →
      sp.open_queue.heap.length + pending_degree transitions S < fuel →
      ∃ sp' S' s', dijkstra_loop fuel transitions sp = some sp' ∧
        RInv costs transitions goals sp' S' s' [] ∧ sp'.open_queue.heap = [] := by
  intro fuel
  induction fuel with
  | zero => intro sp S s _ hlt; omega
  | succ fuel ih =>
    intro sp S s h hlt
    cases hpop : sp.open_queue.pop with
    | none =>
      refine ⟨sp, S, s, ?_, h, (HeapQueue.pop_none_iff _).mp hpop⟩
      simp only [dijkstra_loop, hpop]
    | some r =>
      obtain ⟨⟨d, id⟩, q1⟩ := r
      by_cases hstale : sp.dist id.toNat < d
      · obtain ⟨h1, hl⟩ := pop_stale_r h hpop hstale
        obtain ⟨sp', S', s', hr, hinv, hq⟩ := ih _ S s h1 (by simp only; omega)
        refine ⟨sp', S', s', ?_, hinv, hq⟩
        simp only [dijkstra_loop, hpop]
        have hst : ShortestPaths.dist { sp with open_queue := q1 } id.toNat < d := hstale
        rw [if_pos hst]
        exact hr
      · obtain ⟨huS, hun, hl, h1⟩ := pop_fresh_r hwf h hpop hstale
        have hmem : id.toNat ∈ S ++ [id.toNat] := by simp
        have h2 := foldl_relax_rinv hwf hmem _ _ h1
        have hql := foldl_relax_queue_length id.toNat
          (ShortestPaths.dist { sp with open_queue := q1 } id.toNat)
          (transitions.getD id.toNat []) { sp with open_queue := q1 }
        have hpd := pending_degree_append transitions S id.toNat hun huS
        obtain ⟨sp', S', s', hr, hinv, hq⟩ := ih _ _ _ h2 (by simp only at hql ⊢; omega)
        refine ⟨sp', S', s', ?_, hinv, hq⟩
        simp only [dijkstra_loop, hpop]
        have hst : ¬ ShortestPaths.dist { sp with open_queue := q1 } id.toNat < d := hstale
        rw [if_neg hst]
        exact hr

end ShortestPaths

/-! ### Clean states -/

namespace ShortestPaths

theorem seed_tree_none (gs : List Nat) :
    ∀ sp : ShortestPaths, (∀ x ∈ sp.shortest_path, x = none) →
      ∀ x ∈ (gs.foldl seed_goal sp).shortest_path, x = none := by
  induction gs with
  | nil => intro sp h; exact h
  | cons g gs ih =>
    intro sp h
    simp only [List.foldl_cons]
    apply ih
    intro x hx
    simp only [seed_goal] at hx
    rcases List.mem_or_eq_of_mem_set hx with h1 | h1
    · exact h x h1
    · exact h1

theorem DInv.to_rinv {costs : List Nat} {transitions : List Transitions} {goals : Goals}
    {sp : ShortestPaths} {S : List Nat} {s : Nat} {rest : Transitions}
    (h : DInv costs transitions goals sp S s rest)
    (hg : ∀ g ∈ goals, sp.shortest_path.getD g none = none) :
    RInv costs transitions goals sp S s rest :=
  { costs_eq := h.costs_eq
    len_gd := h.len_gd
    len_sp := h.len_sp
    heap := h.heap
    qnodup := h.qnodup
    snodup := h.snodup
    s_lt := h.s_lt
    s_fin := h.s_fin
    bound := h.bound
    goal0 := h.goal0
    sound := h.sound
    tree := h.tree
    opt := h.opt
    relaxed := h.relaxed
    queue := h.queue
    front := h.front
    goal_tree := hg
    cur := fun hs => (h.cur hs).2
    rest_sub := h.rest_sub }

theorem full_dijkstra_rinv (sp : ShortestPaths) (transitions : List Transitions) (goals : Goals)
    (hwf : WellFormed sp.operator_costs transitions goals) :
    ∃ sp' S s, sp.full_dijkstra transitions goals = some sp' ∧
      RInv sp.operator_costs transitions goals sp' S s [] ∧ sp'.open_queue.heap = [] := by
  obtain ⟨hinv, hlen⟩ := init_inv sp transitions goals hwf
  have htree : ∀ g ∈ goals, (goals.foldl seed_goal
      { sp with
        open_queue := sp.open_queue.clear
        goal_distances := List.replicate transitions.length INF_COSTS
        shortest_path := List.replicate transitions.length none }).shortest_path.getD g none
      = none := by
    intro g _
    rcases getD_mem_or_default (goals.foldl seed_goal
      { sp with
        open_queue := sp.open_queue.clear
        goal_distances := List.replicate transitions.length INF_COSTS
        shortest_path := List.replicate transitions.length none }).shortest_path g none
      with h1 | h1
    · exact seed_tree_none goals _ (fun x hx => (List.mem_replicate.mp hx).2) _ h1
    · exact h1
  unfold full_dijkstra
  apply dijkstra_loop_spec_r hwf _ _ [] 0 (DInv.to_rinv hinv htree)
  rw [hlen, pending_degree_nil]
  omega

theorem extract_loop_spec_r {costs : List Nat} {transitions : List Transitions} {goals : Goals}
    {sp : ShortestPaths} {S : List Nat} {s : Nat}
    (h : RInv costs transitions goals sp S s []) :
    ∀ (k u : Nat), sp.dist u ≠ INF_COSTS → List.indexOf u S < k →
      ∃ sol, extract_loop k sp goals u = some sol ∧ valid_path transitions u sol ∧
        end_state u sol ∈ goals ∧ solution_cost costs sol = sp.dist u ∧
        sol.length ≤ List.indexOf u S ∧
        (∀ t ∈ sol, List.indexOf t.target_id S < List.indexOf u S) ∧
        (u :: sol.map (fun t => t.target_id)).Nodup := by
  intro k
  induction k with
  | zero => intro u _ hlt; omega
  | succ k ih =>
    intro u hfin hlt
    by_cases hg : u ∈ goals
    · refine ⟨[], ?_, trivial, hg, ?_, Nat.zero_le _, ?_, ?_⟩
      · simp only [extract_loop, hg, if_true]
      · rw [h.goal0 u hg]; rfl
      · intro t ht; exact absurd ht (List.not_mem_nil _)
      · simp
    · obtain ⟨op, v, h1, h2, h3, h4, h5⟩ := h.tree u hfin hg
      obtain ⟨sol, hs1, hs2, hs3, hs4, hs5, hs6, hs7⟩ := ih v (h.s_fin v h3) (by omega)
      refine ⟨⟨op, v⟩ :: sol, ?_, ⟨h2, hs2⟩, hs3, ?_, ?_, ?_, ?_⟩
      · simp only [extract_loop, hg, if_false, h1, hs1, Option.map_some']
      · unfold solution_cost at hs4 ⊢
        simp only [List.map_cons, List.sum_cons]
        rw [hs4, h4]
        omega
      · simp only [List.length_cons]
        omega
      · intro t ht
        rcases List.mem_cons.mp ht with e | e
        · rw [e]; exact h5
        · exact lt_trans (hs6 t e) h5
      · simp only [List.map_cons]
        rw [List.nodup_cons]
        refine ⟨?_, hs7⟩
        intro hmem
        rcases List.mem_cons.mp hmem with e | e
        · rw [← e] at h5; omega
        · obtain ⟨t, ht, hte⟩ := List.mem_map.mp e
          have := hs6 t ht
          rw [hte] at this
          omega

end ShortestPaths

/-! ### Marking orphans -/

theorem nodup_full (l : List Nat) (n : Nat) (hn : l.Nodup) (hlt : ∀ u ∈ l, u < n)
    (hlen : n ≤ l.length) : ∀ u, u < n → u ∈ l := by
  intro u hu
  have h1 : l.toFinset ⊆ Finset.range n := by
    intro v hv
    simp only [List.mem_toFinset] at hv
    simpa using hlt v hv
  have h2 : (Finset.range n).card ≤ l.toFinset.card := by
    rw [List.toFinset_card_of_nodup hn, Finset.card_range]
    exact hlen
  have h3 := Finset.eq_of_subset_of_card_le h1 h2
  have : u ∈ l.toFinset := by rw [h3]; simpa using hu
  simpa using this

namespace ShortestPaths

theorem dirty_lt {sp0 sp : ShortestPaths} {n : Nat} (h : Marking sp0 sp n) (u : Nat)
    (hu : sp.dist u = DIRTY) : u < n := by
  rw [← h.len]
  apply lt_of_dist_ne
  rw [hu]; decide

theorem tree_target_eq {sp0 sp : ShortestPaths} {n : Nat} (h : Marking sp0 sp n) (u : Nat) :
    sp.tree_target u = sp0.tree_target u := by
  unfold tree_target
  rw [h.path_eq]

theorem mark_dirty_spec {sp0 sp : ShortestPaths} {n : Nat} (h : Marking sp0 sp n) (u : Nat)
    (hu : u < n) :
    Marking sp0 (sp.mark_dirty u) n ∧ (sp.mark_dirty u).dist u = DIRTY ∧
      (∀ w, sp.dist w = DIRTY → (sp.mark_dirty u).dist w = DIRTY) ∧
      (∀ w, (sp.mark_dirty u).dist w = DIRTY → sp.dist w = DIRTY ∨ w = u) ∧
      (sp.dist u ≠ DIRTY →
        (sp.mark_dirty u).dirty_states.length = sp.dirty_states.length + 1) := by
  unfold mark_dirty
  by_cases hd : sp.dist u = DIRTY
  · rw [if_pos hd]
    exact ⟨h, hd, fun w hw => hw, fun w hw => Or.inl hw, fun hne => absurd hd hne⟩
  · rw [if_neg hd]
    have hdist : ∀ w, ShortestPaths.dist
        { sp with
          goal_distances := sp.goal_distances.set u DIRTY
          dirty_states := sp.dirty_states ++ [u] } w =
        if w = u then DIRTY else sp.dist w := by
      intro w
      unfold dist
      exact getD_set_eq _ _ _ _ _ (by rw [h.len]; exact hu)
    refine ⟨?_, ?_, ?_, ?_, ?_⟩
    · refine
        { path_eq := h.path_eq
          costs_eq := h.costs_eq
          queue_eq := h.queue_eq
          len := by simp only [List.length_set]; exact h.len
          dist_or := ?_
          dirty_nodup := ?_
          dirty_iff := ?_ }
      · intro w
        rw [hdist]
        split_ifs
        · left; rfl
        · exact h.dist_or w
      · simp only
        rw [List.nodup_append]
        refine ⟨h.dirty_nodup, List.nodup_singleton u, ?_⟩
        intro a ha hb
        rw [List.mem_singleton] at hb
        exact hd ((h.dirty_iff u).mp (hb ▸ ha))
      · intro w
        rw [hdist]
        simp only [List.mem_append, List.mem_singleton]
        by_cases e : w = u
        · simp [e]
        · simp only [e, or_false, if_false]
          exact h.dirty_iff w
    · rw [hdist, if_pos rfl]
    · intro w hw
      rw [hdist]
      split_ifs
      · rfl
      · exact hw
    · intro w hw
      rw [hdist] at hw
      by_cases e : w = u
      · right; exact e
      · left; rw [if_neg e] at hw; exact hw
    · intro _
      simp

theorem childrenDirty_mono {in_ : List Transitions} {sp0 sp sp' : ShortestPaths} {n : Nat}
    (h : Marking sp0 sp n) (h' : Marking sp0 sp' n)
    (hmono : ∀ w, sp.dist w = DIRTY → sp'.dist w = DIRTY) (x : Nat)
    (hc : ChildrenDirty in_ sp x) : ChildrenDirty in_ sp' x := by
  intro t ht htt
  rw [tree_target_eq h'] at htt
  rw [← tree_target_eq h] at htt
  exact hmono _ (hc t ht htt)

end ShortestPaths

namespace ShortestPaths

theorem MarkStep.refl {in_ : List Transitions} {sp0 sp : ShortestPaths} {n : Nat}
    (h : Marking sp0 sp n) : MarkStep in_ sp0 n sp sp :=
  { marking := h
    mono := fun _ hw => hw
    newly := fun _ hy hn => absurd hy hn }

theorem MarkStep.trans {in_ : List Transitions} {sp0 sp1 sp2 sp3 : ShortestPaths} {n : Nat}
    (h12 : MarkStep in_ sp0 n sp1 sp2) (h23 : MarkStep in_ sp0 n sp2 sp3) :
    MarkStep in_ sp0 n sp1 sp3 :=
  { marking := h23.marking
    mono := fun w hw => h23.mono w (h12.mono w hw)
    newly := by
      intro y hy hn
      by_cases h2 : sp2.dist y = DIRTY
      · obtain ⟨hc, hs⟩ := h12.newly y h2 hn
        exact ⟨childrenDirty_mono h12.marking h23.marking h23.mono y hc, hs⟩
      · exact h23.newly y hy h2 }

theorem mark_orphaned_predecessors_succ (fuel : Nat) (in_ : List Transitions)
    (sp : ShortestPaths) (state : Nat) :
    mark_orphaned_predecessors (fuel + 1) in_ sp state =
      (in_.getD state []).foldl
        (fun sp t =>
          if sp.tree_target t.target_id = some state ∧ sp.dist t.target_id ≠ DIRTY then
            mark_orphaned_predecessors fuel in_ (sp.mark_dirty t.target_id) t.target_id
          else sp)
        sp := by
  rfl

theorem mark_orphaned_predecessors_spec {in_ : List Transitions} {sp0 : ShortestPaths}
    {n : Nat} (hin : ∀ y, ∀ t ∈ in_.getD y [], t.target_id < n) :
    ∀ (fuel : Nat) (sp : ShortestPaths) (x : Nat), Marking sp0 sp n →
      n ≤ sp.dirty_states.length + fuel →
      MarkStep in_ sp0 n sp (mark_orphaned_predecessors fuel in_ sp x) ∧
        ChildrenDirty in_ (mark_orphaned_predecessors fuel in_ sp x) x := by
  intro fuel
  induction fuel with
  | zero =>
    intro sp x h hfuel
    refine ⟨MarkStep.refl h, ?_⟩
    intro t ht _
    have hall := nodup_full sp.dirty_states n h.dirty_nodup
      (fun u hu => dirty_lt h u ((h.dirty_iff u).mp hu)) (by omega)
    exact (h.dirty_iff _).mp (hall _ (hin x t ht))
  | succ fuel ih =>
    intro sp x h hfuel
    rw [mark_orphaned_predecessors_succ]
    have key : ∀ (L : List Transition), (∀ t ∈ L, t.target_id < n) →
        ∀ sp : ShortestPaths, Marking sp0 sp n → n ≤ sp.dirty_states.length + (fuel + 1) →
        MarkStep in_ sp0 n sp
          (L.foldl
            (fun sp t =>
              if sp.tree_target t.target_id = some x ∧ sp.dist t.target_id ≠ DIRTY then
                mark_orphaned_predecessors fuel in_ (sp.mark_dirty t.target_id) t.target_id
              else sp) sp) ∧
        ∀ t ∈ L, sp0.tree_target t.target_id = some x →
          (L.foldl
            (fun sp t =>
              if sp.tree_target t.target_id = some x ∧ sp.dist t.target_id ≠ DIRTY then
                mark_orphaned_predecessors fuel in_ (sp.mark_dirty t.target_id) t.target_id
              else sp) sp).dist t.target_id = DIRTY := by
      intro L
      induction L with
      | nil =>
        intro _ sp h _
        exact ⟨MarkStep.refl h, fun t ht => absurd ht (List.not_mem_nil _)⟩
      | cons a L ihL =>
        intro hL sp h hfuel
        simp only [List.foldl_cons]
        have hLt : ∀ t ∈ L, t.target_id < n := fun t ht => hL t (List.mem_cons_of_mem _ ht)
        have ha : a.target_id < n := hL a (List.mem_cons_self _ _)
        by_cases hc : sp.tree_target a.target_id = some x ∧ sp.dist a.target_id ≠ DIRTY
        · rw [if_pos hc]
          obtain ⟨m1, m2, m3, m4, m5⟩ := mark_dirty_spec h a.target_id ha
          have hlen := m5 hc.2
          obtain ⟨s1, s2⟩ := ih (sp.mark_dirty a.target_id) a.target_id m1 (by omega)
          have hstep : MarkStep in_ sp0 n sp
              (mark_orphaned_predecessors fuel in_ (sp.mark_dirty a.target_id) a.target_id) :=
            { marking := s1.marking
              mono := fun w hw => s1.mono w (m3 w hw)
              newly := by
                intro y hy hn
                by_cases hya : y = a.target_id
                · rw [hya]
                  refine ⟨s2, ?_⟩
                  rw [← tree_target_eq h, hc.1]; rfl
                · apply s1.newly y hy
                  intro hd
                  rcases m4 y hd with h1 | h1
                  · exact hn h1
                  · exact hya h1 }
          have hfuel2 : n ≤ (mark_orphaned_predecessors fuel in_
              (sp.mark_dirty a.target_id) a.target_id).dirty_states.length + (fuel + 1) := by
            have h1 : sp.dirty_states.length ≤ (mark_orphaned_predecessors fuel in_
                (sp.mark_dirty a.target_id) a.target_id).dirty_states.length := by
              apply (List.subperm_of_subset h.dirty_nodup _).length_le
              intro w hw
              exact (hstep.marking.dirty_iff w).mpr (hstep.mono w ((h.dirty_iff w).mp hw))
            omega
          obtain ⟨r1, r2⟩ := ihL hLt _ hstep.marking hfuel2
          refine ⟨MarkStep.trans hstep r1, ?_⟩
          intro t ht htt
          rcases List.mem_cons.mp ht with e | e
          · rw [e]
            exact r1.mono _ (s1.mono _ m2)
          · exact r2 t e htt
        · rw [if_neg hc]
          obtain ⟨r1, r2⟩ := ihL hLt sp h hfuel
          refine ⟨r1, ?_⟩
          intro t ht htt
          rcases List.mem_cons.mp ht with e | e
          · rw [e] at htt ⊢
            apply r1.mono
            by_contra hnd
            exact hc ⟨by rw [tree_target_eq h]; exact htt, hnd⟩
          · exact r2 t e htt
    obtain ⟨k1, k2⟩ := key (in_.getD x []) (hin x) sp h hfuel
    refine ⟨k1, ?_⟩
    intro t ht htt
    rw [tree_target_eq k1.marking] at htt
    exact k2 t ht htt

end ShortestPaths

namespace ShortestPaths

theorem mark_orphan_spec {in_ : List Transitions} {sp0 : ShortestPaths} {n : Nat}
    (hin : ∀ y, ∀ t ∈ in_.getD y [], t.target_id < n) (hn : n ≤ in_.length)
    (v : Nat) (sp : ShortestPaths) (u : Nat) (hu : u < n) (h : Marking sp0 sp n) :
    MarkStep in_ sp0 n sp (mark_orphan in_ v sp u) ∧
      (sp0.tree_target u = some v → (mark_orphan in_ v sp u).dist u = DIRTY) := by
  unfold mark_orphan
  by_cases hc : sp.tree_target u = some v ∧ sp.dist u ≠ DIRTY
  · rw [if_pos hc]
    obtain ⟨m1, m2, m3, m4, _⟩ := mark_dirty_spec h u hu
    obtain ⟨s1, s2⟩ := mark_orphaned_predecessors_spec hin in_.length (sp.mark_dirty u) u m1
      (by omega)
    refine ⟨?_, fun _ => s1.mono _ m2⟩
    exact
      { marking := s1.marking
        mono := fun w hw => s1.mono w (m3 w hw)
        newly := by
          intro y hy hne
          by_cases hya : y = u
          · rw [hya]
            refine ⟨s2, ?_⟩
            rw [← tree_target_eq h, hc.1]; rfl
          · apply s1.newly y hy
            intro hd
            rcases m4 y hd with h1 | h1
            · exact hne h1
            · exact hya h1 }
  · rw [if_neg hc]
    refine ⟨MarkStep.refl h, ?_⟩
    intro htt
    by_contra hnd
    exact hc ⟨by rw [tree_target_eq h]; exact htt, hnd⟩

theorem foldl_mark_orphan_spec {in_ : List Transitions} {sp0 : ShortestPaths} {n : Nat}
    (hin : ∀ y, ∀ t ∈ in_.getD y [], t.target_id < n) (hn : n ≤ in_.length) (v : Nat) :
    ∀ (L : List Nat), (∀ u ∈ L, u < n) → ∀ sp : ShortestPaths, Marking sp0 sp n →
      MarkStep in_ sp0 n sp (L.foldl (mark_orphan in_ v) sp) ∧
        ∀ u ∈ L, sp0.tree_target u = some v →
          (L.foldl (mark_orphan in_ v) sp).dist u = DIRTY := by
  intro L
  induction L with
  | nil =>
    intro _ sp h
    exact ⟨MarkStep.refl h, fun u hu => absurd hu (List.not_mem_nil _)⟩
  | cons a L ih =>
    intro hL sp h
    simp only [List.foldl_cons]
    obtain ⟨a1, a2⟩ := mark_orphan_spec hin hn v sp a (hL a (List.mem_cons_self _ _)) h
    obtain ⟨r1, r2⟩ := ih (fun u hu => hL u (List.mem_cons_of_mem _ hu)) _ a1.marking
    refine ⟨MarkStep.trans a1 r1, ?_⟩
    intro u hu htt
    rcases List.mem_cons.mp hu with e | e
    · rw [e]
      exact r1.mono _ (a2 (e ▸ htt))
    · exact r2 u e htt

theorem mark_orphans_spec {in_ : List Transitions} {sp0 : ShortestPaths} {n : Nat}
    (hin : ∀ y, ∀ t ∈ in_.getD y [], t.target_id < n) (hn : n = in_.length)
    (v v1 v2 : Nat) (filter_orphans : Bool) (sp : ShortestPaths) (h : Marking sp0 sp n) :
    MarkStep in_ sp0 n sp (mark_orphans in_ v v1 v2 filter_orphans sp) ∧
      ∀ u, u < n → sp0.tree_target u = some v →
        (∃ t ∈ in_.getD v1 [] ++ in_.getD v2 [], t.target_id = u) →
        (mark_orphans in_ v v1 v2 filter_orphans sp).dist u = DIRTY := by
  unfold mark_orphans
  cases filter_orphans with
  | true =>
    simp only [if_true]
    obtain ⟨r1, r2⟩ := foldl_mark_orphan_spec hin (le_of_eq hn) v
      ((in_.getD v1 [] ++ in_.getD v2 []).map (fun t => t.target_id))
      (by
        intro u hu
        obtain ⟨t, ht, hte⟩ := List.mem_map.mp hu
        rw [← hte]
        rcases List.mem_append.mp ht with h1 | h1
        · exact hin v1 t h1
        · exact hin v2 t h1)
      sp h
    refine ⟨r1, ?_⟩
    intro u _ htt hex
    obtain ⟨t, ht, hte⟩ := hex
    exact r2 u (List.mem_map.mpr ⟨t, ht, hte⟩) htt
  | false =>
    simp only [Bool.false_eq_true, if_false]
    obtain ⟨r1, r2⟩ := foldl_mark_orphan_spec hin (le_of_eq hn) v (List.range in_.length)
      (by intro u hu; rw [hn]; exact List.mem_range.mp hu) sp h
    refine ⟨r1, ?_⟩
    intro u hu htt _
    exact r2 u (List.mem_range.mpr (by rw [← hn]; exact hu)) htt

end ShortestPaths

/-! ### From a clean state to the marked state of a repair -/

theorem getD_append_replicate {α : Type} (l : List α) (k j : Nat) (d : α) :
    (l ++ List.replicate k d).getD j d = l.getD j d := by
  by_cases h : j < l.length
  · exact List.getD_append l _ d j h
  · rw [List.getD_append_right l _ d j (by omega), getD_replicate_eq,
      getD_eq_default_of_le l j d (by omega)]

theorem indexOf_filter_lt (p : Nat → Bool) :
    ∀ (l : List Nat) (a b : Nat), a ∈ l → p a = true → p b = true →
      l.indexOf a < l.indexOf b → (l.filter p).indexOf a < (l.filter p).indexOf b := by
  intro l
  induction l with
  | nil => intro a b ha; exact absurd ha (List.not_mem_nil _)
  | cons x l ih =>
    intro a b ha hpa hpb hlt
    by_cases hax : x = a
    · have hbx : x ≠ b := by
        intro e
        rw [List.indexOf_cons_eq l hax, List.indexOf_cons_eq l e] at hlt
        omega
      have hpx : p x = true := by rw [hax]; exact hpa
      rw [List.filter_cons, if_pos hpx, List.indexOf_cons_eq _ hax, List.indexOf_cons_ne _ hbx]
      omega
    · have hal : a ∈ l := by
        rcases List.mem_cons.mp ha with e | e
        · exact absurd e.symm hax
        · exact e
      have hbx : x ≠ b := by
        intro e
        rw [List.indexOf_cons_eq l e] at hlt
        omega
      rw [List.indexOf_cons_ne l hax, List.indexOf_cons_ne l hbx] at hlt
      have hrec := ih a b hal hpa hpb (by omega)
      by_cases hpx : p x = true
      · rw [List.filter_cons, if_pos hpx, List.indexOf_cons_ne _ hax, List.indexOf_cons_ne _ hbx]
        omega
      · rw [List.filter_cons, if_neg hpx]
        exact hrec

theorem mem_getD_lt {α : Type} (l : List (List α)) (w : Nat) (t : α)
    (h : t ∈ l.getD w []) : w < l.length := by
  by_contra hc
  rw [getD_eq_default_of_le l w [] (by omega)] at h
  exact absurd h (List.not_mem_nil _)

theorem PathCost.project_le {costs : List Nat} {old_in in_ out : List Transitions}
    {goals : Goals} {v v1 v2 : Nat} (hs : SplitOf old_in in_ out goals v v1 v2)
    (hg : ∀ g ∈ goals, g < old_in.length) :
    ∀ u d, PathCost costs in_ goals u d →
      ∃ d', d' ≤ d ∧
        PathCost costs old_in goals (if u = old_in.length then v else u) d' := by
  intro u d h
  induction h with
  | goal g hgm =>
    have := hg g hgm
    rw [if_neg (by omega)]
    exact ⟨0, le_refl _, PathCost.goal g hgm⟩
  | step u op w d hedge _ ih =>
    obtain ⟨d', hle, hp⟩ := ih
    rcases hs.project w (mem_getD_lt _ _ _ hedge) ⟨op, u⟩ hedge with e | e
    · refine ⟨d', by omega, ?_⟩
      simp only at e
      rw [e]
      exact hp
    · exact ⟨d' + costs.getD op 0, by omega, PathCost.step _ op _ d' e hp⟩

namespace ShortestPaths

theorem mark_split_marked {costs : List Nat} {old_in in_ out : List Transitions} {goals : Goals}
    {sp : ShortestPaths} {S : List Nat} {s : Nat} {v v1 v2 : Nat}
    (hold : RInv costs old_in goals sp S s []) (hq : sp.open_queue.heap = [])
    (hwf : WellFormed costs in_ goals) (hs : SplitOf old_in in_ out goals v v1 v2)
    (filter_orphans : Bool) :
    Marked costs in_ out goals (sp.mark_split in_ v v1 v2 filter_orphans)
      (S.filter
        (fun u => decide ((sp.mark_split in_ v v1 v2 filter_orphans).dist u ≠ DIRTY))) := by
  have hN : in_.length = old_in.length + 1 := hs.length_in
  have hvlt := hs.v_lt
  have hSn : S.length ≤ old_in.length := nodup_length_le S _ hold.snodup hold.s_lt
  have hsize := hwf.size_le
  have hall : ∀ u, sp.dist u ≠ INF_COSTS → u ∈ S := by
    intro u hu
    by_contra hnS
    have := hold.front u hnS hu
    rw [hq] at this
    exact absurd this (List.not_mem_nil _)
  have hnd0 : ∀ u, sp.dist u ≠ DIRTY := by
    intro u
    rcases hold.bound u with hb | hb
    · rw [hb]; decide
    · have : S.length * 2147483647 ≤ 2147483647 * 2147483647 :=
        Nat.mul_le_mul_right _ (by omega)
      unfold DIRTY
      omega
  have hgl : ∀ g ∈ goals, g < old_in.length := by
    intro g hg
    apply hold.s_lt
    apply hall
    rw [hold.goal0 g hg]
    decide
  have hd0 : ∀ u, (sp.resize in_.length).dist u = sp.dist u := by
    intro u
    unfold dist resize
    exact getD_append_replicate _ _ _ _
  have hp0 : ∀ u, (sp.resize in_.length).shortest_path.getD u none =
      sp.shortest_path.getD u none := by
    intro u
    unfold resize
    exact getD_append_replicate _ _ _ _
  have hl0 : (sp.resize in_.length).goal_distances.length = in_.length := by
    unfold resize
    simp only [List.length_append, List.length_replicate]
    have := hold.len_gd
    omega
  have hlp0 : (sp.resize in_.length).shortest_path.length = in_.length := by
    unfold resize
    simp only [List.length_append, List.length_replicate]
    have := hold.len_sp
    omega
  have hm0 : Marking (sp.resize in_.length) (sp.resize in_.length) in_.length :=
    { path_eq := rfl
      costs_eq := rfl
      queue_eq := rfl
      len := hl0
      dist_or := fun u => Or.inr rfl
      dirty_nodup := List.nodup_nil
      dirty_iff := by
        intro u
        constructor
        · intro hu
          exact absurd hu (List.not_mem_nil _)
        · intro hu
          rw [hd0] at hu
          exact absurd hu (hnd0 u) }
  have hv1 : v1 < in_.length := by rcases hs.ids with ⟨e, _⟩ | ⟨e, _⟩ <;> omega
  have hv2 : v2 < in_.length := by rcases hs.ids with ⟨_, e⟩ | ⟨_, e⟩ <;> omega
  obtain ⟨m1, m1d, _, m1only, _⟩ := mark_dirty_spec hm0 v1 hv1
  obtain ⟨m2, m2d, m2mono, m2only, _⟩ := mark_dirty_spec m1 v2 hv2
  have hin : ∀ y, ∀ t ∈ in_.getD y [], t.target_id < in_.length :=
    fun y t ht => WellFormed.target_lt hwf y t ht
  obtain ⟨ms, morph⟩ := mark_orphans_spec hin rfl v v1 v2 filter_orphans _ m2
  unfold mark_split
  generalize mark_orphans in_ v v1 v2 filter_orphans
    (((sp.resize in_.length).mark_dirty v1).mark_dirty v2) = sp2 at ms morph ⊢
  have hsp1 : ∀ w, (((sp.resize in_.length).mark_dirty v1).mark_dirty v2).dist w = DIRTY →
      w = v ∨ w = old_in.length := by
    intro w hw
    rcases m2only w hw with h1 | h1
    · rcases m1only w h1 with h2 | h2
      · rw [hd0] at h2
        exact absurd h2 (hnd0 w)
      · rcases hs.ids with ⟨e, _⟩ | ⟨e, _⟩ <;> omega
    · rcases hs.ids with ⟨_, e⟩ | ⟨_, e⟩ <;> omega
  have hdv1 : sp2.dist v1 = DIRTY := ms.mono _ (m2mono _ m1d)
  have hdv2 : sp2.dist v2 = DIRTY := ms.mono _ m2d
  have hdv : sp2.dist v = DIRTY := by
    rcases hs.ids with ⟨e, _⟩ | ⟨_, e⟩
    · rw [← e]; exact hdv1
    · rw [← e]; exact hdv2
  have hdn : sp2.dist old_in.length = DIRTY := by
    rcases hs.ids with ⟨_, e⟩ | ⟨e, _⟩
    · rw [← e]; exact hdv2
    · rw [← e]; exact hdv1
  have hdist2 : ∀ u, sp2.dist u ≠ DIRTY → sp2.dist u = sp.dist u := by
    intro u hu
    rcases ms.marking.dist_or u with h1 | h1
    · exact absurd h1 hu
    · rw [h1, hd0]
  have hpath2 : ∀ u, sp2.shortest_path.getD u none = sp.shortest_path.getD u none := by
    intro u
    rw [ms.marking.path_eq, hp0]
  have hcases : ∀ y, sp2.dist y = DIRTY → y = v ∨ y = old_in.length ∨
      (ChildrenDirty in_ sp2 y ∧ sp.shortest_path.getD y none ≠ none) := by
    intro y hy
    by_cases h1 : (((sp.resize in_.length).mark_dirty v1).mark_dirty v2).dist y = DIRTY
    · rcases hsp1 y h1 with e | e
      · exact Or.inl e
      · exact Or.inr (Or.inl e)
    · obtain ⟨c1, c2⟩ := ms.newly y hy h1
      refine Or.inr (Or.inr ⟨c1, ?_⟩)
      intro hnone
      unfold tree_target at c2
      rw [hp0, hnone] at c2
      simp at c2
  have hgoal_clean : ∀ g ∈ goals, sp2.dist g ≠ DIRTY := by
    intro g hg hd
    have hglt := hgl g hg
    rcases hcases g hd with e | e | ⟨_, e⟩
    · exact hs.not_goal (e ▸ hg)
    · omega
    · exact e (hold.goal_tree g hg)
  have hmemS : ∀ u, u ∈ S.filter (fun u => decide (sp2.dist u ≠ DIRTY)) ↔
      (u ∈ S ∧ sp2.dist u ≠ DIRTY) := by
    intro u
    rw [List.mem_filter, decide_eq_true_eq]
  have hclean_ne : ∀ u, sp2.dist u ≠ DIRTY → u ≠ v ∧ u ≠ old_in.length := by
    intro u hu
    exact ⟨fun e => hu (e ▸ hdv), fun e => hu (e ▸ hdn)⟩
  have hclosure : ∀ u op t, u ∈ S → sp2.dist u ≠ DIRTY →
      sp.shortest_path.getD u none = some ⟨op, t⟩ →
      (⟨op, u⟩ : Transition) ∈ old_in.getD t [] → t ∈ S →
      (⟨op, u⟩ : Transition) ∈ in_.getD t [] ∧ sp2.dist t ≠ DIRTY := by
    intro u op t huS hud h1 h2 h3
    obtain ⟨huv, hun⟩ := hclean_ne u hud
    have hult : u < old_in.length := hold.s_lt u huS
    have htlt : t < old_in.length := hold.s_lt t h3
    have htv : t ≠ v := by
      intro e
      rw [e] at h1 h2
      apply hud
      apply morph u (by omega)
      · unfold tree_target
        rw [hp0, h1]
        rfl
      · rcases hs.redistribute ⟨op, u⟩ h2 huv with h4 | h4
        · exact ⟨⟨op, u⟩, List.mem_append_left _ h4, rfl⟩
        · exact ⟨⟨op, u⟩, List.mem_append_right _ h4, rfl⟩
    have hedge := hs.persist t htlt htv ⟨op, u⟩ h2 huv
    refine ⟨hedge, ?_⟩
    intro htd
    rcases hcases t htd with e | e | ⟨c, _⟩
    · exact htv e
    · omega
    · apply hud
      apply c ⟨op, u⟩ hedge
      unfold tree_target
      rw [hpath2, h1]
      rfl
  exact
    { costs_eq := by rw [ms.marking.costs_eq]; exact hold.costs_eq
      len_gd := ms.marking.len
      len_sp := by rw [ms.marking.path_eq]; exact hlp0
      queue_nil := by rw [ms.marking.queue_eq]; rfl
      dirty_nodup := ms.marking.dirty_nodup
      dirty_iff := ms.marking.dirty_iff
      out_sub := hs.out_sub
      in_sub := hs.in_sub
      snodup := hold.snodup.filter _
      s_iff := by
        intro u
        rw [hmemS]
        constructor
        · rintro ⟨huS, hud⟩
          refine ⟨?_, hud⟩
          rw [hdist2 u hud]
          exact hold.s_fin u huS
        · rintro ⟨hui, hud⟩
          refine ⟨hall u ?_, hud⟩
          rw [← hdist2 u hud]
          exact hui
      goal0 := by
        intro g hg
        rw [hdist2 g (hgoal_clean g hg)]
        exact hold.goal0 g hg
      goal_tree := by
        intro g hg
        rw [hpath2]
        exact hold.goal_tree g hg
      tree := by
        intro u hu hug
        obtain ⟨huS, hud⟩ := (hmemS u).mp hu
        obtain ⟨op, t, h1, h2, h3, h4, h5⟩ := hold.tree u (hold.s_fin u huS) hug
        obtain ⟨hedge, htd⟩ := hclosure u op t huS hud h1 h2 h3
        refine ⟨op, t, ?_, hedge, (hmemS t).mpr ⟨h3, htd⟩, ?_, ?_⟩
        · rw [hpath2]; exact h1
        · rw [hdist2 u hud, hdist2 t htd]; exact h4
        · exact indexOf_filter_lt _ S t u h3 (decide_eq_true htd) (decide_eq_true hud) h5
      opt := by
        intro w hw d hp
        obtain ⟨hwS, hwd⟩ := (hmemS w).mp hw
        obtain ⟨_, hwn⟩ := hclean_ne w hwd
        obtain ⟨d', hle, hp'⟩ := PathCost.project_le hs hgl w d hp
        rw [if_neg hwn] at hp'
        rw [hdist2 w hwd]
        exact le_trans (hold.opt w hwS d' hp') hle
      relaxed := by
        intro w hw t ht
        obtain ⟨hwS, hwd⟩ := (hmemS w).mp hw
        by_cases htd : sp2.dist t.target_id = DIRTY
        · exact Or.inl htd
        · right
          obtain ⟨_, hwn⟩ := hclean_ne w hwd
          obtain ⟨_, htn⟩ := hclean_ne t.target_id htd
          have hwlt := hold.s_lt w hwS
          rw [hdist2 w hwd, hdist2 _ htd]
          rcases hs.project w (by omega) t ht with e | hedge
          · rw [if_neg hwn, if_neg htn] at e
            rw [e]
            exact Nat.le_add_right _ _
          · rw [if_neg hwn, if_neg htn] at hedge
            rcases hold.relaxed w hwS _ hedge with ⟨_, hmem⟩ | hr
            · exact absurd hmem (List.not_mem_nil _)
            · exact hr }

end ShortestPaths

/-! ### Re-seeding the dirty states -/

namespace ShortestPaths

theorem best_step_spec (sp : ShortestPaths) (acc : Option (Nat × Transition))
    (a : Transition) :
    (best_step sp acc a = none →
      acc = none ∧ (sp.dist a.target_id = DIRTY ∨ sp.dist a.target_id = INF_COSTS)) ∧
    (∀ d t, best_step sp acc a = some (d, t) →
      (acc = some (d, t) ∨
        (t = a ∧ ¬ (sp.dist a.target_id = DIRTY ∨ sp.dist a.target_id = INF_COSTS) ∧
          d = (sp.dist a.target_id + sp.op_cost a.op_id) % 18446744073709551616)) ∧
      (∀ d0 t0, acc = some (d0, t0) → d ≤ d0) ∧
      (¬ (sp.dist a.target_id = DIRTY ∨ sp.dist a.target_id = INF_COSTS) →
        d ≤ (sp.dist a.target_id + sp.op_cost a.op_id) % 18446744073709551616)) := by
  unfold best_step
  by_cases hu : sp.dist a.target_id = DIRTY ∨ sp.dist a.target_id = INF_COSTS
  · rw [if_pos hu]
    refine ⟨fun h => ⟨h, hu⟩, ?_⟩
    intro d t h
    refine ⟨Or.inl h, ?_, fun hn => absurd hu hn⟩
    intro d0 t0 h0
    rw [h0] at h
    simp only [Option.some.injEq, Prod.mk.injEq] at h
    omega
  · rw [if_neg hu]
    cases acc with
    | none =>
      simp only
      refine ⟨fun h => by simp at h, ?_⟩
      intro d t h
      simp only [Option.some.injEq, Prod.mk.injEq] at h
      refine ⟨Or.inr ⟨h.2.symm, hu, h.1.symm⟩, fun d0 t0 h0 => by simp at h0, ?_⟩
      intro _
      omega
    | some p =>
      obtain ⟨d1, t1⟩ := p
      simp only
      by_cases hlt : (sp.dist a.target_id + sp.op_cost a.op_id) % 18446744073709551616 < d1
      · rw [if_pos hlt]
        refine ⟨fun h => by simp at h, ?_⟩
        intro d t h
        simp only [Option.some.injEq, Prod.mk.injEq] at h
        refine ⟨Or.inr ⟨h.2.symm, hu, h.1.symm⟩, ?_, ?_⟩
        · intro d0 t0 h0
          simp only [Option.some.injEq, Prod.mk.injEq] at h0
          omega
        · intro _
          omega
      · rw [if_neg hlt]
        refine ⟨fun h => by simp at h, ?_⟩
        intro d t h
        simp only [Option.some.injEq, Prod.mk.injEq] at h
        refine ⟨Or.inl (by rw [h.1, h.2]), ?_, ?_⟩
        · intro d0 t0 h0
          simp only [Option.some.injEq, Prod.mk.injEq] at h0
          omega
        · intro _
          omega

theorem best_fold_spec (sp : ShortestPaths) :
    ∀ (L : Transitions) (acc : Option (Nat × Transition)),
      (L.foldl (best_step sp) acc = none →
        acc = none ∧
          ∀ t ∈ L, sp.dist t.target_id = DIRTY ∨ sp.dist t.target_id = INF_COSTS) ∧
      (∀ d t, L.foldl (best_step sp) acc = some (d, t) →
        (acc = some (d, t) ∨
          (t ∈ L ∧ ¬ (sp.dist t.target_id = DIRTY ∨ sp.dist t.target_id = INF_COSTS) ∧
            d = (sp.dist t.target_id + sp.op_cost t.op_id) % 18446744073709551616)) ∧
        (∀ d0 t0, acc = some (d0, t0) → d ≤ d0) ∧
        (∀ t' ∈ L, ¬ (sp.dist t'.target_id = DIRTY ∨ sp.dist t'.target_id = INF_COSTS) →
          d ≤ (sp.dist t'.target_id + sp.op_cost t'.op_id) % 18446744073709551616)) := by
  intro L
  induction L with
  | nil =>
    intro acc
    simp only [List.foldl_nil]
    refine ⟨fun h => ⟨h, fun t ht => absurd ht (List.not_mem_nil _)⟩, ?_⟩
    intro d t h
    refine ⟨Or.inl h, ?_, fun t' ht' => absurd ht' (List.not_mem_nil _)⟩
    intro d0 t0 h0
    rw [h0] at h
    simp only [Option.some.injEq, Prod.mk.injEq] at h
    omega
  | cons a L ih =>
    intro acc
    simp only [List.foldl_cons]
    obtain ⟨i1, i2⟩ := ih (best_step sp acc a)
    obtain ⟨s1, s2⟩ := best_step_spec sp acc a
    constructor
    · intro h
      obtain ⟨h1, h2⟩ := i1 h
      obtain ⟨h3, h4⟩ := s1 h1
      refine ⟨h3, ?_⟩
      intro t ht
      rcases List.mem_cons.mp ht with e | e
      · rw [e]; exact h4
      · exact h2 t e
    · intro d t h
      obtain ⟨j1, j2, j3⟩ := i2 d t h
      refine ⟨?_, ?_, ?_⟩
      · rcases j1 with e | ⟨e1, e2, e3⟩
        · rcases (s2 d t e).1 with e' | ⟨e1, e2, e3⟩
          · exact Or.inl e'
          · right
            rw [e1]
            exact ⟨List.mem_cons_self _ _, e2, e3⟩
        · exact Or.inr ⟨List.mem_cons_of_mem _ e1, e2, e3⟩
      · intro d0 t0 h0
        cases hacc : best_step sp acc a with
        | none =>
          have := (s1 hacc).1
          rw [h0] at this
          simp at this
        | some p =>
          obtain ⟨d1, t1⟩ := p
          have a1 := (s2 d1 t1 hacc).2.1 d0 t0 h0
          have a2 := j2 d1 t1 hacc
          omega
      · intro t' ht' hus
        rcases List.mem_cons.mp ht' with e | e
        · rw [e]
          cases hacc : best_step sp acc a with
          | none => exact absurd (s1 hacc).2 (e ▸ hus)
          | some p =>
            obtain ⟨d1, t1⟩ := p
            have a1 := (s2 d1 t1 hacc).2.2 (e ▸ hus)
            have a2 := j2 d1 t1 hacc
            omega
        · exact j3 t' e hus

theorem best_successor_spec (sp : ShortestPaths) (out : Transitions) :
    (best_successor sp out = none →
      ∀ t ∈ out, sp.dist t.target_id = DIRTY ∨ sp.dist t.target_id = INF_COSTS) ∧
    (∀ d t, best_successor sp out = some (d, t) →
      t ∈ out ∧ ¬ (sp.dist t.target_id = DIRTY ∨ sp.dist t.target_id = INF_COSTS) ∧
        d = (sp.dist t.target_id + sp.op_cost t.op_id) % 18446744073709551616 ∧
        ∀ t' ∈ out, ¬ (sp.dist t'.target_id = DIRTY ∨ sp.dist t'.target_id = INF_COSTS) →
          d ≤ (sp.dist t'.target_id + sp.op_cost t'.op_id) % 18446744073709551616) := by
  unfold best_successor
  obtain ⟨h1, h2⟩ := best_fold_spec sp out none
  refine ⟨fun h => (h1 h).2, ?_⟩
  intro d t h
  obtain ⟨k1, _, k3⟩ := h2 d t h
  rcases k1 with e | ⟨e1, e2, e3⟩
  · simp at e
  · exact ⟨e1, e2, e3, k3⟩

end ShortestPaths

namespace ShortestPaths

theorem reseed_spec (sp : ShortestPaths) (x : Nat × Option (Nat × Transition))
    (h1 : x.1 < sp.goal_distances.length) (h2 : x.1 < sp.shortest_path.length) :
    (reseed sp x).operator_costs = sp.operator_costs ∧
    (reseed sp x).goal_distances.length = sp.goal_distances.length ∧
    (reseed sp x).shortest_path.length = sp.shortest_path.length ∧
    (∀ u, (reseed sp x).dist u =
      if u = x.1 then x.2.elim INF_COSTS (fun p => p.1) else sp.dist u) ∧
    (∀ u, (reseed sp x).shortest_path.getD u none =
      if u = x.1 then x.2.map (fun p => p.2) else sp.shortest_path.getD u none) ∧
    (IsHeap sp.open_queue.heap → IsHeap (reseed sp x).open_queue.heap) ∧
    (reseed sp x).open_queue.heap.Perm ((seed_entry x).toList ++ sp.open_queue.heap) := by
  obtain ⟨s, b⟩ := x
  cases b with
  | none =>
    unfold reseed seed_entry dist
    simp only [List.length_set, Option.elim, Option.map_none', Option.toList, List.nil_append]
    refine ⟨trivial, trivial, trivial, ?_, ?_, fun h => h, List.Perm.refl _⟩
    · intro u
      exact getD_set_eq _ _ _ _ _ h1
    · intro u
      exact getD_set_eq _ _ _ _ _ h2
  | some p =>
    obtain ⟨d, t⟩ := p
    unfold reseed seed_entry dist
    simp only [List.length_set, Option.elim, Option.map_some', Option.toList,
      List.singleton_append]
    refine ⟨trivial, trivial, trivial, ?_, ?_, ?_, ?_⟩
    · intro u
      exact getD_set_eq _ _ _ _ _ h1
    · intro u
      exact getD_set_eq _ _ _ _ _ h2
    · intro h
      exact HeapQueue.push_isHeap _ _ _ h
    · exact HeapQueue.push_perm _ _ _

theorem foldl_reseed_spec (n : Nat) :
    ∀ (seeds : List (Nat × Option (Nat × Transition))) (sp : ShortestPaths),
      (seeds.map Prod.fst).Nodup → (∀ x ∈ seeds, x.1 < n) →
      sp.goal_distances.length = n → sp.shortest_path.length = n →
      IsHeap sp.open_queue.heap →
      (seeds.foldl reseed sp).operator_costs = sp.operator_costs ∧
      (seeds.foldl reseed sp).goal_distances.length = n ∧
      (seeds.foldl reseed sp).shortest_path.length = n ∧
      IsHeap (seeds.foldl reseed sp).open_queue.heap ∧
      (seeds.foldl reseed sp).open_queue.heap.Perm
        (seeds.filterMap seed_entry ++ sp.open_queue.heap) ∧
      (∀ u, u ∉ seeds.map Prod.fst →
        (seeds.foldl reseed sp).dist u = sp.dist u ∧
        (seeds.foldl reseed sp).shortest_path.getD u none = sp.shortest_path.getD u none) ∧
      (∀ x ∈ seeds,
        (seeds.foldl reseed sp).dist x.1 = x.2.elim INF_COSTS (fun p => p.1) ∧
        (seeds.foldl reseed sp).shortest_path.getD x.1 none = x.2.map (fun p => p.2)) := by
  intro seeds
  induction seeds with
  | nil =>
    intro sp _ _ h1 h2 h3
    exact ⟨rfl, h1, h2, h3, List.Perm.refl _, fun u _ => ⟨rfl, rfl⟩,
      fun x hx => absurd hx (List.not_mem_nil _)⟩
  | cons a rest ih =>
    intro sp hnd hlt h1 h2 h3
    simp only [List.foldl_cons]
    simp only [List.map_cons, List.nodup_cons] at hnd
    have ha : a.1 < n := hlt a (List.mem_cons_self _ _)
    obtain ⟨s1, s2, s3, s4, s5, s6, s7⟩ :=
      reseed_spec sp a (by rw [h1]; exact ha) (by rw [h2]; exact ha)
    obtain ⟨r1, r2, r3, r4, r5, r6, r7⟩ := ih (reseed sp a) hnd.2
      (fun x hx => hlt x (List.mem_cons_of_mem _ hx)) (by rw [s2]; exact h1)
      (by rw [s3]; exact h2) (s6 h3)
    refine ⟨by rw [r1, s1], r2, r3, r4, ?_, ?_, ?_⟩
    · refine r5.trans ?_
      refine (List.Perm.append_left _ s7).trans ?_
      rw [List.filterMap_cons]
      cases seed_entry a with
      | none => exact List.Perm.refl _
      | some e => exact List.perm_middle
    · intro u hu
      simp only [List.map_cons, List.mem_cons, not_or] at hu
      obtain ⟨q1, q2⟩ := r6 u hu.2
      rw [q1, q2, s4, s5, if_neg hu.1, if_neg hu.1]
      exact ⟨rfl, rfl⟩
    · intro x hx
      rcases List.mem_cons.mp hx with e | e
      · rw [e]
        obtain ⟨q1, q2⟩ := r6 a.1 hnd.1
        rw [q1, q2, s4, s5, if_pos rfl, if_pos rfl]
        exact ⟨rfl, rfl⟩
      · exact r7 x e

theorem nodup_filterMap_seed_entry :
    ∀ (seeds : List (Nat × Option (Nat × Transition))), (seeds.map Prod.fst).Nodup →
      (seeds.filterMap seed_entry).Nodup := by
  intro seeds
  induction seeds with
  | nil => intro _; exact List.nodup_nil
  | cons a rest ih =>
    intro hnd
    simp only [List.map_cons, List.nodup_cons] at hnd
    rw [List.filterMap_cons]
    cases hsa : seed_entry a with
    | none => exact ih hnd.2
    | some e =>
      simp only
      rw [List.nodup_cons]
      refine ⟨?_, ih hnd.2⟩
      intro hmem
      obtain ⟨x, hx, hxe⟩ := List.mem_filterMap.mp hmem
      apply hnd.1
      have e1 : e.2 = (a.1 : Int) := by
        unfold seed_entry at hsa
        cases h2 : a.2 with
        | none => rw [h2] at hsa; simp at hsa
        | some p =>
          rw [h2] at hsa
          simp only [Option.map_some', Option.some.injEq] at hsa
          rw [← hsa]
      have e2 : e.2 = (x.1 : Int) := by
        unfold seed_entry at hxe
        cases h2 : x.2 with
        | none => rw [h2] at hxe; simp at hxe
        | some p =>
          rw [h2] at hxe
          simp only [Option.map_some', Option.some.injEq] at hxe
          rw [← hxe]
      have e3 : a.1 = x.1 := by
        rw [e1] at e2
        exact_mod_cast e2
      rw [e3]
      exact List.mem_map.mpr ⟨x, hx, rfl⟩

theorem Marked.final {costs : List Nat} {in_ out : List Transitions} {goals : Goals}
    {sp : ShortestPaths} {S : List Nat} (hwf : WellFormed costs in_ goals)
    (hm : Marked costs in_ out goals sp S) :
    ∀ (k u : Nat), u ∈ S → S.indexOf u < k →
      sp.dist u ≤ S.indexOf u * 2147483647 ∧ PathCost costs in_ goals u (sp.dist u) := by
  intro k
  induction k with
  | zero => intro u _ hlt; omega
  | succ k ih =>
    intro u hu hlt
    by_cases hg : u ∈ goals
    · rw [hm.goal0 u hg]
      exact ⟨Nat.zero_le _, PathCost.goal u hg⟩
    · obtain ⟨op, v, _, h2, h3, h4, h5⟩ := hm.tree u hu hg
      obtain ⟨i1, i2⟩ := ih v h3 (by omega)
      have hc := cost_getD_le costs op hwf.cost_le
      constructor
      · rw [h4]
        have : (S.indexOf v + 1) * 2147483647 ≤ S.indexOf u * 2147483647 :=
          Nat.mul_le_mul_right _ (by omega)
        omega
      · rw [h4]
        exact PathCost.step u op v _ h2 i2

end ShortestPaths

namespace ShortestPaths

theorem reseed_dirty_rinv {costs : List Nat} {in_ out : List Transitions} {goals : Goals}
    {sp : ShortestPaths} {S : List Nat} (hwf : WellFormed costs in_ goals)
    (hm : Marked costs in_ out goals sp S) (s0 : Nat) (hs0 : s0 ∉ S) :
    RInv costs in_ goals (sp.reseed_dirty out) S s0 [] ∧
      (sp.reseed_dirty out).open_queue.heap.length ≤ sp.dirty_states.length := by
  have hsize := hwf.size_le
  have hS_lt : ∀ u ∈ S, u < in_.length := by
    intro u hu
    rw [← hm.len_gd]
    exact lt_of_dist_ne sp u ((hm.s_iff u).mp hu).1
  have hSn : S.length ≤ in_.length := nodup_length_le S _ hm.snodup hS_lt
  have hD_lt : ∀ u ∈ sp.dirty_states, u < in_.length := by
    intro u hu
    rw [← hm.len_gd]
    apply lt_of_dist_ne
    rw [(hm.dirty_iff u).mp hu]
    decide
  have hS_notD : ∀ u ∈ S, u ∉ sp.dirty_states := by
    intro u hu hd
    exact ((hm.s_iff u).mp hu).2 ((hm.dirty_iff u).mp hd)
  have hfinal : ∀ u ∈ S, sp.dist u ≤ S.indexOf u * 2147483647 ∧
      PathCost costs in_ goals u (sp.dist u) :=
    fun u hu => Marked.final hwf hm (S.indexOf u + 1) u hu (Nat.lt_succ_self _)
  have hidx : ∀ u ∈ S, S.indexOf u < S.length := fun u hu => List.indexOf_lt_length.mpr hu
  have hSbound : ∀ u ∈ S, sp.dist u + 2147483647 ≤ S.length * 2147483647 := by
    intro u hu
    have h1 := (hfinal u hu).1
    have h2 := hidx u hu
    have : (S.indexOf u + 1) * 2147483647 ≤ S.length * 2147483647 :=
      Nat.mul_le_mul_right _ (by omega)
    omega
  have hmul : S.length * 2147483647 ≤ 2147483647 * 2147483647 :=
    Nat.mul_le_mul_right _ (by omega)
  have hcand : ∀ t : Transition, t.target_id ∈ S →
      (sp.dist t.target_id + sp.op_cost t.op_id) % 18446744073709551616 =
        sp.dist t.target_id + costs.getD t.op_id 0 ∧
      sp.dist t.target_id + costs.getD t.op_id 0 ≤ S.length * 2147483647 := by
    intro t ht
    have h1 := hSbound _ ht
    have hc := cost_getD_le costs t.op_id hwf.cost_le
    have e : sp.op_cost t.op_id = costs.getD t.op_id 0 := by
      unfold op_cost
      rw [hm.costs_eq]
    rw [e]
    constructor
    · apply Nat.mod_eq_of_lt
      omega
    · omega
  have husable : ∀ u, ¬ (sp.dist u = DIRTY ∨ sp.dist u = INF_COSTS) ↔ u ∈ S := by
    intro u
    rw [hm.s_iff]
    constructor
    · intro h
      exact ⟨fun e => h (Or.inr e), fun e => h (Or.inl e)⟩
    · rintro ⟨h1, h2⟩ (e | e)
      · exact h2 e
      · exact h1 e
  have hmapfst : (sp.dirty_states.map
      (fun s => (s, best_successor sp (out.getD s [])))).map Prod.fst = sp.dirty_states := by
    rw [List.map_map]
    exact List.map_id _
  obtain ⟨r1, r2, r3, r4, r5, r6, r7⟩ := foldl_reseed_spec in_.length
    (sp.dirty_states.map (fun s => (s, best_successor sp (out.getD s [])))) sp
    (by rw [hmapfst]; exact hm.dirty_nodup)
    (by
      intro x hx
      obtain ⟨s, hs, e⟩ := List.mem_map.mp hx
      rw [← e]
      exact hD_lt s hs)
    hm.len_gd hm.len_sp (by rw [hm.queue_nil]; exact isHeap_nil)
  rw [hmapfst] at r6
  rw [hm.queue_nil, List.append_nil] at r5
  have hnodupq := (r5.nodup_iff).mpr
    (nodup_filterMap_seed_entry _ (by rw [hmapfst]; exact hm.dirty_nodup))
  have hlenq : (List.foldl reseed sp (sp.dirty_states.map
      (fun s => (s, best_successor sp (out.getD s []))))).open_queue.heap.length ≤
      sp.dirty_states.length := by
    rw [r5.length_eq]
    refine le_trans (List.length_filterMap_le _ _) ?_
    rw [List.length_map]
  have hheap_mem : ∀ e : Entry, e ∈ (List.foldl reseed sp (sp.dirty_states.map
      (fun s => (s, best_successor sp (out.getD s []))))).open_queue.heap ↔
      ∃ s ∈ sp.dirty_states, ∃ d t, best_successor sp (out.getD s []) = some (d, t) ∧
        e = (d, (s : Int)) := by
    intro e
    rw [r5.mem_iff, List.mem_filterMap]
    constructor
    · rintro ⟨x, hx, hxe⟩
      obtain ⟨s, hs, rfl⟩ := List.mem_map.mp hx
      unfold seed_entry at hxe
      cases hbs : best_successor sp (out.getD s []) with
      | none =>
        rw [hbs] at hxe
        simp at hxe
      | some p =>
        rw [hbs] at hxe
        simp only [Option.map_some', Option.some.injEq] at hxe
        exact ⟨s, hs, p.1, p.2, hbs, hxe.symm⟩
    · rintro ⟨s, hs, d, t, hbs, rfl⟩
      refine ⟨(s, best_successor sp (out.getD s [])), List.mem_map.mpr ⟨s, hs, rfl⟩, ?_⟩
      unfold seed_entry
      simp only [hbs, Option.map_some']
  have hseed : ∀ s ∈ sp.dirty_states,
      (List.foldl reseed sp (sp.dirty_states.map
        (fun s => (s, best_successor sp (out.getD s []))))).dist s =
        (best_successor sp (out.getD s [])).elim INF_COSTS (fun p => p.1) ∧
      (List.foldl reseed sp (sp.dirty_states.map
        (fun s => (s, best_successor sp (out.getD s []))))).shortest_path.getD s none =
        (best_successor sp (out.getD s [])).map (fun p => p.2) :=
    fun s hs => r7 (s, best_successor sp (out.getD s [])) (List.mem_map.mpr ⟨s, hs, rfl⟩)
  show RInv costs in_ goals (List.foldl reseed sp (sp.dirty_states.map
      (fun s => (s, best_successor sp (out.getD s []))))) S s0 [] ∧
    (List.foldl reseed sp (sp.dirty_states.map
      (fun s => (s, best_successor sp (out.getD s []))))).open_queue.heap.length ≤
      sp.dirty_states.length
  generalize List.foldl reseed sp (sp.dirty_states.map
      (fun s => (s, best_successor sp (out.getD s [])))) = r
    at r1 r2 r3 r4 r5 r6 r7 hnodupq hlenq hheap_mem hseed ⊢
  have hnone : ∀ s ∈ sp.dirty_states, best_successor sp (out.getD s []) = none →
      r.dist s = INF_COSTS ∧ ∀ t ∈ out.getD s [], t.target_id ∉ S := by
    intro s hs hbs
    have h1 := (hseed s hs).1
    rw [hbs] at h1
    refine ⟨h1, ?_⟩
    intro t ht htS
    exact (husable _).mpr htS ((best_successor_spec sp (out.getD s [])).1 hbs t ht)
  have hsome : ∀ s ∈ sp.dirty_states, ∀ d t, best_successor sp (out.getD s []) = some (d, t) →
      r.dist s = d ∧ r.shortest_path.getD s none = some t ∧ t ∈ out.getD s [] ∧
        t.target_id ∈ S ∧ d = sp.dist t.target_id + costs.getD t.op_id 0 ∧
        d ≤ S.length * 2147483647 ∧
        ∀ t' ∈ out.getD s [], t'.target_id ∈ S →
          d ≤ sp.dist t'.target_id + costs.getD t'.op_id 0 := by
    intro s hs d t hbs
    obtain ⟨h1, h2⟩ := hseed s hs
    rw [hbs] at h1 h2
    obtain ⟨b1, b2, b3, b4⟩ := (best_successor_spec sp (out.getD s [])).2 d t hbs
    have htS := (husable _).mp b2
    obtain ⟨c1, c2⟩ := hcand t htS
    rw [c1] at b3
    refine ⟨h1, h2, b1, htS, b3, by omega, ?_⟩
    intro t' ht' hmem'
    have := b4 t' ht' ((husable _).mpr hmem')
    rw [(hcand t' hmem').1] at this
    exact this
  have hclean : ∀ u, u ∉ sp.dirty_states →
      r.dist u = sp.dist u ∧ r.shortest_path.getD u none = sp.shortest_path.getD u none := r6
  have hnotD_S : ∀ u, u ∉ sp.dirty_states → sp.dist u ≠ INF_COSTS → u ∈ S := by
    intro u hu hi
    exact (hm.s_iff u).mpr ⟨hi, fun hd => hu ((hm.dirty_iff u).mpr hd)⟩
  have hgoalD : ∀ g ∈ goals, g ∉ sp.dirty_states := by
    intro g hg h
    have := (hm.dirty_iff g).mp h
    rw [hm.goal0 g hg] at this
    exact absurd this (by decide)
  refine ⟨?_, hlenq⟩
  exact
    { costs_eq := by rw [r1]; exact hm.costs_eq
      len_gd := r2
      len_sp := r3
      heap := r4
      qnodup := hnodupq
      snodup := hm.snodup
      s_lt := hS_lt
      s_fin := by
        intro u hu
        rw [(hclean u (hS_notD u hu)).1]
        exact ((hm.s_iff u).mp hu).1
      bound := by
        intro u
        by_cases hu : u ∈ sp.dirty_states
        · cases hbs : best_successor sp (out.getD u []) with
          | none => exact Or.inl (hnone u hu hbs).1
          | some p =>
            obtain ⟨h1, _, _, _, _, h6, _⟩ := hsome u hu p.1 p.2 hbs
            right
            rw [h1]
            exact h6
        · rw [(hclean u hu).1]
          by_cases hi : sp.dist u = INF_COSTS
          · exact Or.inl hi
          · right
            have := hSbound u (hnotD_S u hu hi)
            omega
      goal0 := by
        intro g hg
        rw [(hclean g (hgoalD g hg)).1]
        exact hm.goal0 g hg
      sound := by
        intro u hu
        by_cases hD : u ∈ sp.dirty_states
        · cases hbs : best_successor sp (out.getD u []) with
          | none => exact absurd (hnone u hD hbs).1 hu
          | some p =>
            obtain ⟨h1, _, h3, h4, h5, _, _⟩ := hsome u hD p.1 p.2 hbs
            rw [h1, h5]
            exact PathCost.step u p.2.op_id p.2.target_id _
              (hm.out_sub u (hD_lt u hD) p.2 h3) (hfinal _ h4).2
        · have e := (hclean u hD).1
          rw [e] at hu ⊢
          exact (hfinal u (hnotD_S u hD hu)).2
      tree := by
        intro u hu hug
        by_cases hD : u ∈ sp.dirty_states
        · cases hbs : best_successor sp (out.getD u []) with
          | none => exact absurd (hnone u hD hbs).1 hu
          | some p =>
            obtain ⟨h1, h2, h3, h4, h5, _, _⟩ := hsome u hD p.1 p.2 hbs
            refine ⟨p.2.op_id, p.2.target_id, h2,
              hm.out_sub u (hD_lt u hD) p.2 h3, h4, ?_, ?_⟩
            · rw [(hclean _ (hS_notD _ h4)).1, h1]
              exact h5
            · have huS : u ∉ S := fun h => hS_notD u h hD
              rw [List.indexOf_of_not_mem huS]
              exact hidx _ h4
        · have e := (hclean u hD).1
          rw [e] at hu
          have huS := hnotD_S u hD hu
          obtain ⟨op, v, t1, t2, t3, t4, t5⟩ := hm.tree u huS hug
          refine ⟨op, v, ?_, t2, t3, ?_, t5⟩
          · rw [(hclean u hD).2]; exact t1
          · rw [e, (hclean v (hS_notD v t3)).1]; exact t4
      opt := by
        intro v hv d hp
        rw [(hclean v (hS_notD v hv)).1]
        exact hm.opt v hv d hp
      relaxed := by
        intro v hv t ht
        right
        rw [(hclean v (hS_notD v hv)).1]
        by_cases hD : t.target_id ∈ sp.dirty_states
        · have hout : (⟨t.op_id, v⟩ : Transition) ∈ out.getD t.target_id [] :=
            hm.in_sub v (hS_lt v hv) t ht
          cases hbs : best_successor sp (out.getD t.target_id []) with
          | none => exact absurd hv ((hnone _ hD hbs).2 _ hout)
          | some p =>
            obtain ⟨h1, _, _, _, _, _, h7⟩ := hsome _ hD p.1 p.2 hbs
            rw [h1]
            exact h7 _ hout hv
        · rw [(hclean _ hD).1]
          rcases hm.relaxed v hv t ht with h | h
          · exact absurd ((hm.dirty_iff _).mpr h) hD
          · exact h
      queue := by
        intro e he
        obtain ⟨s, hs, d, t, hbs, rfl⟩ := (hheap_mem e).mp he
        obtain ⟨h1, _, _, _, _, h6, _⟩ := hsome s hs d t hbs
        exact ⟨s, hD_lt s hs, rfl, le_of_eq h1, fun hS => absurd hs (hS_notD s hS), h6⟩
      front := by
        intro u huS hu
        by_cases hD : u ∈ sp.dirty_states
        · cases hbs : best_successor sp (out.getD u []) with
          | none => exact absurd (hnone u hD hbs).1 hu
          | some p =>
            obtain ⟨h1, _⟩ := hsome u hD p.1 p.2 hbs
            rw [h1]
            exact (hheap_mem _).mpr ⟨u, hD, p.1, p.2, hbs, rfl⟩
        · rw [(hclean u hD).1] at hu
          exact absurd (hnotD_S u hD hu) huS
      goal_tree := by
        intro g hg
        rw [(hclean g (hgoalD g hg)).2]
        exact hm.goal_tree g hg
      cur := fun h => absurd h hs0
      rest_sub := fun t ht => absurd ht (List.not_mem_nil _) }

end ShortestPaths

/-! ### The repair returns a clean state -/

theorem pending_degree_le (transitions : List Transitions) (S : List Nat) :
    pending_degree transitions S ≤ (transitions.map List.length).sum := by
  unfold pending_degree
  rw [← map_range_getD]
  exact List.Sublist.sum_le_sum (List.Sublist.map _ (List.filter_sublist _))
    (fun _ _ => Nat.zero_le _)

namespace ShortestPaths

theorem dijkstra_from_orphans_rinv {costs : List Nat} {old_in in_ out : List Transitions}
    {goals : Goals} {sp : ShortestPaths} {S : List Nat} {s : Nat} {v v1 v2 : Nat}
    (hold : RInv costs old_in goals sp S s []) (hq : sp.open_queue.heap = [])
    (hwf : WellFormed costs in_ goals) (hs : SplitOf old_in in_ out goals v v1 v2)
    (filter_orphans : Bool) :
    ∃ sp' S' s', sp.dijkstra_from_orphans in_ out v v1 v2 filter_orphans = some sp' ∧
      RInv costs in_ goals sp' S' s' [] ∧ sp'.open_queue.heap = [] := by
  have hm := mark_split_marked hold hq hwf hs filter_orphans
  have hs0 : in_.length ∉ S.filter
      (fun u => decide ((sp.mark_split in_ v v1 v2 filter_orphans).dist u ≠ DIRTY)) := by
    intro h
    have h1 := lt_of_dist_ne _ _ ((hm.s_iff _).mp h).1
    rw [hm.len_gd] at h1
    omega
  obtain ⟨hr, hlen⟩ := reseed_dirty_rinv hwf hm in_.length hs0
  unfold dijkstra_from_orphans
  apply dijkstra_loop_spec_r hwf _ _ _ _ hr
  have := pending_degree_le in_ (S.filter
      (fun u => decide ((sp.mark_split in_ v v1 v2 filter_orphans).dist u ≠ DIRTY)))
  omega

theorem Clean.rinv {costs : List Nat} {transitions : List Transitions} {goals : Goals}
    {sp : ShortestPaths} (h : Clean costs transitions goals sp) :
    ∃ S s, RInv costs transitions goals sp S s [] ∧ sp.open_queue.heap = [] := by
  induction h with
  | full sp sp' transitions goals hc hwf hrun =>
    subst hc
    obtain ⟨sp'', S, s, h1, h2, h3⟩ := full_dijkstra_rinv sp transitions goals hwf
    rw [hrun] at h1
    simp only [Option.some.injEq] at h1
    subst h1
    exact ⟨S, s, h2, h3⟩
  | repair sp sp' old_in in_ out goals v v1 v2 filter_orphans _ hwf hs hrun ih =>
    obtain ⟨S, s, hold, hq⟩ := ih
    obtain ⟨sp'', S', s', h1, h2, h3⟩ :=
      dijkstra_from_orphans_rinv hold hq hwf hs filter_orphans
    rw [hrun] at h1
    simp only [Option.some.injEq] at h1
    subst h1
    exact ⟨S', s', h2, h3⟩

end ShortestPaths

/-! ### Contract of the reusable priority queue -/

/-- C1: on a non-empty queue reached from a new queue by pushes and pops, the
queue holds exactly the entries pushed and not yet popped, `pop` returns one of
them whose cost is at most the cost of every entry held, and afterwards the
queue holds the former entries minus the returned one. -/
theorem HeapQueue.pop_returns_minimum (ops : List QueueOp) (q : HeapQueue) (outs : List Entry)
    (hrun : run_ops HeapQueue.new ops = some (q, outs)) (hne : q.empty = false) :
    (outs : Multiset Entry) ≤ (pushed ops : Multiset Entry) ∧
    (q.heap : Multiset Entry) = (pushed ops : Multiset Entry) - (outs : Multiset Entry) ∧
    ∃ e q', q.pop = some (e, q') ∧
      e ∈ (pushed ops : Multiset Entry) - (outs : Multiset Entry) ∧
      (∀ x ∈ (pushed ops : Multiset Entry) - (outs : Multiset Entry), e.1 ≤ x.1) ∧
      (q'.heap : Multiset Entry) =
        ((pushed ops : Multiset Entry) - (outs : Multiset Entry)).erase e := by
  obtain ⟨hheap, hperm, _⟩ := run_ops_inv ops _ _ _ isHeap_nil hrun
  have hms : (q.heap : Multiset Entry) + (outs : Multiset Entry) = (pushed ops : Multiset Entry) := by
    have := Multiset.coe_eq_coe.mpr hperm
    simpa [HeapQueue.new] using this
  have hle : (outs : Multiset Entry) ≤ (pushed ops : Multiset Entry) := by
    rw [← hms]; exact Multiset.le_add_left _ _
  have heq : (q.heap : Multiset Entry) = (pushed ops : Multiset Entry) - (outs : Multiset Entry) := by
    rw [← hms, add_tsub_cancel_right]
  have hnil : q.heap ≠ [] := by
    intro e
    rw [(HeapQueue.empty_iff q).mpr e] at hne
    exact absurd hne (by simp)
  obtain ⟨e, q1, hp, _, hperm1, hmin⟩ := HeapQueue.pop_spec q hnil hheap
  refine ⟨hle, heq, e, q1, hp, ?_, ?_, ?_⟩
  · rw [← heq]
    exact Multiset.mem_coe.mpr (hperm1.symm.subset (List.mem_cons_self _ _))
  · intro x hx
    rw [← heq] at hx
    exact hmin x (Multiset.mem_coe.mp hx)
  · rw [← heq]
    have := Multiset.coe_eq_coe.mpr hperm1
    rw [this, ← Multiset.cons_coe, Multiset.erase_cons_head]

/-- Witness for C1: after `push(5,1); push(3,2); pop(); push(4,3)` the next
`pop` returns `(4,3)` and leaves `(5,1)`. -/
theorem HeapQueue.pop_returns_minimum_witness :
    run_ops HeapQueue.new
        [QueueOp.push 5 1, QueueOp.push 3 2, QueueOp.pop, QueueOp.push 4 3]
      = some (⟨[(4, 3), (5, 1)]⟩, [(3, 2)]) ∧
    (HeapQueue.mk [(4, 3), (5, 1)]).pop = some ((4, 3), ⟨[(5, 1)]⟩) ∧
    ∃ e q', (HeapQueue.mk [(4, 3), (5, 1)]).pop = some (e, q') ∧
      e ∈ ((pushed [QueueOp.push 5 1, QueueOp.push 3 2, QueueOp.pop, QueueOp.push 4 3] :
        List Entry) : Multiset Entry) - (([(3, 2)] : List Entry) : Multiset Entry) ∧
      (∀ x ∈ ((pushed [QueueOp.push 5 1, QueueOp.push 3 2, QueueOp.pop, QueueOp.push 4 3] :
        List Entry) : Multiset Entry) - (([(3, 2)] : List Entry) : Multiset Entry), e.1 ≤ x.1) ∧
      (q'.heap : Multiset Entry) =
        (((pushed [QueueOp.push 5 1, QueueOp.push 3 2, QueueOp.pop, QueueOp.push 4 3] :
          List Entry) : Multiset Entry) - (([(3, 2)] : List Entry) : Multiset Entry)).erase e :=
  ⟨by decide, by decide,
    (HeapQueue.pop_returns_minimum
      [QueueOp.push 5 1, QueueOp.push 3 2, QueueOp.pop, QueueOp.push 4 3]
      ⟨[(4, 3), (5, 1)]⟩ [(3, 2)] (by decide) (by decide)).2.2⟩

/-- C2: pushing the entries of any list onto a new queue and popping as many
times as there are entries succeeds, empties the queue, and yields the pushed
entries permuted into non-decreasing cost order. -/
theorem HeapQueue.push_all_pop_all_sorted (entries : List Entry) :
    ∃ out q', pop_n entries.length (push_all HeapQueue.new entries) = some (out, q') ∧
      q'.empty = true ∧ out.length = entries.length ∧
      (out.map Prod.fst).Sorted (· ≤ ·) ∧ out.Perm entries := by
  obtain ⟨hh, hperm⟩ := push_all_inv entries HeapQueue.new isHeap_nil
  have hlen : (push_all HeapQueue.new entries).heap.length = entries.length := by
    simpa [HeapQueue.new] using hperm.length_eq
  obtain ⟨out, q', hp, hemp, hperm2, hsorted⟩ := pop_n_spec entries.length _ hh hlen
  have hpe : out.Perm entries := by
    have := hperm2.trans hperm
    simpa [HeapQueue.new] using this
  refine ⟨out, q', hp, (HeapQueue.empty_iff q').mpr hemp, hpe.length_eq, ?_, hpe⟩
  unfold List.Sorted
  rw [List.pairwise_map]
  exact hsorted

/-- C3: `pop` hits its assertion exactly on an empty queue, and on every
non-empty queue it returns an entry and a successor queue. -/
theorem HeapQueue.pop_fails_iff_empty (q : HeapQueue) :
    (q.pop = none ↔ q.empty = true) ∧
    (q.empty = false ↔ ∃ e q', q.pop = some (e, q')) := by
  unfold HeapQueue.pop
  cases h : q.empty <;> simp

/-- C4: after any successful sequence of pushes and pops on a new queue,
`empty()` holds exactly when the number of pops equals the number of pushes,
which is exactly when the popped entries are all the pushed entries. -/
theorem HeapQueue.empty_iff_all_popped (ops : List QueueOp) (q : HeapQueue)
    (outs : List Entry) (hrun : run_ops HeapQueue.new ops = some (q, outs)) :
    (q.empty = true ↔ num_pops ops = (pushed ops).length) ∧
    (q.empty = true ↔ (outs : Multiset Entry) = (pushed ops : Multiset Entry)) := by
  obtain ⟨_, hperm, hn⟩ := run_ops_inv ops _ _ _ isHeap_nil hrun
  have hlen := hperm.length_eq
  simp only [HeapQueue.new, List.length_append, List.nil_append] at hlen
  have hperm2 : (q.heap ++ outs).Perm (pushed ops) := by simpa [HeapQueue.new] using hperm
  constructor
  · rw [HeapQueue.empty_iff, ← List.length_eq_zero]
    omega
  · rw [HeapQueue.empty_iff]
    constructor
    · intro he
      rw [he] at hperm2
      exact Multiset.coe_eq_coe.mpr (by simpa using hperm2)
    · intro he
      have := (Multiset.coe_eq_coe.mp he).length_eq
      rw [← List.length_eq_zero]
      omega

/-- Witness for C4: `push(5,1); pop()` leaves the queue empty, with one pop
for one push. -/
theorem HeapQueue.empty_iff_all_popped_witness :
    ((HeapQueue.mk []).empty = true ↔
      num_pops [QueueOp.push 5 1, QueueOp.pop] =
        (pushed [QueueOp.push 5 1, QueueOp.pop]).length) ∧
    ((HeapQueue.mk []).empty = true ↔
      (([(5, 1)] : List Entry) : Multiset Entry) =
        ((pushed [QueueOp.push 5 1, QueueOp.pop] : List Entry) : Multiset Entry)) :=
  HeapQueue.empty_iff_all_popped [QueueOp.push 5 1, QueueOp.pop] ⟨[]⟩ [(5, 1)] (by decide)

/-- C5: whatever a queue holds, it is empty after `clear()`. -/
theorem HeapQueue.clear_then_empty (q : HeapQueue) :
    q.clear.empty = true ∧ q.clear.heap.length = 0 := by
  exact ⟨rfl, rfl⟩

/-! ### Contract of the shortest-path engine -/

/-- C7: on a well-formed transition system `full_dijkstra` returns; afterwards
every goal state has distance 0, every state without a path to a goal has
distance `INF_COSTS`, every state with a path has the least summed operator
cost over its paths (a value below both sentinels), which for a non-goal state
is the least `cost(op) + distance(t)` over its outgoing transitions, and no
state is `DIRTY`. -/
theorem ShortestPaths.full_dijkstra_postcondition (sp : ShortestPaths)
    (transitions : List Transitions) (goals : Goals)
    (hwf : WellFormed sp.operator_costs transitions goals) :
    ∃ sp', sp.full_dijkstra transitions goals = some sp' ∧
      sp'.goal_distances.length = transitions.length ∧
      (∀ g ∈ goals, sp'.dist g = 0) ∧
      (∀ u, (∀ d, ¬ PathCost sp.operator_costs transitions goals u d) →
        sp'.dist u = INF_COSTS) ∧
      (∀ u d, PathCost sp.operator_costs transitions goals u d →
        sp'.dist u < DIRTY ∧ sp'.dist u ≤ d ∧
        PathCost sp.operator_costs transitions goals u (sp'.dist u)) ∧
      (∀ u d, PathCost sp.operator_costs transitions goals u d → u ∉ goals →
        (∃ op v, (⟨op, u⟩ : Transition) ∈ transitions.getD v [] ∧
          sp'.dist u = sp.operator_costs.getD op 0 + sp'.dist v) ∧
        (∀ op v, (⟨op, u⟩ : Transition) ∈ transitions.getD v [] →
          sp'.dist u ≤ sp.operator_costs.getD op 0 + sp'.dist v)) ∧
      (∀ u, sp'.dist u ≠ DIRTY) := by
  obtain ⟨sp', S, s, hrun, h, hq⟩ := ShortestPaths.full_dijkstra_inv sp transitions goals hwf
  have hSn : S.length ≤ transitions.length := nodup_length_le S _ h.snodup h.s_lt
  have hn := hwf.size_le
  have hmul : S.length * 2147483647 ≤ 2147483647 * 2147483647 :=
    Nat.mul_le_mul_right _ (le_trans hSn hn)
  have hall : ∀ u, sp'.dist u ≠ INF_COSTS → u ∈ S := by
    intro u hu
    by_contra hnS
    have := h.front u hnS hu
    rw [hq] at this
    exact absurd this (List.not_mem_nil _)
  have hpath : ∀ u d, PathCost sp.operator_costs transitions goals u d →
      u ∈ S ∧ sp'.dist u ≤ d := by
    intro u d hp
    rcases ShortestPaths.path_frontier hwf h u d hp with h1 | ⟨e, he, _⟩
    · exact h1
    · rw [hq] at he; exact absurd he (List.not_mem_nil _)
  have hfinb : ∀ u, u ∈ S → sp'.dist u ≤ S.length * 2147483647 := by
    intro u hu
    rcases h.bound u with hb | hb
    · exact absurd hb (h.s_fin u hu)
    · exact hb
  refine ⟨sp', hrun, h.len_gd, h.goal0, ?_, ?_, ?_, ?_⟩
  · intro u hno
    by_contra hne
    exact hno _ (h.sound u hne)
  · intro u d hp
    obtain ⟨huS, hle⟩ := hpath u d hp
    refine ⟨?_, hle, h.sound u (h.s_fin u huS)⟩
    have := hfinb u huS
    unfold DIRTY
    omega
  · intro u d hp hug
    obtain ⟨huS, _⟩ := hpath u d hp
    constructor
    · obtain ⟨op, v, _, h2, _, h4, _⟩ := h.tree u (h.s_fin u huS) hug
      exact ⟨op, v, h2, by rw [h4]; omega⟩
    · intro op v hedge
      by_cases hv : sp'.dist v = INF_COSTS
      · have := hfinb u huS
        rw [hv]
        unfold INF_COSTS
        omega
      · rcases h.relaxed v (hall v hv) _ hedge with ⟨_, hmem⟩ | hr
        · exact absurd hmem (List.not_mem_nil _)
        · simp only at hr; omega
  · intro u
    rcases h.bound u with hb | hb
    · rw [hb]; decide
    · unfold DIRTY
      omega

/-- Witness for C7: states 0, 1, 2 with transitions 0 -> 1 (cost 5) and
1 -> 2 (cost 3) and goal 2. -/
theorem ShortestPaths.full_dijkstra_postcondition_witness :
    ∃ sp', (ShortestPaths.create [5, 3] false).full_dijkstra
        [[], [⟨0, 0⟩], [⟨1, 1⟩]] [2] = some sp' ∧
      sp'.goal_distances.length = 3 ∧ (∀ g ∈ [2], sp'.dist g = 0) := by
  obtain ⟨sp', h1, h2, h3, _⟩ := ShortestPaths.full_dijkstra_postcondition
    (ShortestPaths.create [5, 3] false) [[], [⟨0, 0⟩], [⟨1, 1⟩]] [2]
    ⟨by decide, by decide, by decide, by decide, by decide, by decide⟩
  exact ⟨sp', h1, h2, h3⟩

/-- C8: when the distances and the tree are those computed by `full_dijkstra`
and the distance of `init` is not `INF_COSTS`, solution extraction returns a
transition sequence that starts at `init`, follows transitions of the graph
one after another, ends in a goal state, has at most as many transitions as
there are states, and whose summed operator costs equal the distance of
`init`. -/
theorem ShortestPaths.extract_solution_correct (sp sp' : ShortestPaths)
    (transitions : List Transitions) (goals : Goals)
    (hwf : WellFormed sp.operator_costs transitions goals)
    (hrun : sp.full_dijkstra transitions goals = some sp')
    (init : Nat) (hfin : sp'.dist init ≠ INF_COSTS) :
    ∃ sol, sp'.extract_solution_from_shortest_path_tree init goals = some sol ∧
      valid_path transitions init sol ∧ end_state init sol ∈ goals ∧
      sol.length ≤ transitions.length ∧
      solution_cost sp.operator_costs sol = sp'.dist init := by
  obtain ⟨sp'', S, s, hrun', h, hq⟩ := ShortestPaths.full_dijkstra_inv sp transitions goals hwf
  rw [hrun] at hrun'
  simp only [Option.some.injEq] at hrun'
  subst hrun'
  have hSn : S.length ≤ transitions.length := nodup_length_le S _ h.snodup h.s_lt
  have hidx : List.indexOf init S ≤ S.length := List.indexOf_le_length
  obtain ⟨sol, h1, h2, h3, h4, h5⟩ :=
    ShortestPaths.extract_loop_spec h (sp'.goal_distances.length + 1) init hfin
      (by rw [h.len_gd]; omega)
  refine ⟨sol, ?_, h2, h3, by omega, h4⟩
  unfold ShortestPaths.extract_solution_from_shortest_path_tree
  rw [if_neg hfin]
  exact h1

/-- Witness for C8: in the three-state chain the solution extracted for state
0 is the two transitions to state 1 and to state 2, of summed cost 8. -/
theorem ShortestPaths.extract_solution_correct_witness :
    ∃ sol, ShortestPaths.extract_solution_from_shortest_path_tree
        { debug := false, task_has_zero_costs := false, operator_costs := [5, 3],
          candidate_queue := ⟨[]⟩, open_queue := ⟨[]⟩, goal_distances := [8, 3, 0],
          dirty_states := [],
          shortest_path := [some ⟨0, 1⟩, some ⟨1, 2⟩, none] } 0 [2] = some sol ∧
      valid_path [[], [⟨0, 0⟩], [⟨1, 1⟩]] 0 sol ∧ end_state 0 sol ∈ [2] ∧
      sol.length ≤ 3 ∧ solution_cost [5, 3] sol = 8 :=
  ShortestPaths.extract_solution_correct
    (ShortestPaths.create [5, 3] false)
    { debug := false, task_has_zero_costs := false, operator_costs := [5, 3],
      candidate_queue := ⟨[]⟩, open_queue := ⟨[]⟩, goal_distances := [8, 3, 0],
      dirty_states := [],
      shortest_path := [some ⟨0, 1⟩, some ⟨1, 2⟩, none] }
    [[], [⟨0, 0⟩], [⟨1, 1⟩]] [2]
    ⟨by decide, by decide, by decide, by decide, by decide, by decide⟩
    (by decide) 0 (by decide)

/-- C9: every external cost between 0 and `INF` converts to the internal
domain and back unchanged; external infinity converts to `INF_COSTS`, which
converts back to external infinity. -/
theorem ShortestPaths.cost_round_trip (c : Int) (h0 : 0 ≤ c) (h1 : c ≤ INF) :
    ShortestPaths.convert_to_32_bit_cost (ShortestPaths.convert_to_64_bit_cost c) = c ∧
    ShortestPaths.convert_to_64_bit_cost INF = INF_COSTS ∧
    ShortestPaths.convert_to_32_bit_cost INF_COSTS = INF := by
  refine ⟨?_, by decide, by decide⟩
  unfold ShortestPaths.convert_to_32_bit_cost ShortestPaths.convert_to_64_bit_cost
  unfold INF at *
  by_cases hc : c = 2147483647
  · subst hc; decide
  · rw [if_neg hc]
    have e : ((c % 18446744073709551616).toNat : Int) = c := by omega
    rw [e, if_neg (by omega)]

/-- Witness for C9: the external cost 5. -/
theorem ShortestPaths.cost_round_trip_witness :
    ShortestPaths.convert_to_32_bit_cost (ShortestPaths.convert_to_64_bit_cost 5) = 5 ∧
    ShortestPaths.convert_to_64_bit_cost INF = INF_COSTS ∧
    ShortestPaths.convert_to_32_bit_cost INF_COSTS = INF :=
  ShortestPaths.cost_round_trip 5 (by decide) (by decide)

/-- C10: every internal cost at or above the external bound `INF`, however
large, narrows to `INF`; the result is never a value wrapped modulo `2 ^ 32`. -/
theorem ShortestPaths.convert_to_32_bit_cost_saturates (x : Cost) (hx : INF ≤ (x : Int)) :
    ShortestPaths.convert_to_32_bit_cost x = INF := by
  unfold ShortestPaths.convert_to_32_bit_cost
  rw [if_pos hx]

/-- Witness for C10: the internal cost `2 ^ 32 + 5` narrows to `INF`, not to
the wrapped value 5. -/
theorem ShortestPaths.convert_to_32_bit_cost_saturates_witness :
    ShortestPaths.convert_to_32_bit_cost 4294967301 = INF :=
  ShortestPaths.convert_to_32_bit_cost_saturates 4294967301 (by decide)

/-- C11: in every clean state of the engine, that is the state computed by
`full_dijkstra` on a well-formed transition system or by
`dijkstra_from_orphans` from a clean state after a split, operators of cost 0
included, every non-goal state `s` whose distance is not `INF_COSTS` has a
recorded tree transition `(op, t)` that is an outgoing transition of `s` with
`distance(s) = cost(op) + distance(t)`, and the walk along tree transitions
from `s` returns within as many rounds as there are states, follows
transitions of the graph, ends in a goal state and visits no state twice. -/
theorem ShortestPaths.tree_sound (costs : List Nat) (transitions : List Transitions)
    (goals : Goals) (sp : ShortestPaths) (hclean : Clean costs transitions goals sp)
    (s : Nat) (hs : s ∉ goals) (hfin : sp.dist s ≠ INF_COSTS) :
    ∃ op t sol, sp.shortest_path.getD s none = some ⟨op, t⟩ ∧
      (⟨op, s⟩ : Transition) ∈ transitions.getD t [] ∧
      sp.dist s = sp.op_cost op + sp.dist t ∧
      ShortestPaths.extract_loop transitions.length sp goals s = some sol ∧
      valid_path transitions s sol ∧ end_state s sol ∈ goals ∧
      sol.length ≤ transitions.length ∧
      (s :: sol.map (fun x => x.target_id)).Nodup := by
  obtain ⟨S, s0, h, hq⟩ := ShortestPaths.Clean.rinv hclean
  have hSn : S.length ≤ transitions.length := nodup_length_le S _ h.snodup h.s_lt
  have hsS : s ∈ S := by
    by_contra hnS
    have := h.front s hnS hfin
    rw [hq] at this
    exact absurd this (List.not_mem_nil _)
  have hidx : List.indexOf s S < S.length := List.indexOf_lt_length.mpr hsS
  obtain ⟨op, t, h1, h2, _, h4, _⟩ := h.tree s hfin hs
  obtain ⟨sol, e1, e2, e3, _, e5, _, e7⟩ :=
    ShortestPaths.extract_loop_spec_r h transitions.length s hfin (by omega)
  refine ⟨op, t, sol, h1, h2, ?_, e1, e2, e3, by omega, e7⟩
  unfold ShortestPaths.op_cost
  rw [h4, h.costs_eq]
  omega

/-- Witness for C11: states 0, 1, 2 with transitions 0 -> 1 (cost 0) and
1 -> 2 (cost 3) and goal 2; state 1 is split into the states 1 and 3, state 0
has a transition to both and only state 1 keeps the transition to state 2.
After `full_dijkstra` and the repair, state 0 has distance 3 through an
operator of cost 0. -/
theorem ShortestPaths.tree_sound_witness :
    ∃ op t sol,
      (some ⟨0, 1⟩ : Option Transition) = some ⟨op, t⟩ ∧
      (⟨op, 0⟩ : Transition) ∈
        [[], [(⟨0, 0⟩ : Transition)], [⟨1, 1⟩], [⟨0, 0⟩]].getD t [] ∧
      (3 : Nat) = [0, 3].getD op 0 +
        ShortestPaths.dist
          { debug := false, task_has_zero_costs := true, operator_costs := [0, 3],
            candidate_queue := ⟨[]⟩, open_queue := ⟨[]⟩,
            goal_distances := [3, 3, 0, 18446744073709551615],
            dirty_states := [1, 3, 0],
            shortest_path := [some ⟨0, 1⟩, some ⟨1, 2⟩, none, none] } t ∧
      ShortestPaths.extract_loop 4
          { debug := false, task_has_zero_costs := true, operator_costs := [0, 3],
            candidate_queue := ⟨[]⟩, open_queue := ⟨[]⟩,
            goal_distances := [3, 3, 0, 18446744073709551615],
            dirty_states := [1, 3, 0],
            shortest_path := [some ⟨0, 1⟩, some ⟨1, 2⟩, none, none] } [2] 0 = some sol ∧
      valid_path [[], [⟨0, 0⟩], [⟨1, 1⟩], [⟨0, 0⟩]] 0 sol ∧ end_state 0 sol ∈ [2] ∧
      sol.length ≤ 4 ∧ (0 :: sol.map (fun x => x.target_id)).Nodup :=
  ShortestPaths.tree_sound [0, 3] [[], [⟨0, 0⟩], [⟨1, 1⟩], [⟨0, 0⟩]] [2]
    { debug := false, task_has_zero_costs := true, operator_costs := [0, 3],
      candidate_queue := ⟨[]⟩, open_queue := ⟨[]⟩,
      goal_distances := [3, 3, 0, 18446744073709551615],
      dirty_states := [1, 3, 0],
      shortest_path := [some ⟨0, 1⟩, some ⟨1, 2⟩, none, none] }
    (Clean.repair
      { debug := false, task_has_zero_costs := true, operator_costs := [0, 3],
        candidate_queue := ⟨[]⟩, open_queue := ⟨[]⟩, goal_distances := [3, 3, 0],
        dirty_states := [],
        shortest_path := [some ⟨0, 1⟩, some ⟨1, 2⟩, none] }
      _ [[], [⟨0, 0⟩], [⟨1, 1⟩]] [[], [⟨0, 0⟩], [⟨1, 1⟩], [⟨0, 0⟩]]
      [[⟨0, 1⟩, ⟨0, 3⟩], [⟨1, 2⟩], [], []] [2] 1 1 3 true
      (Clean.full (ShortestPaths.create [0, 3] false) _ [[], [⟨0, 0⟩], [⟨1, 1⟩]] [2]
        (by decide)
        ⟨by decide, by decide, by decide, by decide, by decide, by decide⟩
        (by decide))
      ⟨by decide, by decide, by decide, by decide, by decide, by decide⟩
      ⟨by decide, by decide, by decide, by decide, by decide, by decide, by decide,
        by decide, by decide⟩
      (by decide))
    0 (by decide) (by decide)

/-- C12: in the split scenario `full_dijkstra` yields distances `[8, 3, 0]` and
the tree 0 -> 1 -> 2; after state 1 is split into 1a (edge to 2) and 1b (no
outgoing edge, entered by the edge of state 0), `dijkstra_from_orphans` yields
`INF_COSTS` for 1b and for state 0, 3 for 1a and 0 for state 2, for both values
of `filter_orphans`, whichever child keeps the id 1 and whichever is passed as
`v1`. -/
theorem ShortestPaths.split_scenario :
    (∃ sp, (ShortestPaths.create [5, 3] false).full_dijkstra
        [[], [⟨0, 0⟩], [⟨1, 1⟩]] [2] = some sp ∧
      sp.goal_distances = [8, 3, 0] ∧
      sp.shortest_path = [some ⟨0, 1⟩, some ⟨1, 2⟩, none] ∧
      ∀ filter_orphans : Bool,
        (∀ v1 v2, (v1 = 1 ∧ v2 = 3) ∨ (v1 = 3 ∧ v2 = 1) →
          ∃ sp', sp.dijkstra_from_orphans [[], [], [⟨1, 1⟩], [⟨0, 0⟩]]
              [[⟨0, 3⟩], [⟨1, 2⟩], [], []] 1 v1 v2 filter_orphans = some sp' ∧
            sp'.goal_distances = [INF_COSTS, 3, 0, INF_COSTS]) ∧
        (∀ v1 v2, (v1 = 1 ∧ v2 = 3) ∨ (v1 = 3 ∧ v2 = 1) →
          ∃ sp', sp.dijkstra_from_orphans [[], [⟨0, 0⟩], [⟨1, 3⟩], []]
              [[⟨0, 1⟩], [], [], [⟨1, 2⟩]] 1 v1 v2 filter_orphans = some sp' ∧
            sp'.goal_distances = [INF_COSTS, INF_COSTS, 0, 3])) := by
  refine ⟨_, rfl, by decide, by decide, ?_⟩
  intro filter_orphans
  constructor
  · rintro v1 v2 (⟨rfl, rfl⟩ | ⟨rfl, rfl⟩) <;> cases filter_orphans <;>
      exact ⟨_, rfl, by decide⟩
  · rintro v1 v2 (⟨rfl, rfl⟩ | ⟨rfl, rfl⟩) <;> cases filter_orphans <;>
      exact ⟨_, rfl, by decide⟩

/-! ### Contract of the queue after `clear()` -/

/-- C14: whatever a queue holds, a sequence of `push`, `pop` and `empty` calls
run after `clear()` gives the same results as on a newly constructed queue, and
every entry returned by `pop` was pushed by that sequence. -/
theorem HeapQueue.clear_then_reuse (q : HeapQueue) (calls : List QueueCall) :
    run_calls q.clear calls = run_calls HeapQueue.new calls ∧
    ∀ e, QueueResult.popped e ∈ run_calls q.clear calls → e ∈ pushed_by calls := by
  refine ⟨rfl, ?_⟩
  intro e he
  rcases run_calls_popped calls q.clear e isHeap_nil he with h | h
  · simp [HeapQueue.clear] at h
  · exact h

/-! ### Contract of the relaxed possibly-before facts -/

/-- C15: on a well-formed task `compute_possibly_before_facts` returns a set
that contains every fact of the initial state, is closed under every operator
that does not achieve `last_fact`, and is contained in every set with these two
properties; each of its facts is initial or an effect of an operator that does
not achieve `last_fact` and whose preconditions are in the set. -/
theorem possibly_before_least_fixpoint (task : Task) (hwf : task.WellFormed)
    (last_fact : Fact) :
    ∃ S, compute_possibly_before_facts task last_fact = some S ∧
      (∀ x ∈ task.initial_facts, x ∈ S) ∧
      ClosedUnder task last_fact (fun x => x ∈ S) ∧
      (∀ T : Fact → Prop, (∀ x ∈ task.initial_facts, T x) →
        ClosedUnder task last_fact T → ∀ x ∈ S, T x) ∧
      (∀ x ∈ S, x ∈ task.initial_facts ∨
        ∃ op ∈ task.operators, operator_achieves_fact op last_fact = false ∧
          (∀ p ∈ op.preconditions, p ∈ S) ∧ x ∈ op.effects) := by
  obtain ⟨S, k, h1, _, _, _, h5, h6, h7⟩ := compute_spec task hwf last_fact
  refine ⟨S, ?_, h5, h6, h7, ?_⟩
  · unfold compute_possibly_before_facts
    rw [h1]; rfl
  · intro x hx
    have := h7 (fun x => x ∈ S ∧ (x ∈ task.initial_facts ∨
        ∃ op ∈ task.operators, operator_achieves_fact op last_fact = false ∧
          (∀ p ∈ op.preconditions, p ∈ S) ∧ x ∈ op.effects))
      (fun y hy => ⟨h5 y hy, Or.inl hy⟩)
      (by
        intro op hop hach hpre e he
        have hpreS : ∀ p ∈ op.preconditions, p ∈ S := fun p hp => (hpre p hp).1
        exact ⟨h6 op hop hach hpreS e he, Or.inr ⟨op, hop, hach, hpreS, he⟩⟩)
      x hx
    exact this.2

/-- Witness for C15: three binary variables, all 0 initially, and a chain of
three operators of which the last achieves the fact asked for. -/
theorem possibly_before_least_fixpoint_witness :
    ∃ S, compute_possibly_before_facts
        ⟨[2, 2, 2], [0, 0, 0],
          [⟨[⟨1, 1⟩], [⟨2, 1⟩]⟩, ⟨[⟨0, 0⟩], [⟨1, 1⟩]⟩, ⟨[⟨2, 1⟩], [⟨0, 1⟩]⟩]⟩ ⟨0, 1⟩ = some S ∧
      (⟨2, 1⟩ : Fact) ∈ S ∧ (⟨0, 1⟩ : Fact) ∉ S := by
  obtain ⟨S, h1, _⟩ := possibly_before_least_fixpoint
    ⟨[2, 2, 2], [0, 0, 0],
      [⟨[⟨1, 1⟩], [⟨2, 1⟩]⟩, ⟨[⟨0, 0⟩], [⟨1, 1⟩]⟩, ⟨[⟨2, 1⟩], [⟨0, 1⟩]⟩]⟩
    ⟨by decide, by decide, by decide⟩ ⟨0, 1⟩
  refine ⟨S, h1, ?_⟩
  have h2 : compute_possibly_before_facts
      ⟨[2, 2, 2], [0, 0, 0],
        [⟨[⟨1, 1⟩], [⟨2, 1⟩]⟩, ⟨[⟨0, 0⟩], [⟨1, 1⟩]⟩, ⟨[⟨2, 1⟩], [⟨0, 1⟩]⟩]⟩ ⟨0, 1⟩ =
      some [⟨0, 0⟩, ⟨1, 0⟩, ⟨2, 0⟩, ⟨1, 1⟩, ⟨2, 1⟩] := by decide
  rw [h2] at h1
  simp only [Option.some.injEq] at h1
  subst h1
  decide

/-- C16: on a well-formed task `get_relaxed_possible_before` returns the set of
`compute_possibly_before_facts` with `fact` inserted; it contains `fact` and
every fact of the initial state, whether or not an operator achieves `fact`. -/
theorem get_relaxed_possible_before_spec (task : Task) (hwf : task.WellFormed)
    (fact : Fact) :
    ∃ S R, compute_possibly_before_facts task fact = some S ∧
      get_relaxed_possible_before task fact = some R ∧
      R = hash_set_insert S fact ∧
      (∀ x, x ∈ R ↔ x ∈ S ∨ x = fact) ∧ fact ∈ R ∧
      (∀ x ∈ task.initial_facts, x ∈ R) := by
  obtain ⟨S, k, h1, _, _, _, h5, _, _⟩ := compute_spec task hwf fact
  have hc : compute_possibly_before_facts task fact = some S := by
    unfold compute_possibly_before_facts
    rw [h1]; rfl
  refine ⟨S, hash_set_insert S fact, hc, ?_, rfl, mem_hash_set_insert S fact, ?_, ?_⟩
  · unfold get_relaxed_possible_before
    rw [hc]; rfl
  · exact (mem_hash_set_insert S fact fact).mpr (Or.inr rfl)
  · intro x hx
    exact (mem_hash_set_insert S fact x).mpr (Or.inl (h5 x hx))

/-- Witness for C16: no operator at all, so the fact asked for is not
achievable, and it is in the result all the same. -/
theorem get_relaxed_possible_before_spec_witness :
    ∃ S R, compute_possibly_before_facts ⟨[2], [0], []⟩ ⟨0, 1⟩ = some S ∧
      get_relaxed_possible_before ⟨[2], [0], []⟩ ⟨0, 1⟩ = some R ∧
      R = hash_set_insert S ⟨0, 1⟩ ∧
      (∀ x, x ∈ R ↔ x ∈ S ∨ x = ⟨0, 1⟩) ∧ (⟨0, 1⟩ : Fact) ∈ R ∧
      (∀ x ∈ (Task.mk [2] [0] []).initial_facts, x ∈ R) :=
  get_relaxed_possible_before_spec ⟨[2], [0], []⟩
    ⟨by decide, by decide, by decide⟩ ⟨0, 1⟩

/-- C17: on a well-formed task the `while` loop of
`compute_possibly_before_facts` exits after at most (number of facts) + 1
rounds, whatever larger bound it is given; a round never loses a fact, a round
that adds no fact is the last one, and the set never holds more facts than the
task has. -/
theorem possibly_before_loop_terminates (task : Task) (hwf : task.WellFormed)
    (last_fact : Fact) :
    ∃ S k, (∀ fuel, task.num_facts + 1 ≤ fuel →
        pb_loop fuel task last_fact 0 (task.initial_facts.foldl hash_set_insert []) =
          some (S, k)) ∧
      k ≤ task.num_facts + 1 ∧ S.length ≤ task.num_facts ∧
      (∀ pb : List Fact, (∀ x ∈ pb, x ∈ pb_round task last_fact pb) ∧
        pb.length ≤ (pb_round task last_fact pb).length) ∧
      (∀ (fuel last : Nat) (pb : List Fact), last ≠ pb.length →
        (pb_round task last_fact pb).length = pb.length →
        pb_loop (fuel + 1) task last_fact last pb = some (pb_round task last_fact pb, 1)) := by
  obtain ⟨S, k, h1, h2, _, h4, _, _, _⟩ := compute_spec task hwf last_fact
  refine ⟨S, k, ?_, h2, h4, ?_, ?_⟩
  · intro fuel hfuel
    exact pb_loop_mono_le _ _ _ _ _ _ _ hfuel h1
  · intro pb
    obtain ⟨g1, _, _, g4, _⟩ := foldl_pb_visit_spec last_fact task.operators pb
    exact ⟨g1, g4⟩
  · intro fuel last pb hl heq
    rw [pb_loop_succ _ _ _ _ _ hl, ← heq, pb_loop_exit]
    rfl

/-- Witness for C17: the chain of three operators needs three rounds, within
the bound of seven. -/
theorem possibly_before_loop_terminates_witness :
    ∃ S k, (∀ fuel, 7 ≤ fuel →
        pb_loop fuel
          ⟨[2, 2, 2], [0, 0, 0],
            [⟨[⟨1, 1⟩], [⟨2, 1⟩]⟩, ⟨[⟨0, 0⟩], [⟨1, 1⟩]⟩, ⟨[⟨2, 1⟩], [⟨0, 1⟩]⟩]⟩ ⟨0, 1⟩ 0
          [⟨0, 0⟩, ⟨1, 0⟩, ⟨2, 0⟩] = some (S, k)) ∧ k ≤ 7 := by
  obtain ⟨S, k, h1, h2, _⟩ := possibly_before_loop_terminates
    ⟨[2, 2, 2], [0, 0, 0],
      [⟨[⟨1, 1⟩], [⟨2, 1⟩]⟩, ⟨[⟨0, 0⟩], [⟨1, 1⟩]⟩, ⟨[⟨2, 1⟩], [⟨0, 1⟩]⟩]⟩
    ⟨by decide, by decide, by decide⟩ ⟨0, 1⟩
  exact ⟨S, k, h1, h2⟩

/-! ### Contract of the option `h_update` -/

/-- C18: `add_h_update_option` registers as many names as `HUpdateStrategy` has
enumerators, the name at every position is the identifier of the enumerator
with that value, and the default `COST_MINUS_G` is one of the names. -/
theorem h_update_names_match_enum :
    add_h_update_option.names.length = HUpdateStrategy.enumerators.length ∧
    add_h_update_option.names = HUpdateStrategy.enumerators.map HUpdateStrategy.name ∧
    (∀ s : HUpdateStrategy,
      HUpdateStrategy.enumerators.get? s.to_index = some s ∧
      add_h_update_option.names.get? s.to_index = some s.name) ∧
    add_h_update_option.default_value ∈ add_h_update_option.names ∧
    add_h_update_option.default_value = HUpdateStrategy.COST_MINUS_G.name := by
  refine ⟨by decide, by decide, ?_, by decide, by decide⟩
  intro s
  cases s <;> exact ⟨rfl, by decide⟩

end cegar

namespace cost_saturation

/-! ### Contract of the constraints of the PhO linear program -/

/-- C13: in saturated mode with two abstractions whose saturated costs for the
only operator are `-INF` and 5, the constraint of that operator is still
loaded, with the term of the second abstraction; only the term of the first
abstraction is left out. -/
theorem pho_constraint_kept_despite_minus_inf :
    (∃ i, i < 2 ∧ (([[-INF], [5]] : List (List Int)).getD i []).getD 0 0 = -INF) ∧
    (constraint_for true [[-INF], [5]] (fun _ _ => true) [7] 2 0).empty = false ∧
    pho_constraints true [[-INF], [5]] (fun _ _ => true) [7] 2 =
      [{ upper_bound := 7, terms := [(1, 5)] }] := by
  refine ⟨⟨0, by decide, by decide⟩, by decide, by decide⟩

end cost_saturation
